import Mathlib

/-!
# Verification of the Partition & Reconstruction Engine

This file is a shallow embedding of the line-split core of the
`git-atomic-check` repository (`src/line-split/extract.ts` and
`src/line-split/assemble.ts`), together with proofs checking the
natural-language specification against it.

Modelling conventions:

* TypeScript strings are Lean `String`s.  The code's only use of
  `s.split('\n')` / `a.join('\n')` is modelled by `toLines` / `fromLines`,
  defined over `String.data` (a `List Char`), which agree with the
  JavaScript functions: splitting on each occurrence of `'\n'`, with
  `"".split('\n') = [""]` and `[].join('\n') = ""`.
* A hunk's `content` field is stored already split into its lines
  (the result of `hunk.content.split('\n')`), since both consumers of the
  field (`extractChanges` and `buildFileContent`) split it the same way
  as their first action.
* The two regular-expression matches applied to `hunk.header`
  (`/@@ -(\d+)(?:,\d+)? \+(\d+)(?:,\d+)? @@/` in `extractChanges`,
  `/@@ -(\d+)/` in `buildFileContent`) are modelled by two pre-parsed
  fields `headerFull` and `headerOrig` holding the captured numbers, or
  `none` when the regex does not match.
* JavaScript `Map`s (insertion-ordered, `set` keeps the position of an
  existing key) are modelled by association lists with
  `listSet` / `listGet`; `Set`s by lists with `setAdd` / membership.
* Exceptions (`commits[0].id` on an empty plan,
  `commitFileRanges.get(id)!` on an id absent from the plan) are modelled
  by `Option`: a `none` result of `extractChanges` models a thrown
  `TypeError`.
* The two external collaborators of `buildPatches`
  (`getFileAtRef` and `generateUnifiedDiff` from `../git.js`) are taken
  as function parameters, following §6 of the specification
  (`originalContentProvider`, `diffGenerator`).
-/

/-- JavaScript `s.split('\n')`: split on every newline character.
`"".split('\n') = [""]`. -/
def toLines (s : String) : List String :=
  (s.data.splitOn '\n').map (fun l => String.mk l)

/-- JavaScript `a.join('\n')`: interleave the newline character.
`[].join('\n') = ""`. -/
def fromLines (ls : List String) : String :=
  String.mk (List.intercalate [('\n' : Char)] (ls.map String.data))

/-- JavaScript `s.startsWith(t)`: prefix test. -/
def strStartsWith (s pre : String) : Bool :=
  pre.data.isPrefixOf s.data

/-- JavaScript `s.slice(1)`: drop the first character. -/
def strDrop1 (s : String) : String :=
  String.mk (s.data.drop 1)

/-- JavaScript `s.includes(t)`: substring test. -/
def strContains (s pat : String) : Bool :=
  decide (List.IsInfix pat.data s.data)

/-- Insertion-ordered map `set`: JavaScript `Map.prototype.set` keeps the
position of an existing key and appends a fresh key at the end. -/
def listSet {α β : Type} [DecidableEq α] (m : List (α × β)) (k : α) (v : β) :
    List (α × β) :=
  if m.any (fun p => p.1 = k) then
    m.map (fun p => if p.1 = k then (k, v) else p)
  else
    m ++ [(k, v)]

/-- Map lookup, JavaScript `Map.prototype.get` (insertion order is
irrelevant for lookup because `listSet` keeps keys unique). -/
def listGet {α β : Type} [DecidableEq α] (m : List (α × β)) (k : α) :
    Option β :=
  (m.find? (fun p => decide (p.1 = k))).map (fun p => p.2)

/-- Insertion-ordered set `add`: JavaScript `Set.prototype.add`. -/
def setAdd {α : Type} [DecidableEq α] (s : List α) (x : α) : List α :=
  if x ∈ s then s else s ++ [x]

/-! ## Data model (`extract.ts`, `git.ts` types as used by the core) -/

/-- A change block ("hunk") of the parsed diff, as consumed by the core.
`content` is `hunk.content.split('\n')`; `headerFull` models the match of
`/@@ -(\d+)(?:,\d+)? \+(\d+)(?:,\d+)? @@/` against `hunk.header` and
`headerOrig` the match of `/@@ -(\d+)/` (each `none` when the regex fails
to match; for any real unified-diff header both match and
`headerFull = some (a, c)` comes with `headerOrig = some a`). -/
structure ParsedHunk where
  id : Nat
  headerFull : Option (Nat × Nat)
  headerOrig : Option Nat
  startLine : Int
  content : List String
deriving Repr, DecidableEq

/-- A file of the parsed diff. -/
structure ParsedFileDiff where
  filePath : String
  fileHeader : String
  hunks : List ParsedHunk
deriving Repr, DecidableEq

/-- One entry of the commit plan. -/
structure CommitPlan where
  id : String
  message : String
  description : String
deriving Repr, DecidableEq

/-- One classified line of a hunk, from the classification service. -/
structure ClassifiedLine where
  lineIndex : Nat
  commitId : String
deriving Repr, DecidableEq

/-- Classification result for one hunk. -/
structure HunkClassificationResult where
  hunkId : Nat
  lines : List ClassifiedLine
deriving Repr, DecidableEq

/-- A range of consecutive lines of the same type (`extract.ts`). -/
structure LineRange where
  hunkId : Nat
  startLineIdx : Nat
  endLineIdx : Nat
  type : Char
  lines : List String
  startOriginalLineNum : Int
  startNewLineNum : Int
deriving Repr, DecidableEq

/-- Changes for a single file (`extract.ts`). -/
structure FileChanges where
  filePath : String
  ranges : List LineRange
deriving Repr, DecidableEq

/-- Changes grouped by commit (`extract.ts`). -/
structure CommitChanges where
  commitId : String
  message : String
  description : String
  fileChanges : List FileChanges
deriving Repr, DecidableEq, Inhabited

/-! ## `buildClassificationMap` -/

/-- `buildClassificationMap`: the JavaScript map is keyed by the string
`` `${hunkId}:${lineIndex}` ``, which is in bijection with the pair of
numbers, so the model keys directly by `(hunkId, lineIndex)`. -/
def buildClassificationMap (classifications : List HunkClassificationResult) :
    List ((Nat × Nat) × String) :=
  classifications.foldl
    (fun m hunkResult =>
      hunkResult.lines.foldl
        (fun m line => listSet m (hunkResult.hunkId, line.lineIndex) line.commitId)
        m)
    []

/-- `classMap.get(key) || commits[0].id`: a missing entry and the empty
string are both falsy, so they fall back to `commits[0].id`, which throws
(`none`) on an empty plan. -/
def resolveCommit (classMap : List ((Nat × Nat) × String))
    (commits : List CommitPlan) (hunkId lineIdx : Nat) : Option String :=
  match listGet classMap (hunkId, lineIdx) with
  | some c => if c = "" then (commits.head?).map CommitPlan.id else some c
  | none => (commits.head?).map CommitPlan.id

/-! ## The scan of `extractChanges`

`extractChanges` mutates a nested map
`commitId -> filePath -> LineRange[]`, pushing each flushed range at the
end of its `(commitId, filePath)` array.  Since JavaScript `Map`s iterate
in insertion order and `push` appends, the final structure is fully
determined by the flat sequence of flushed ranges (each tagged with its
commit id and file path, in flush order): per commit the ranges are those
flushed for it, grouped by file path in first-flush order, each group in
flush order.  The model therefore records the flat flush sequence
(`Emit`) and regroups it at the end (`groupEmits`). -/

/-- One flushed range: the `commitFileRanges.get(commitId)` /
`fileRanges.get(filePath).push(range)` step of `flushRange`. -/
structure Emit where
  commitId : String
  filePath : String
  range : LineRange
deriving Repr, DecidableEq

/-- The in-progress range of the scan (`currentRange`). -/
structure CurRange where
  commitId : String
  type : Char
  startIdx : Nat
  lines : List String
  startOriginalLineNum : Int
  startNewLineNum : Int
deriving Repr, DecidableEq

/-- The `LineRange` built by `flushRange` from the current range. -/
def mkRange (hunkId : Nat) (c : CurRange) : LineRange :=
  { hunkId := hunkId
    startLineIdx := c.startIdx
    endLineIdx := c.startIdx + c.lines.length - 1
    type := c.type
    lines := c.lines
    startOriginalLineNum := c.startOriginalLineNum
    startNewLineNum := c.startNewLineNum }

/-- `flushRange`: emit the current range, if any.
`commitFileRanges.get(currentRange.commitId)!` throws (`none`) when the
commit id is not a key of the outer map, i.e. not an id of the plan. -/
def flushCur (commits : List CommitPlan) (filePath : String) (hunkId : Nat)
    (emits : List Emit) (cur : Option CurRange) : Option (List Emit) :=
  match cur with
  | none => some emits
  | some c =>
      if c.commitId ∈ commits.map CommitPlan.id then
        some (emits ++ [⟨c.commitId, filePath, mkRange hunkId c⟩])
      else
        none

/-- A fresh `currentRange` started at `lineIdx` (the `else` branch of the
extend check): the line counters captured are the pre-increment values. -/
def newCur (commitId : String) (type : Char) (lineIdx : Nat)
    (content : String) (origNum newNum : Int) : CurRange :=
  { commitId := commitId
    type := type
    startIdx := lineIdx
    lines := [content]
    startOriginalLineNum := if type = '-' then origNum else -1
    startNewLineNum := if type = '+' then newNum else -1 }

/-- The per-hunk scan loop of `extractChanges`
(`for (let lineIdx = 0; ...)` plus the final `flushRange()`), with the
`continue` on a trailing empty line modelled by the `line = "" ∧ rest = []`
test (the last index is reached exactly when `rest` is empty). -/
def scanLines (commits : List CommitPlan)
    (classMap : List ((Nat × Nat) × String)) (filePath : String)
    (hunkId : Nat) :
    List String → Nat → Int → Int → Option CurRange → List Emit →
      Option (List Emit)
  | [], _, _, _, cur, emits => flushCur commits filePath hunkId emits cur
  | line :: rest, lineIdx, origNum, newNum, cur, emits =>
    if line = "" ∧ rest = [] then
      scanLines commits classMap filePath hunkId rest (lineIdx + 1)
        origNum newNum cur emits
    else if strStartsWith line "+" || strStartsWith line "-" then
      let type : Char := if strStartsWith line "+" then '+' else '-'
      let lineContent := strDrop1 line
      let origNum' := if type = '+' then origNum else origNum + 1
      let newNum' := if type = '+' then newNum + 1 else newNum
      match resolveCommit classMap commits hunkId lineIdx with
      | none => none
      | some commitId =>
        match cur with
        | some c =>
          if c.commitId = commitId ∧ c.type = type ∧
              c.startIdx + c.lines.length = lineIdx then
            scanLines commits classMap filePath hunkId rest (lineIdx + 1)
              origNum' newNum'
              (some { c with lines := c.lines ++ [lineContent] }) emits
          else
            match flushCur commits filePath hunkId emits (some c) with
            | none => none
            | some emits' =>
              scanLines commits classMap filePath hunkId rest (lineIdx + 1)
                origNum' newNum'
                (some (newCur commitId type lineIdx lineContent origNum newNum))
                emits'
        | none =>
          scanLines commits classMap filePath hunkId rest (lineIdx + 1)
            origNum' newNum'
            (some (newCur commitId type lineIdx lineContent origNum newNum))
            emits
    else
      match flushCur commits filePath hunkId emits cur with
      | none => none
      | some emits' =>
        scanLines commits classMap filePath hunkId rest (lineIdx + 1)
          (origNum + 1) (newNum + 1) none emits'

/-- The scan of one hunk: counters initialised from the parsed header,
falling back to `hunk.startLine` when the header regex does not match. -/
def scanHunk (commits : List CommitPlan)
    (classMap : List ((Nat × Nat) × String)) (filePath : String)
    (hunk : ParsedHunk) : Option (List Emit) :=
  let origNum : Int := match hunk.headerFull with
    | some p => (p.1 : Int)
    | none => hunk.startLine
  let newNum : Int := match hunk.headerFull with
    | some p => (p.2 : Int)
    | none => hunk.startLine
  scanLines commits classMap filePath hunk.id hunk.content 0 origNum newNum
    none []

/-- All hunks of one file, in order. -/
def scanFile (commits : List CommitPlan)
    (classMap : List ((Nat × Nat) × String)) (filePath : String) :
    List ParsedHunk → Option (List Emit)
  | [] => some []
  | h :: hs =>
    match scanHunk commits classMap filePath h with
    | none => none
    | some e1 =>
      match scanFile commits classMap filePath hs with
      | none => none
      | some e2 => some (e1 ++ e2)

/-- All files, in order. -/
def scanFiles (commits : List CommitPlan)
    (classMap : List ((Nat × Nat) × String)) :
    List ParsedFileDiff → Option (List Emit)
  | [] => some []
  | f :: fs =>
    match scanFile commits classMap f.filePath f.hunks with
    | none => none
    | some e1 =>
      match scanFiles commits classMap fs with
      | none => none
      | some e2 => some (e1 ++ e2)

/-- First occurrences of a list of keys, in order (the iteration order of
a JavaScript `Map` whose keys were inserted in this order). -/
def firstOccs (l : List String) : List String :=
  l.foldl (fun acc x => if x ∈ acc then acc else acc ++ [x]) []

/-- The final regrouping of `extractChanges` (`commits.map(...)` over the
nested maps): per commit, its flushed ranges grouped by file path in
first-flush order, keeping only nonempty groups
(`if (ranges.length > 0)`). -/
def groupEmits (commits : List CommitPlan) (emits : List Emit) :
    List CommitChanges :=
  commits.map fun commit =>
    let ce := emits.filter (fun e => decide (e.commitId = commit.id))
    let fileChanges :=
      (firstOccs (ce.map Emit.filePath)).map fun p =>
        { filePath := p
          ranges := (ce.filter (fun e => decide (e.filePath = p))).map Emit.range
          : FileChanges }
    { commitId := commit.id
      message := commit.message
      description := commit.description
      fileChanges := fileChanges.filter (fun fc => fc.ranges.length > 0) }

/-- `extractChanges` (`extract.ts`): `none` models a thrown exception. -/
def extractChanges (files : List ParsedFileDiff) (commits : List CommitPlan)
    (classifications : List HunkClassificationResult) :
    Option (List CommitChanges) :=
  let classMap := buildClassificationMap classifications
  match scanFiles commits classMap files with
  | none => none
  | some emits => some (groupEmits commits emits)

/-! ## `validateExtraction` -/

/-- The result record of `validateExtraction`. -/
structure ValidationResult where
  valid : Bool
  errors : List String
deriving Repr, DecidableEq

/-- The duplicate-range error string. -/
def dupMsg (hunkId startIdx endIdx : Nat) (commitId : String) : String :=
  "Duplicate range: " ++ toString hunkId ++ ":" ++ toString startIdx ++ "-"
    ++ toString endIdx ++ " in commit " ++ commitId

/-- The count-mismatch error string. -/
def mismatchMsg (extracted expected : Nat) : String :=
  "Line count mismatch: extracted " ++ toString extracted ++ ", expected "
    ++ toString expected

/-- Number of `+`/`-` lines of the whole input diff. -/
def totalChangedLines (files : List ParsedFileDiff) : Nat :=
  (files.map fun file =>
    (file.hunks.map fun hunk =>
      (hunk.content.filter
        (fun line => strStartsWith line "+" || strStartsWith line "-")).length).sum).sum

/-- The span key of a range (`` `${hunkId}:${start}-${end}` ``, in
bijection with the triple of numbers). -/
def rangeKey (r : LineRange) : Nat × Nat × Nat :=
  (r.hunkId, r.startLineIdx, r.endLineIdx)

/-- All ranges of a `CommitChanges` list, with their commit ids, in
iteration order. -/
def taggedRanges (commitChanges : List CommitChanges) :
    List (String × LineRange) :=
  commitChanges.flatMap fun commit =>
    commit.fileChanges.flatMap fun fc =>
      fc.ranges.map fun r => (commit.commitId, r)

/-- The range-loop body of `validateExtraction`, folded over
`taggedRanges`: state is (extracted count, seen span keys, errors). -/
def validateStep (st : Nat × List (Nat × Nat × Nat) × List String)
    (tr : String × LineRange) : Nat × List (Nat × Nat × Nat) × List String :=
  let (cnt, seen, errs) := st
  let key := rangeKey tr.2
  let errs' :=
    if key ∈ seen then
      errs ++ [dupMsg tr.2.hunkId tr.2.startLineIdx tr.2.endLineIdx tr.1]
    else errs
  (cnt + tr.2.lines.length, setAdd seen key, errs')

/-- `validateExtraction` (`extract.ts`). -/
def validateExtraction (files : List ParsedFileDiff)
    (commitChanges : List CommitChanges) : ValidationResult :=
  let total := totalChangedLines files
  let folded := (taggedRanges commitChanges).foldl validateStep (0, [], [])
  let errors :=
    if folded.1 ≠ total then
      folded.2.2 ++ [mismatchMsg folded.1 total]
    else folded.2.2
  { valid := errors.length = 0, errors := errors }

/-! ## `buildFileContent` (`assemble.ts`) -/

/-- Membership in `selectedByHunk.get(hunkId)`: the union over the ranges
of that hunk of their inclusive index intervals. -/
def isSelected (ranges : List LineRange) (hunkId lineIdx : Nat) : Bool :=
  ranges.any fun r =>
    decide (r.hunkId = hunkId ∧ r.startLineIdx ≤ lineIdx ∧
      lineIdx ≤ r.endLineIdx)

/-- The per-hunk line loop of `buildFileContent`: walks the hunk's lines,
returning the produced lines and the final position in the original
content.  A line that starts with none of `+`, `-`, `' '` is ignored
(no branch of the `if` chain matches it). -/
def buildHunkLines (sel : Nat → Bool) (origLines : List String) :
    List String → Nat → Nat → List String × Nat
  | [], _, origIdx => ([], origIdx)
  | line :: rest, lineIdx, origIdx =>
    if line = "" ∧ rest = [] then
      buildHunkLines sel origLines rest (lineIdx + 1) origIdx
    else if strStartsWith line "+" then
      let t := buildHunkLines sel origLines rest (lineIdx + 1) origIdx
      ((if sel lineIdx then [strDrop1 line] else []) ++ t.1, t.2)
    else if strStartsWith line "-" then
      if sel lineIdx then
        buildHunkLines sel origLines rest (lineIdx + 1) (origIdx + 1)
      else
        let t := buildHunkLines sel origLines rest (lineIdx + 1) (origIdx + 1)
        ((origLines[origIdx]?).toList ++ t.1, t.2)
    else if strStartsWith line " " then
      let t := buildHunkLines sel origLines rest (lineIdx + 1) (origIdx + 1)
      ((origLines[origIdx]?).toList ++ t.1, t.2)
    else
      buildHunkLines sel origLines rest (lineIdx + 1) origIdx

/-- The `@@ -(\d+)` position of a hunk, 0-indexed
(`parseInt(headerMatch[1]) - 1`, or `0` when the regex does not match). -/
def hunkStartPos (hunk : ParsedHunk) : Int :=
  match hunk.headerOrig with
  | some a => (a : Int) - 1
  | none => 0

/-- One hunk of `buildFileContent`: the copy-up-to-the-hunk `while` loop
(in closed form: it pushes the original lines from `origIdx` up to
`min hunkStartPos length` and leaves the position at
`max origIdx (min hunkStartPos length)`), then the line loop. -/
def buildHunk (selectedRanges : List LineRange) (origLines : List String)
    (hunk : ParsedHunk) (origIdx : Nat) : List String × Nat :=
  let stop : Nat := (min (hunkStartPos hunk) (origLines.length : Int)).toNat
  let copied := (origLines.drop origIdx).take (stop - origIdx)
  let origIdx1 := max origIdx stop
  let t := buildHunkLines (fun i => isSelected selectedRanges hunk.id i)
    origLines hunk.content 0 origIdx1
  (copied ++ t.1, t.2)

/-- The accumulator step of `buildFileContent`'s hunk loop. -/
def buildFCStep (selectedRanges : List LineRange) (origLines : List String)
    (acc : List String × Nat) (hunk : ParsedHunk) : List String × Nat :=
  let t := buildHunk selectedRanges origLines hunk acc.2
  (acc.1 ++ t.1, t.2)

/-- `buildFileContent` (`assemble.ts`). -/
def buildFileContent (originalContent : String) (hunks : List ParsedHunk)
    (selectedRanges : List LineRange) : String :=
  if hunks.length = 0 then originalContent
  else
    let origLines := if originalContent = "" then [] else toLines originalContent
    let folded := hunks.foldl (buildFCStep selectedRanges origLines) ([], 0)
    fromLines (folded.1 ++ origLines.drop folded.2)

/-! ## `initializeContext`, `buildPatches` (`assemble.ts`)

`getFileAtRef` and `generateUnifiedDiff` are the external collaborators
from `../git.js` (§6: `originalContentProvider`, `diffGenerator`); they
are passed as function parameters.  `getFileAtRef` returns `none` for an
absent file (`content || ''` in the source turns it into `""`). -/

/-- The mutable context of `buildPatches` (association list / lists model
the JavaScript `Map` / `Set`s). -/
structure PatchBuildContext where
  fileStates : List (String × String)
  newFiles : List String
  createdInPatch : List String
deriving Repr, DecidableEq

/-- The per-file body of the `initializeContext` loop. -/
def initFileStep (getFileAtRef : String → String → Option String)
    (commitHash : String) (ctx : PatchBuildContext)
    (file : ParsedFileDiff) : PatchBuildContext :=
  let isNewFile := strContains file.fileHeader "new file mode" ||
    strContains file.fileHeader "--- /dev/null"
  if isNewFile then
    { ctx with
        newFiles := setAdd ctx.newFiles file.filePath
        fileStates := listSet ctx.fileStates file.filePath "" }
  else
    let fileContent := getFileAtRef (commitHash ++ "~1") file.filePath
    { ctx with
        fileStates :=
          listSet ctx.fileStates file.filePath (fileContent.getD "") }

/-- `initializeContext` (`assemble.ts`). -/
def initializeContext (getFileAtRef : String → String → Option String)
    (files : List ParsedFileDiff) (commitHash : String) : PatchBuildContext :=
  files.foldl (initFileStep getFileAtRef commitHash)
    { fileStates := [], newFiles := [], createdInPatch := [] }

/-- One assembled patch (`assemble.ts`). -/
structure AssembledPatch where
  commitId : String
  message : String
  description : String
  patch : String
deriving Repr, DecidableEq

/-- A record of one call to the external diff generator, including its
returned fragment.  The call log is extra observability over the source
(which simply calls `generateUnifiedDiff` at this point); `buildPatches`
below is the log-free projection. -/
structure DiffCall where
  filePath : String
  before : String
  after : String
  isNewFile : Bool
  diff : String
deriving Repr, DecidableEq

/-- The per-file body of the `buildPatches` loop, for one
`fileChange` of the current commit.  State: the `createdInPatch` set, the
cumulative ranges per file, the current commit's `patchParts`, and the
log of diff-generator calls made for the current commit. -/
def buildFileStep (gen : String → String → String → Bool → String)
    (files : List ParsedFileDiff) (ctx : PatchBuildContext)
    (st : List String × List (String × List LineRange) × List String ×
      List DiffCall)
    (fileChange : FileChanges) :
    List String × List (String × List LineRange) × List String ×
      List DiffCall :=
  let (created, cum, parts, calls) := st
  match files.find? (fun f => decide (f.filePath = fileChange.filePath)) with
  | none => (created, cum, parts, calls)
  | some file =>
    let originalContent := (listGet ctx.fileStates fileChange.filePath).getD ""
    let isNewFile : Bool := fileChange.filePath ∈ ctx.newFiles &&
      fileChange.filePath ∉ created
    let prevRanges := (listGet cum fileChange.filePath).getD []
    let currentContent :=
      if prevRanges.length > 0 then
        buildFileContent originalContent file.hunks prevRanges
      else originalContent
    let newCumulativeRanges := prevRanges ++ fileChange.ranges
    let cum' := listSet cum fileChange.filePath newCumulativeRanges
    let targetContent :=
      buildFileContent originalContent file.hunks newCumulativeRanges
    let diff := gen fileChange.filePath currentContent targetContent isNewFile
    let calls' := calls ++
      [⟨fileChange.filePath, currentContent, targetContent, isNewFile, diff⟩]
    if diff ≠ "" then
      ((if isNewFile then setAdd created fileChange.filePath else created),
        cum', parts ++ [diff], calls')
    else
      (created, cum', parts, calls')

/-- The per-commit body of the `buildPatches` loop: run the per-file
loop on the commit's `fileChanges` (with fresh `patchParts` and call
log), then append the assembled patch and the commit's call log. -/
def buildCommitStep (gen : String → String → String → Bool → String)
    (files : List ParsedFileDiff) (ctx : PatchBuildContext)
    (acc : List String × List (String × List LineRange) ×
      List AssembledPatch × List (List DiffCall))
    (commit : CommitChanges) :
    List String × List (String × List LineRange) ×
      List AssembledPatch × List (List DiffCall) :=
  let (created, cum, results, logs) := acc
  let inner := commit.fileChanges.foldl (buildFileStep gen files ctx)
    (created, cum, [], [])
  (inner.1, inner.2.1,
    results ++ [{ commitId := commit.commitId
                  message := commit.message
                  description := commit.description
                  patch := String.join inner.2.2.1 }],
    logs ++ [inner.2.2.2])

/-- `buildPatches` with, in addition, the log of every
`generateUnifiedDiff` call, one list per commit (parallel to the
result list). -/
def buildPatchesWithLog (getFileAtRef : String → String → Option String)
    (gen : String → String → String → Bool → String)
    (files : List ParsedFileDiff) (commitChanges : List CommitChanges)
    (commitHash : String) :
    List AssembledPatch × List (List DiffCall) :=
  let ctx := initializeContext getFileAtRef files commitHash
  let folded := commitChanges.foldl (buildCommitStep gen files ctx)
    (ctx.createdInPatch, [], [], [])
  (folded.2.2.1, folded.2.2.2)

/-- The calls the per-file loop makes, run over a list of `fileChanges`
from a given `createdInPatch` / cumulative-ranges state with an empty
log. -/
def fcCalls (gen : String → String → String → Bool → String)
    (files : List ParsedFileDiff) (ctx : PatchBuildContext)
    (fcs : List FileChanges) (cr : List String)
    (cum : List (String × List LineRange)) : List DiffCall :=
  (fcs.foldl (buildFileStep gen files ctx) (cr, cum, [], [])).2.2.2

/-- The diff-generator call `buildFileStep` makes for one `fileChange`
(when its file is found), as a function of the `createdInPatch` and
cumulative-ranges state. -/
def callFor (gen : String → String → String → Bool → String)
    (ctx : PatchBuildContext) (file : ParsedFileDiff) (cr : List String)
    (cum : List (String × List LineRange)) (fileChange : FileChanges) :
    DiffCall :=
  let originalContent := (listGet ctx.fileStates fileChange.filePath).getD ""
  let isNewFile : Bool := fileChange.filePath ∈ ctx.newFiles &&
    fileChange.filePath ∉ cr
  let prevRanges := (listGet cum fileChange.filePath).getD []
  let currentContent :=
    if prevRanges.length > 0 then
      buildFileContent originalContent file.hunks prevRanges
    else originalContent
  let newCumulativeRanges := prevRanges ++ fileChange.ranges
  let targetContent :=
    buildFileContent originalContent file.hunks newCumulativeRanges
  ⟨fileChange.filePath, currentContent, targetContent, isNewFile,
    gen fileChange.filePath currentContent targetContent isNewFile⟩

/-- The chronological diff-generator calls for one file path. -/
def pathCalls (gen : String → String → String → Bool → String)
    (files : List ParsedFileDiff) (ctx : PatchBuildContext) (path : String)
    (fcs : List FileChanges) (cr : List String)
    (cum : List (String × List LineRange)) : List DiffCall :=
  (fcCalls gen files ctx fcs cr cum).filter
    (fun c => decide (c.filePath = path))

/-- `buildPatches` (`assemble.ts`). -/
def buildPatches (getFileAtRef : String → String → Option String)
    (gen : String → String → String → Bool → String)
    (files : List ParsedFileDiff) (commitChanges : List CommitChanges)
    (commitHash : String) : List AssembledPatch :=
  (buildPatchesWithLog getFileAtRef gen files commitChanges commitHash).1

/-! ## The fully-changed post-diff content, and hunk consistency

`Modelled from the spec:` the repository's own diff application is the
external apply step (`git apply`, out of scope per §1/§6); the spec
describes the post-diff state through the replay semantics of §4.2 and
the glossary ("Replay: deterministic reconstruction of a file's content
from its original content, its change blocks, and a selection of which
addition/removal lines to apply" — the fully-changed state selecting
every addition/removal line).  `applyHunkLines` emits, per hunk line,
the hunk's own new text: a context or addition line contributes the line
body, a removal consumes one original line, mirroring the unified-diff
format. -/

/-- `Modelled from the spec:` the line walk of the external apply step
for one hunk: additions and context lines contribute their body (the
line without its marker), removals consume one original line.  The
trailing empty artifact of `split('\n')` is skipped as everywhere
else. -/
def applyHunkLines : List String → Nat → List String × Nat
  | [], origIdx => ([], origIdx)
  | line :: rest, origIdx =>
    if line = "" ∧ rest = [] then ([], origIdx)
    else if strStartsWith line "+" then
      let t := applyHunkLines rest origIdx
      (strDrop1 line :: t.1, t.2)
    else if strStartsWith line "-" then
      applyHunkLines rest (origIdx + 1)
    else
      let t := applyHunkLines rest (origIdx + 1)
      (strDrop1 line :: t.1, t.2)

/-- `Modelled from the spec:` one hunk of the full-diff application:
copy the original lines up to the hunk's declared original start (exactly
as `buildFileContent`'s copy loop does), then apply the hunk's lines. -/
def applyFDStep (origLines : List String) (acc : List String × Nat)
    (hunk : ParsedHunk) : List String × Nat :=
  let stop : Nat := (min (hunkStartPos hunk) (origLines.length : Int)).toNat
  let copied := (origLines.drop acc.2).take (stop - acc.2)
  let t := applyHunkLines hunk.content (max acc.2 stop)
  (acc.1 ++ copied ++ t.1, t.2)

/-- `Modelled from the spec:` the fully-changed post-diff content of one
file: for each hunk in order, copy the original lines up to the hunk's
declared original start, then apply the hunk's lines; copy the remaining
original lines at the end. -/
def applyFullDiff (originalContent : String) (hunks : List ParsedHunk) :
    String :=
  if hunks.length = 0 then originalContent
  else
    let origLines := if originalContent = "" then [] else toLines originalContent
    let folded := hunks.foldl (applyFDStep origLines) ([], 0)
    fromLines (folded.1 ++ origLines.drop folded.2)

/-- Consistency of one hunk's lines with the original content, starting
at original position `origIdx`: every line is an addition, a removal, a
context line, or the trailing empty artifact; every removal and context
line matches the original line at the current position.  Returns the
validity flag and the final original position. -/
def hunkLinesConsistent (origLines : List String) :
    List String → Nat → Bool × Nat
  | [], origIdx => (true, origIdx)
  | line :: rest, origIdx =>
    if line = "" ∧ rest = [] then (true, origIdx)
    else if strStartsWith line "+" then hunkLinesConsistent origLines rest origIdx
    else if strStartsWith line "-" || strStartsWith line " " then
      match origLines[origIdx]? with
      | some l =>
        if l = strDrop1 line then hunkLinesConsistent origLines rest (origIdx + 1)
        else (false, origIdx)
      | none => (false, origIdx)
    else (false, origIdx)

/-- Consistency of a hunk list with the original content: each header
parses under both regexes with the same original start (as every real
unified-diff header does), and each hunk's lines are consistent with the
original content from the position the replay reaches for it (the
position after the copy-up-to-the-hunk loop). -/
def hunksConsistentFrom (origLines : List String) :
    List ParsedHunk → Nat → Bool
  | [], _ => true
  | hunk :: rest, origIdx =>
    match hunk.headerFull, hunk.headerOrig with
    | some p, some a =>
      if p.1 = a then
        let stop : Nat := (min (hunkStartPos hunk) (origLines.length : Int)).toNat
        let t := hunkLinesConsistent origLines hunk.content (max origIdx stop)
        t.1 && hunksConsistentFrom origLines rest t.2
      else false
    | _, _ => false

/-- Consistency of a file's hunks with its original content. -/
def fileConsistent (originalContent : String) (hunks : List ParsedHunk) :
    Bool :=
  let origLines := if originalContent = "" then [] else toLines originalContent
  hunksConsistentFrom origLines hunks 0

/-! ## Verification-side definitions -/

/-- The ids of the plan, i.e. the keys of `commitFileRanges`. -/
def planIds (commits : List CommitPlan) : List String :=
  commits.map CommitPlan.id

/-- Validity of the classification against the plan: every entry names a
group of the plan. -/
def classValid (commits : List CommitPlan)
    (classifications : List HunkClassificationResult) : Prop :=
  ∀ r ∈ classifications, ∀ l ∈ r.lines, l.commitId ∈ planIds commits

/-- Whether index `i` of a hunk's content is an addition/removal line. -/
def isChangeB (lines : List String) (i : Nat) : Bool :=
  match lines[i]? with
  | some l => strStartsWith l "+" || strStartsWith l "-"
  | none => false

/-- The type character the scan derives from a line. -/
def lineTypeOf (l : String) : Char :=
  if strStartsWith l "+" then '+' else '-'

/-- Whether a range's inclusive index interval contains `i`. -/
def coversB (r : LineRange) (i : Nat) : Bool :=
  decide (r.startLineIdx ≤ i ∧ i ≤ r.endLineIdx)

/-- Number of emitted ranges covering index `i`. -/
def countCover (emits : List Emit) (i : Nat) : Nat :=
  emits.countP (fun e => coversB e.range i)

/-- Contribution of the in-progress range to the cover of index `i`. -/
def curCover (cur : Option CurRange) (i : Nat) : Nat :=
  match cur with
  | none => 0
  | some c => if c.startIdx ≤ i ∧ i < c.startIdx + c.lines.length then 1 else 0

/-- Index `i` of `lines` is an addition/removal line resolved to commit
`cid`, with type character `ty`. -/
def labelOK (classMap : List ((Nat × Nat) × String))
    (commits : List CommitPlan) (hunkId : Nat) (lines : List String)
    (i : Nat) (cid : String) (ty : Char) : Prop :=
  ∃ l, lines[i]? = some l ∧
    (strStartsWith l "+" || strStartsWith l "-") = true ∧
    resolveCommit classMap commits hunkId i = some cid ∧ ty = lineTypeOf l

/-- Orderedness of two consecutively flushed ranges: strictly later, and
when exactly adjacent, of a different (commit, type) key. -/
def adjOK (e eNext : Emit) : Prop :=
  e.range.endLineIdx < eNext.range.startLineIdx ∧
    (e.range.endLineIdx + 1 = eNext.range.startLineIdx →
      (e.commitId, e.range.type) ≠ (eNext.commitId, eNext.range.type))

/-- The loop invariant of the per-hunk scan: lines `[0, k)` of `lines`
have been processed, the in-progress range is `cur`, the flushed ranges
are `emits`. -/
structure ScanInv (commits : List CommitPlan)
    (classMap : List ((Nat × Nat) × String)) (filePath : String)
    (hunkId : Nat) (lines : List String) (k : Nat) (cur : Option CurRange)
    (emits : List Emit) : Prop where
  emit_file : ∀ e ∈ emits, e.filePath = filePath
  emit_hunk : ∀ e ∈ emits, e.range.hunkId = hunkId
  emit_commit : ∀ e ∈ emits, e.commitId ∈ planIds commits
  emit_len : ∀ e ∈ emits, 1 ≤ e.range.lines.length ∧
    e.range.endLineIdx + 1 = e.range.startLineIdx + e.range.lines.length
  cur_len : ∀ c, cur = some c → 1 ≤ c.lines.length
  cur_bound : ∀ c, cur = some c → c.startIdx + c.lines.length ≤ k
  cover : ∀ i, countCover emits i + curCover cur i =
    if i < k ∧ isChangeB lines i = true then 1 else 0
  emit_label : ∀ e ∈ emits, ∀ i, coversB e.range i = true →
    labelOK classMap commits hunkId lines i e.commitId e.range.type
  cur_label : ∀ c, cur = some c → ∀ i, c.startIdx ≤ i →
    i < c.startIdx + c.lines.length →
    labelOK classMap commits hunkId lines i c.commitId c.type
  chain : List.Chain' adjOK emits
  last_cur : ∀ e c, emits.getLast? = some e → cur = some c →
    e.range.endLineIdx < c.startIdx ∧
      (e.range.endLineIdx + 1 = c.startIdx →
        (e.commitId, e.range.type) ≠ (c.commitId, c.type))
  last_none : cur = none → ∀ e, emits.getLast? = some e →
    e.range.endLineIdx + 1 < k

/-- What a completed hunk scan guarantees about its emitted ranges. -/
structure ScanOut (commits : List CommitPlan)
    (classMap : List ((Nat × Nat) × String)) (filePath : String)
    (hunkId : Nat) (lines : List String) (out : List Emit) : Prop where
  emit_file : ∀ e ∈ out, e.filePath = filePath
  emit_hunk : ∀ e ∈ out, e.range.hunkId = hunkId
  emit_commit : ∀ e ∈ out, e.commitId ∈ planIds commits
  emit_len : ∀ e ∈ out, 1 ≤ e.range.lines.length ∧
    e.range.endLineIdx + 1 = e.range.startLineIdx + e.range.lines.length
  cover : ∀ i, countCover out i = if isChangeB lines i = true then 1 else 0
  emit_label : ∀ e ∈ out, ∀ i, coversB e.range i = true →
    labelOK classMap commits hunkId lines i e.commitId e.range.type
  chain : List.Chain' adjOK out

/-- All hunks of the input diff, in order. -/
def allHunks (files : List ParsedFileDiff) : List ParsedHunk :=
  files.flatMap ParsedFileDiff.hunks

/-- Global distinctness of hunk identifiers (the data model's "stable
identifier" of a change block, §3). -/
def hunkIdsNodup (files : List ParsedFileDiff) : Prop :=
  ((allHunks files).map ParsedHunk.id).Nodup

/-- The union, over all groups of a `CommitChanges` list, of the ranges
recorded for one file path (in group order, then flush order). -/
def rangesForPath (commitChanges : List CommitChanges) (path : String) :
    List LineRange :=
  commitChanges.flatMap fun c =>
    (c.fileChanges.filter (fun fc => decide (fc.filePath = path))).flatMap
      FileChanges.ranges

/-- An honest diff generator (§6): it returns the empty fragment exactly
when the two states are equal. -/
def honestGen (gen : String → String → String → Bool → String) : Prop :=
  ∀ p b a n, gen p b a n = "" ↔ b = a

/-! ## Concrete example inputs (used by witnesses and counterexamples) -/

/-- Scenario A (§8): a newly created file with three added lines. -/
def exHunkA : ParsedHunk := ⟨0, some (0, 1), some 0, 0, ["+A", "+B", "+C", ""]⟩

/-- The file of scenario A, flagged as newly created. -/
def exFileA : ParsedFileDiff := ⟨"F", "new file mode 100644", [exHunkA]⟩

/-- A two-group commit plan. -/
def exPlan : List CommitPlan := [⟨"c1", "m1", "d1"⟩, ⟨"c2", "m2", "d2"⟩]

/-- Scenario A's classification: first line to group 1, rest to group 2. -/
def exClsA : List HunkClassificationResult :=
  [⟨0, [⟨0, "c1"⟩, ⟨1, "c2"⟩, ⟨2, "c2"⟩]⟩]

/-- A one-group plan. -/
def exPlan1 : List CommitPlan := [⟨"c1", "m", "d"⟩]

/-- A classification naming a commit id absent from any plan. -/
def exClsBad : List HunkClassificationResult := [⟨0, [⟨0, "zz"⟩]⟩]

/-- Scenario B (§8): an existing file with two removals and one context
line. -/
def exHunkB : ParsedHunk := ⟨1, some (1, 1), some 1, 1, ["-X", "-Y", " Z", ""]⟩

/-- The file of scenario B. -/
def exFileB : ParsedFileDiff := ⟨"G", "index 1", [exHunkB]⟩

/-- Scenario B's classification: both removals to group 1. -/
def exClsB : List HunkClassificationResult := [⟨1, [⟨0, "c1"⟩, ⟨1, "c1"⟩]⟩]

/-- Scenario C: a newly created file whose first added line is empty
(`"+"`) and whose second added line is `"+x"`. -/
def exHunkC : ParsedHunk := ⟨2, some (0, 1), some 0, 0, ["+", "+x", ""]⟩

/-- The file of scenario C, flagged as newly created. -/
def exFileC : ParsedFileDiff := ⟨"N", "new file mode 100644", [exHunkC]⟩

/-- Scenario C's classification: the empty added line to group 1, the
nonempty one to group 2. -/
def exClsC : List HunkClassificationResult :=
  [⟨2, [⟨0, "c1"⟩, ⟨1, "c2"⟩]⟩]

/-- A concrete honest diff generator: the empty fragment on equal
states, a nonempty marker fragment otherwise. -/
def exGen : String → String → String → Bool → String :=
  fun p b a _ => if b = a then "" else "diff:" ++ p

/-- Scenario C's extracted `CommitChanges` (group 1 carries the empty
added line, group 2 the nonempty one). -/
def exCCsC : List CommitChanges :=
  (extractChanges [exFileC] exPlan exClsC).getD []

/-! ## Basic lemmas -/

theorem fromLines_toLines (s : String) : fromLines (toLines s) = s := by
  unfold fromLines toLines
  rw [List.map_map]
  have h : (String.data ∘ fun l => String.mk l) = id := rfl
  rw [h, List.map_id, List.intercalate_splitOn]

theorem optToList_append_drop {α : Type} (l : List α) (i : Nat) :
    (l[i]?).toList ++ l.drop (i + 1) = l.drop i := by
  induction l generalizing i with
  | nil => simp
  | cons a t ih =>
    cases i with
    | zero => simp
    | succ n => simpa using ih n

theorem isSelected_nil (hunkId lineIdx : Nat) :
    isSelected [] hunkId lineIdx = false := rfl

theorem buildHunkLines_false (origLines : List String) :
    ∀ (hlines : List String) (lineIdx origIdx : Nat),
      (buildHunkLines (fun _ => false) origLines hlines lineIdx origIdx).1 ++
        origLines.drop
          (buildHunkLines (fun _ => false) origLines hlines lineIdx
            origIdx).2 =
      origLines.drop origIdx := by
  intro hlines
  induction hlines with
  | nil => intro lineIdx origIdx; simp [buildHunkLines]
  | cons line rest ih =>
    intro lineIdx origIdx
    by_cases h1 : line = "" ∧ rest = []
    · simp only [buildHunkLines, if_pos h1]
      exact ih (lineIdx + 1) origIdx
    · by_cases h2 : strStartsWith line "+" = true
      · simp only [buildHunkLines, if_neg h1, if_pos h2]
        simpa using ih (lineIdx + 1) origIdx
      · by_cases h3 : strStartsWith line "-" = true
        · simp only [buildHunkLines, if_neg h1, if_neg h2, if_pos h3,
            Bool.false_eq_true, if_false]
          rw [List.append_assoc, ih (lineIdx + 1) (origIdx + 1),
            optToList_append_drop]
        · by_cases h4 : strStartsWith line " " = true
          · simp only [buildHunkLines, if_neg h1, if_neg h2, if_neg h3,
              if_pos h4]
            rw [List.append_assoc, ih (lineIdx + 1) (origIdx + 1),
              optToList_append_drop]
          · simp only [buildHunkLines, if_neg h1, if_neg h2, if_neg h3,
              if_neg h4]
            exact ih (lineIdx + 1) origIdx

theorem buildHunk_nil_ranges (origLines : List String) (hunk : ParsedHunk)
    (origIdx : Nat) :
    (buildHunk [] origLines hunk origIdx).1 ++
      origLines.drop (buildHunk [] origLines hunk origIdx).2 =
    origLines.drop origIdx := by
  unfold buildHunk
  have hsel : (fun i => isSelected [] hunk.id i) = (fun _ => false) := rfl
  rw [hsel]
  set stop := (min (hunkStartPos hunk) (origLines.length : Int)).toNat with hstop
  simp only [List.append_assoc]
  rw [buildHunkLines_false]
  by_cases h : origIdx < stop
  · have hmax : max origIdx stop = stop := by omega
    rw [hmax]
    have hdd : origLines.drop stop =
        (origLines.drop origIdx).drop (stop - origIdx) := by
      rw [List.drop_drop]
      congr 1
      omega
    rw [hdd, List.take_append_drop]
  · have hmax : max origIdx stop = origIdx := by omega
    have htk : stop - origIdx = 0 := by omega
    rw [hmax, htk]
    simp

theorem foldl_buildHunk_nil_ranges (origLines : List String) :
    ∀ (hunks : List ParsedHunk) (pre : List String) (idx : Nat),
      (hunks.foldl (buildFCStep [] origLines) (pre, idx)).1 ++
        origLines.drop
          (hunks.foldl (buildFCStep [] origLines) (pre, idx)).2 =
      pre ++ origLines.drop idx := by
  intro hunks
  induction hunks with
  | nil => intro pre idx; simp
  | cons hunk rest ih =>
    intro pre idx
    simp only [List.foldl_cons]
    rw [ih]
    show (pre ++ (buildHunk [] origLines hunk idx).1) ++
        origLines.drop (buildHunk [] origLines hunk idx).2 =
      pre ++ origLines.drop idx
    rw [List.append_assoc, buildHunk_nil_ranges]

/-- C10: with an empty hunk list `buildFileContent` returns the original
content unchanged (for any selection), and with an empty selection it
returns the original content unchanged (for any hunk list) — so the
shortcut of `buildPatches` that uses the raw original content as the
before-state of the first group touching a file coincides with a replay
over the empty union of ranges. -/
theorem buildFileContent_identity (orig : String) (hunks : List ParsedHunk)
    (sel : List LineRange) :
    buildFileContent orig [] sel = orig ∧
      buildFileContent orig hunks [] = orig := by
  constructor
  · rfl
  · unfold buildFileContent
    by_cases h : hunks.length = 0
    · rw [if_pos h]
    · rw [if_neg h]
      dsimp only
      have hfold := foldl_buildHunk_nil_ranges
        (if orig = "" then [] else toLines orig) hunks [] 0
      simp only [List.drop_zero, List.nil_append] at hfold
      rw [hfold]
      by_cases horig : orig = ""
      · rw [if_pos horig, horig]
        rfl
      · rw [if_neg horig]
        exact fromLines_toLines orig

/-- C2: `buildFileContent` is a pure function that walks the hunks in
order (the fold decomposition, last conjunct), and per hunk line:
an addition is included in the result iff its index is selected and
consumes no original line; a removal consumes exactly one original line,
copied iff its index is not selected; a context line always copies and
consumes one original line; after the last hunk the remaining original
lines are appended verbatim (last conjunct). -/
theorem buildFileContent_line_behavior :
    (∀ (sel : Nat → Bool) (origLines : List String) (line : String)
        (rest : List String) (lineIdx origIdx : Nat),
        ¬(line = "" ∧ rest = []) → strStartsWith line "+" = true →
        buildHunkLines sel origLines (line :: rest) lineIdx origIdx =
          ((if sel lineIdx then [strDrop1 line] else []) ++
              (buildHunkLines sel origLines rest (lineIdx + 1) origIdx).1,
            (buildHunkLines sel origLines rest (lineIdx + 1) origIdx).2)) ∧
    (∀ (sel : Nat → Bool) (origLines : List String) (line : String)
        (rest : List String) (lineIdx origIdx : Nat),
        ¬(line = "" ∧ rest = []) → strStartsWith line "+" = false →
        strStartsWith line "-" = true →
        buildHunkLines sel origLines (line :: rest) lineIdx origIdx =
          ((if sel lineIdx then [] else (origLines[origIdx]?).toList) ++
              (buildHunkLines sel origLines rest (lineIdx + 1)
                (origIdx + 1)).1,
            (buildHunkLines sel origLines rest (lineIdx + 1)
              (origIdx + 1)).2)) ∧
    (∀ (sel : Nat → Bool) (origLines : List String) (line : String)
        (rest : List String) (lineIdx origIdx : Nat),
        ¬(line = "" ∧ rest = []) → strStartsWith line "+" = false →
        strStartsWith line "-" = false → strStartsWith line " " = true →
        buildHunkLines sel origLines (line :: rest) lineIdx origIdx =
          ((origLines[origIdx]?).toList ++
              (buildHunkLines sel origLines rest (lineIdx + 1)
                (origIdx + 1)).1,
            (buildHunkLines sel origLines rest (lineIdx + 1)
              (origIdx + 1)).2)) ∧
    (∀ (orig : String) (hunks : List ParsedHunk) (sel : List LineRange),
        hunks.length ≠ 0 →
        buildFileContent orig hunks sel =
          fromLines
            ((hunks.foldl
                (buildFCStep sel (if orig = "" then [] else toLines orig))
                ([], 0)).1 ++
              (if orig = "" then [] else toLines orig).drop
                (hunks.foldl
                  (buildFCStep sel (if orig = "" then [] else toLines orig))
                  ([], 0)).2)) := by
  refine ⟨?_, ?_, ?_, ?_⟩
  · intro sel origLines line rest lineIdx origIdx h1 h2
    simp only [buildHunkLines, if_neg h1, if_pos h2]
  · intro sel origLines line rest lineIdx origIdx h1 h2 h3
    simp only [buildHunkLines, if_neg h1, h2, Bool.false_eq_true, if_false,
      if_pos h3]
    by_cases hs : sel lineIdx
    · simp [hs]
    · simp [hs]
  · intro sel origLines line rest lineIdx origIdx h1 h2 h3 h4
    simp only [buildHunkLines, if_neg h1, h2, h3, Bool.false_eq_true,
      if_false, if_pos h4]
  · intro orig hunks sel h
    unfold buildFileContent
    rw [if_neg h]

/-- Witness for C2: evaluation of the three line cases and the fold shape
at concrete inputs. -/
theorem buildFileContent_line_behavior_witness :
    buildHunkLines (fun _ => true) ["x", "y"] ["+a", "-b", " c"] 0 0 =
      (["a", "y"], 2) := by
  rw [buildFileContent_line_behavior.1 (fun _ => true) ["x", "y"] "+a"
    ["-b", " c"] 0 0 (by decide) (by decide)]
  rw [buildFileContent_line_behavior.2.1 (fun _ => true) ["x", "y"] "-b"
    [" c"] 1 0 (by decide) (by decide) (by decide)]
  rw [buildFileContent_line_behavior.2.2.1 (fun _ => true) ["x", "y"] " c"
    [] 2 1 (by decide) (by decide) (by decide) (by decide)]
  decide

/-! ## Values of the classification map -/

theorem listGet_mem_values {α β : Type} [DecidableEq α]
    (m : List (α × β)) (k : α) (c : β) (h : listGet m k = some c) :
    c ∈ m.map Prod.snd := by
  unfold listGet at h
  cases hf : m.find? (fun p => decide (p.1 = k)) with
  | none => rw [hf] at h; cases h
  | some p =>
    rw [hf] at h
    cases h
    exact List.mem_map_of_mem _ (List.mem_of_find?_eq_some hf)

theorem values_listSet {α β : Type} [DecidableEq α]
    (m : List (α × β)) (k : α) (v : β) (c : β)
    (h : c ∈ (listSet m k v).map Prod.snd) :
    c ∈ m.map Prod.snd ∨ c = v := by
  unfold listSet at h
  split at h
  · rw [List.map_map] at h
    obtain ⟨p, hp, hc⟩ := List.mem_map.1 h
    by_cases hk : p.1 = k
    · right
      simp only [Function.comp_apply, if_pos hk] at hc
      exact hc.symm
    · left
      simp only [Function.comp_apply, if_neg hk] at hc
      exact hc ▸ List.mem_map_of_mem _ hp
  · rw [List.map_append] at h
    rcases List.mem_append.1 h with h | h
    · exact Or.inl h
    · right
      simp only [List.map_cons, List.map_nil, List.mem_singleton] at h
      exact h

theorem classMap_values_inner (Q : String → Prop) :
    ∀ (ls : List ClassifiedLine) (hid : Nat)
      (m : List ((Nat × Nat) × String)),
      (∀ c ∈ m.map Prod.snd, Q c) → (∀ l ∈ ls, Q l.commitId) →
      ∀ c ∈ (ls.foldl
          (fun m l => listSet m (hid, l.lineIndex) l.commitId) m).map
          Prod.snd, Q c := by
  intro ls
  induction ls with
  | nil => intro hid m hm _ c hc; exact hm c hc
  | cons l t ih =>
    intro hid m hm hls c hc
    refine ih hid _ ?_ (fun x hx => hls x (List.mem_cons_of_mem _ hx)) c hc
    intro x hx
    rcases values_listSet _ _ _ _ hx with h | h
    · exact hm x h
    · exact h ▸ hls l (List.mem_cons_self _ _)

theorem classMap_values (Q : String → Prop) :
    ∀ (rs : List HunkClassificationResult)
      (m : List ((Nat × Nat) × String)),
      (∀ c ∈ m.map Prod.snd, Q c) →
      (∀ r ∈ rs, ∀ l ∈ r.lines, Q l.commitId) →
      ∀ c ∈ (rs.foldl
          (fun m r => r.lines.foldl
            (fun m l => listSet m (r.hunkId, l.lineIndex) l.commitId) m)
          m).map Prod.snd, Q c := by
  intro rs
  induction rs with
  | nil => intro m hm _ c hc; exact hm c hc
  | cons r t ih =>
    intro m hm hrs c hc
    refine ih _ ?_ (fun x hx => hrs x (List.mem_cons_of_mem _ hx)) c hc
    exact classMap_values_inner Q r.lines r.hunkId m hm
      (hrs r (List.mem_cons_self _ _))

theorem buildClassificationMap_values
    (classifications : List HunkClassificationResult) (Q : String → Prop)
    (hq : ∀ r ∈ classifications, ∀ l ∈ r.lines, Q l.commitId) :
    ∀ c ∈ (buildClassificationMap classifications).map Prod.snd, Q c := by
  unfold buildClassificationMap
  exact classMap_values Q classifications [] (by simp) hq

/-- Under a nonempty plan and a classification naming only plan groups,
`resolveCommit` always succeeds with a plan group. -/
theorem resolveCommit_total (commits : List CommitPlan)
    (classifications : List HunkClassificationResult)
    (hne : commits ≠ []) (hvalid : classValid commits classifications)
    (hunkId lineIdx : Nat) :
    ∃ cid, resolveCommit (buildClassificationMap classifications) commits
        hunkId lineIdx = some cid ∧ cid ∈ planIds commits := by
  obtain ⟨c0, rest, hc0⟩ := List.exists_cons_of_ne_nil hne
  have hhead : commits.head? = some c0 := by rw [hc0]; rfl
  have hmem0 : c0.id ∈ planIds commits := by
    rw [hc0]; exact List.mem_map_of_mem _ (List.mem_cons_self _ _)
  unfold resolveCommit
  cases hg : listGet (buildClassificationMap classifications)
      (hunkId, lineIdx) with
  | none => exact ⟨c0.id, by rw [hhead]; rfl, hmem0⟩
  | some c =>
    dsimp only
    by_cases hce : c = ""
    · rw [if_pos hce]
      exact ⟨c0.id, by rw [hhead]; rfl, hmem0⟩
    · rw [if_neg hce]
      refine ⟨c, rfl, ?_⟩
      have := listGet_mem_values _ _ _ hg
      exact buildClassificationMap_values classifications
        (· ∈ planIds commits) hvalid c this

/-! ## Totality of the scan under the implicit precondition -/

theorem flushCur_some (commits : List CommitPlan) (filePath : String)
    (hunkId : Nat) (emits : List Emit) (c : CurRange)
    (hc : c.commitId ∈ planIds commits) :
    flushCur commits filePath hunkId emits (some c) =
      some (emits ++ [⟨c.commitId, filePath, mkRange hunkId c⟩]) := by
  unfold flushCur
  dsimp only
  exact if_pos hc

theorem flushCur_none_of_not_mem (commits : List CommitPlan)
    (filePath : String) (hunkId : Nat) (emits : List Emit) (c : CurRange)
    (hc : c.commitId ∉ planIds commits) :
    flushCur commits filePath hunkId emits (some c) = none := by
  unfold flushCur
  dsimp only
  exact if_neg hc

theorem scanLines_nil (commits : List CommitPlan)
    (classMap : List ((Nat × Nat) × String)) (filePath : String)
    (hunkId lineIdx : Nat) (origNum newNum : Int) (cur : Option CurRange)
    (emits : List Emit) :
    scanLines commits classMap filePath hunkId [] lineIdx origNum newNum
      cur emits = flushCur commits filePath hunkId emits cur := rfl

theorem scanLines_skip (commits : List CommitPlan)
    (classMap : List ((Nat × Nat) × String)) (filePath : String)
    (hunkId : Nat) (line : String) (rest : List String) (lineIdx : Nat)
    (origNum newNum : Int) (cur : Option CurRange) (emits : List Emit)
    (h1 : line = "" ∧ rest = []) :
    scanLines commits classMap filePath hunkId (line :: rest) lineIdx
        origNum newNum cur emits =
      scanLines commits classMap filePath hunkId rest (lineIdx + 1)
        origNum newNum cur emits := by
  simp only [scanLines, if_pos h1]

theorem scanLines_pm_fail (commits : List CommitPlan)
    (classMap : List ((Nat × Nat) × String)) (filePath : String)
    (hunkId : Nat) (line : String) (rest : List String) (lineIdx : Nat)
    (origNum newNum : Int) (cur : Option CurRange) (emits : List Emit)
    (h1 : ¬(line = "" ∧ rest = []))
    (h2 : (strStartsWith line "+" || strStartsWith line "-") = true)
    (hres : resolveCommit classMap commits hunkId lineIdx = none) :
    scanLines commits classMap filePath hunkId (line :: rest) lineIdx
        origNum newNum cur emits = none := by
  simp only [scanLines, if_neg h1, if_pos h2, hres]

theorem scanLines_pm_startNew (commits : List CommitPlan)
    (classMap : List ((Nat × Nat) × String)) (filePath : String)
    (hunkId : Nat) (line : String) (rest : List String) (lineIdx : Nat)
    (origNum newNum : Int) (emits : List Emit) (cid : String)
    (h1 : ¬(line = "" ∧ rest = []))
    (h2 : (strStartsWith line "+" || strStartsWith line "-") = true)
    (hres : resolveCommit classMap commits hunkId lineIdx = some cid) :
    scanLines commits classMap filePath hunkId (line :: rest) lineIdx
        origNum newNum none emits =
      scanLines commits classMap filePath hunkId rest (lineIdx + 1)
        (if lineTypeOf line = '+' then origNum else origNum + 1)
        (if lineTypeOf line = '+' then newNum + 1 else newNum)
        (some (newCur cid (lineTypeOf line) lineIdx (strDrop1 line)
          origNum newNum)) emits := by
  simp only [scanLines, if_neg h1, if_pos h2, hres, lineTypeOf]

theorem scanLines_pm_extend (commits : List CommitPlan)
    (classMap : List ((Nat × Nat) × String)) (filePath : String)
    (hunkId : Nat) (line : String) (rest : List String) (lineIdx : Nat)
    (origNum newNum : Int) (c : CurRange) (emits : List Emit) (cid : String)
    (h1 : ¬(line = "" ∧ rest = []))
    (h2 : (strStartsWith line "+" || strStartsWith line "-") = true)
    (hres : resolveCommit classMap commits hunkId lineIdx = some cid)
    (hext : c.commitId = cid ∧ c.type = lineTypeOf line ∧
      c.startIdx + c.lines.length = lineIdx) :
    scanLines commits classMap filePath hunkId (line :: rest) lineIdx
        origNum newNum (some c) emits =
      scanLines commits classMap filePath hunkId rest (lineIdx + 1)
        (if lineTypeOf line = '+' then origNum else origNum + 1)
        (if lineTypeOf line = '+' then newNum + 1 else newNum)
        (some { c with lines := c.lines ++ [strDrop1 line] }) emits := by
  simp only [scanLines, if_neg h1, if_pos h2, hres, lineTypeOf] at hext ⊢
  rw [if_pos hext]

theorem scanLines_pm_flushStart (commits : List CommitPlan)
    (classMap : List ((Nat × Nat) × String)) (filePath : String)
    (hunkId : Nat) (line : String) (rest : List String) (lineIdx : Nat)
    (origNum newNum : Int) (c : CurRange) (emits : List Emit) (cid : String)
    (h1 : ¬(line = "" ∧ rest = []))
    (h2 : (strStartsWith line "+" || strStartsWith line "-") = true)
    (hres : resolveCommit classMap commits hunkId lineIdx = some cid)
    (hext : ¬(c.commitId = cid ∧ c.type = lineTypeOf line ∧
      c.startIdx + c.lines.length = lineIdx))
    (hmem : c.commitId ∈ planIds commits) :
    scanLines commits classMap filePath hunkId (line :: rest) lineIdx
        origNum newNum (some c) emits =
      scanLines commits classMap filePath hunkId rest (lineIdx + 1)
        (if lineTypeOf line = '+' then origNum else origNum + 1)
        (if lineTypeOf line = '+' then newNum + 1 else newNum)
        (some (newCur cid (lineTypeOf line) lineIdx (strDrop1 line)
          origNum newNum))
        (emits ++ [⟨c.commitId, filePath, mkRange hunkId c⟩]) := by
  simp only [scanLines, if_neg h1, if_pos h2, hres, lineTypeOf] at hext ⊢
  rw [if_neg hext, flushCur_some commits filePath hunkId emits c hmem]

theorem scanLines_pm_flushFail (commits : List CommitPlan)
    (classMap : List ((Nat × Nat) × String)) (filePath : String)
    (hunkId : Nat) (line : String) (rest : List String) (lineIdx : Nat)
    (origNum newNum : Int) (c : CurRange) (emits : List Emit) (cid : String)
    (h1 : ¬(line = "" ∧ rest = []))
    (h2 : (strStartsWith line "+" || strStartsWith line "-") = true)
    (hres : resolveCommit classMap commits hunkId lineIdx = some cid)
    (hext : ¬(c.commitId = cid ∧ c.type = lineTypeOf line ∧
      c.startIdx + c.lines.length = lineIdx))
    (hmem : c.commitId ∉ planIds commits) :
    scanLines commits classMap filePath hunkId (line :: rest) lineIdx
        origNum newNum (some c) emits = none := by
  simp only [scanLines, if_neg h1, if_pos h2, hres, lineTypeOf] at hext ⊢
  rw [if_neg hext,
    flushCur_none_of_not_mem commits filePath hunkId emits c hmem]

theorem scanLines_ctx (commits : List CommitPlan)
    (classMap : List ((Nat × Nat) × String)) (filePath : String)
    (hunkId : Nat) (line : String) (rest : List String) (lineIdx : Nat)
    (origNum newNum : Int) (cur : Option CurRange) (emits : List Emit)
    (h1 : ¬(line = "" ∧ rest = []))
    (h2 : (strStartsWith line "+" || strStartsWith line "-") = false) :
    scanLines commits classMap filePath hunkId (line :: rest) lineIdx
        origNum newNum cur emits =
      match flushCur commits filePath hunkId emits cur with
      | none => none
      | some emitsNext =>
        scanLines commits classMap filePath hunkId rest (lineIdx + 1)
          (origNum + 1) (newNum + 1) none emitsNext := by
  simp only [scanLines, if_neg h1, h2, Bool.false_eq_true, if_false]

theorem scanLines_total (commits : List CommitPlan)
    (classMap : List ((Nat × Nat) × String)) (filePath : String)
    (hunkId : Nat)
    (hres : ∀ i, ∃ cid, resolveCommit classMap commits hunkId i = some cid ∧
      cid ∈ planIds commits) :
    ∀ (lines : List String) (lineIdx : Nat) (origNum newNum : Int)
      (cur : Option CurRange) (emits : List Emit),
      (∀ c, cur = some c → c.commitId ∈ planIds commits) →
      ∃ out, scanLines commits classMap filePath hunkId lines lineIdx
          origNum newNum cur emits = some out := by
  intro lines
  induction lines with
  | nil =>
    intro lineIdx origNum newNum cur emits hcur
    rw [scanLines_nil]
    cases cur with
    | none => exact ⟨emits, rfl⟩
    | some c =>
      exact ⟨_, flushCur_some commits filePath hunkId emits c (hcur c rfl)⟩
  | cons line rest ih =>
    intro lineIdx origNum newNum cur emits hcur
    by_cases h1 : line = "" ∧ rest = []
    · rw [scanLines_skip commits classMap filePath hunkId line rest lineIdx
        origNum newNum cur emits h1]
      exact ih (lineIdx + 1) origNum newNum cur emits hcur
    · by_cases h2 : (strStartsWith line "+" || strStartsWith line "-") = true
      · obtain ⟨cid, hcid, hcidmem⟩ := hres lineIdx
        cases cur with
        | none =>
          rw [scanLines_pm_startNew commits classMap filePath hunkId line
            rest lineIdx origNum newNum emits cid h1 h2 hcid]
          refine ih (lineIdx + 1) _ _ _ emits ?_
          intro cNew hNew
          cases hNew
          exact hcidmem
        | some c =>
          by_cases h3 : c.commitId = cid ∧ c.type = lineTypeOf line ∧
              c.startIdx + c.lines.length = lineIdx
          · rw [scanLines_pm_extend commits classMap filePath hunkId line
              rest lineIdx origNum newNum c emits cid h1 h2 hcid h3]
            refine ih (lineIdx + 1) _ _ _ emits ?_
            intro cNew hNew
            cases hNew
            exact hcur c rfl
          · rw [scanLines_pm_flushStart commits classMap filePath hunkId
              line rest lineIdx origNum newNum c emits cid h1 h2 hcid h3
              (hcur c rfl)]
            refine ih (lineIdx + 1) _ _ _ _ ?_
            intro cNew hNew
            cases hNew
            exact hcidmem
      · rw [scanLines_ctx commits classMap filePath hunkId line rest lineIdx
          origNum newNum cur emits h1 (by simpa using h2)]
        cases cur with
        | none =>
          exact ih (lineIdx + 1) _ _ none emits (by intro c hc; cases hc)
        | some c =>
          rw [flushCur_some commits filePath hunkId emits c (hcur c rfl)]
          exact ih (lineIdx + 1) _ _ none _ (by intro c hc; cases hc)

theorem scanHunk_total (commits : List CommitPlan)
    (classMap : List ((Nat × Nat) × String)) (filePath : String)
    (hunk : ParsedHunk)
    (hres : ∀ i, ∃ cid, resolveCommit classMap commits hunk.id i = some cid ∧
      cid ∈ planIds commits) :
    ∃ out, scanHunk commits classMap filePath hunk = some out := by
  unfold scanHunk
  exact scanLines_total commits classMap filePath hunk.id hres hunk.content
    0 _ _ none [] (by intro c hc; cases hc)

theorem scanFile_total (commits : List CommitPlan)
    (classMap : List ((Nat × Nat) × String)) (filePath : String)
    (hres : ∀ h i, ∃ cid, resolveCommit classMap commits h i = some cid ∧
      cid ∈ planIds commits) :
    ∀ (hunks : List ParsedHunk),
      ∃ out, scanFile commits classMap filePath hunks = some out := by
  intro hunks
  induction hunks with
  | nil => exact ⟨[], rfl⟩
  | cons h t ih =>
    obtain ⟨o1, ho1⟩ := scanHunk_total commits classMap filePath h
      (hres h.id)
    obtain ⟨o2, ho2⟩ := ih
    refine ⟨o1 ++ o2, ?_⟩
    simp only [scanFile, ho1, ho2]

theorem scanFiles_total (commits : List CommitPlan)
    (classMap : List ((Nat × Nat) × String))
    (hres : ∀ h i, ∃ cid, resolveCommit classMap commits h i = some cid ∧
      cid ∈ planIds commits) :
    ∀ (files : List ParsedFileDiff),
      ∃ out, scanFiles commits classMap files = some out := by
  intro files
  induction files with
  | nil => exact ⟨[], rfl⟩
  | cons f t ih =>
    obtain ⟨o1, ho1⟩ := scanFile_total commits classMap f.filePath hres
      f.hunks
    obtain ⟨o2, ho2⟩ := ih
    refine ⟨o1 ++ o2, ?_⟩
    simp only [scanFiles, ho1, ho2]

/-- Totality of `extractChanges` under the implicit precondition. -/
theorem extractChanges_total (files : List ParsedFileDiff)
    (commits : List CommitPlan)
    (classifications : List HunkClassificationResult)
    (hne : commits ≠ []) (hvalid : classValid commits classifications) :
    ∃ emits, scanFiles commits (buildClassificationMap classifications)
        files = some emits ∧
      extractChanges files commits classifications =
        some (groupEmits commits emits) := by
  obtain ⟨emits, he⟩ := scanFiles_total commits
    (buildClassificationMap classifications)
    (fun h i => resolveCommit_total commits classifications hne hvalid h i)
    files
  refine ⟨emits, he, ?_⟩
  unfold extractChanges
  dsimp only
  rw [he]

/-! ## Cover/label/chain helper lemmas for the scan -/

theorem countCover_append (a b : List Emit) (i : Nat) :
    countCover (a ++ b) i = countCover a i + countCover b i := by
  unfold countCover
  exact List.countP_append _ _ _

theorem countCover_singleton (e : Emit) (i : Nat) :
    countCover [e] i = if coversB e.range i = true then 1 else 0 := by
  unfold countCover
  simp [List.countP_cons]

theorem coversB_mkRange (hunkId : Nat) (c : CurRange)
    (hlen : 1 ≤ c.lines.length) (i : Nat) :
    coversB (mkRange hunkId c) i =
      decide (c.startIdx ≤ i ∧ i < c.startIdx + c.lines.length) := by
  unfold coversB mkRange
  apply decide_eq_decide.mpr
  dsimp only
  omega

theorem countCover_flush (c : CurRange) (hunkId : Nat) (filePath : String)
    (hlen : 1 ≤ c.lines.length) (i : Nat) :
    countCover [⟨c.commitId, filePath, mkRange hunkId c⟩] i =
      curCover (some c) i := by
  rw [countCover_singleton]
  show (if coversB (mkRange hunkId c) i = true then 1 else 0) = _
  rw [coversB_mkRange hunkId c hlen i]
  unfold curCover
  simp only [decide_eq_true_eq]

theorem isChangeB_of_getElem (L : List String) (i : Nat) (line : String)
    (h : L[i]? = some line) :
    isChangeB L i = (strStartsWith line "+" || strStartsWith line "-") := by
  unfold isChangeB
  rw [h]

theorem isChangeB_lt (L : List String) (i : Nat)
    (h : isChangeB L i = true) : i < L.length := by
  by_contra hge
  have : L[i]? = none := List.getElem?_eq_none (by omega)
  unfold isChangeB at h
  rw [this] at h
  cases h

theorem getElem?_append_cons {α : Type} (pre : List α) (x : α)
    (s : List α) : (pre ++ x :: s)[pre.length]? = some x := by
  rw [List.getElem?_append_right (Nat.le_refl _)]
  simp

theorem append_cons_eq_append {α : Type} (pre : List α) (x : α)
    (s : List α) : pre ++ x :: s = (pre ++ [x]) ++ s := by
  simp

theorem empty_not_change : (strStartsWith "" "+" || strStartsWith "" "-") = false := by
  decide


theorem flushed_cover (c : CurRange) (hunkId : Nat) (filePath : String)
    (emits : List Emit) (hlen : 1 ≤ c.lines.length) (i : Nat) :
    countCover (emits ++ [⟨c.commitId, filePath, mkRange hunkId c⟩]) i =
      countCover emits i + curCover (some c) i := by
  rw [countCover_append, countCover_flush c hunkId filePath hlen]

theorem cover_shift_false (k i : Nat) (b : Bool) (hb : i = k → b = false)
    (x : Nat) (hx : x = if i < k ∧ b = true then 1 else 0) :
    x = if i < k + 1 ∧ b = true then 1 else 0 := by
  subst hx
  by_cases hbt : b = true
  · have hik : i ≠ k := fun h => by rw [hb h] at hbt; cases hbt
    by_cases hlt : i < k
    · rw [if_pos ⟨hlt, hbt⟩, if_pos ⟨by omega, hbt⟩]
    · rw [if_neg (fun hh => hlt hh.1),
        if_neg (fun hh => hlt (by omega))]
  · rw [if_neg (fun hh => hbt hh.2), if_neg (fun hh => hbt hh.2)]

theorem cover_shift_true (k i : Nat) (b : Bool) (hb : i = k → b = true)
    (x : Nat) (hx : x = if i < k ∧ b = true then 1 else 0) :
    x + (if k ≤ i ∧ i < k + 1 then 1 else 0) =
      if i < k + 1 ∧ b = true then 1 else 0 := by
  subst hx
  by_cases hbt : b = true
  · by_cases hik : i = k
    · rw [if_neg (fun hh => by omega),
        if_pos (⟨by omega, by omega⟩ : k ≤ i ∧ i < k + 1),
        if_pos ⟨by omega, hbt⟩]
    · by_cases hlt : i < k
      · rw [if_pos ⟨hlt, hbt⟩, if_neg (fun hh => by omega),
          if_pos ⟨by omega, hbt⟩]
      · rw [if_neg (fun hh => hlt hh.1), if_neg (fun hh => by omega),
          if_neg (fun hh => hlt (by omega))]
  · have hik : i ≠ k := fun h => hbt (hb h)
    rw [if_neg (fun hh => hbt hh.2), if_neg (fun hh => by omega),
      if_neg (fun hh => hbt hh.2)]

theorem flushed_inv (commits : List CommitPlan)
    (classMap : List ((Nat × Nat) × String)) (filePath : String)
    (hunkId : Nat) (L : List String) (k : Nat) (c : CurRange)
    (emits : List Emit)
    (inv : ScanInv commits classMap filePath hunkId L k (some c) emits)
    (hmem : c.commitId ∈ planIds commits) :
    (∀ e ∈ emits ++ [⟨c.commitId, filePath, mkRange hunkId c⟩],
        e.filePath = filePath) ∧
    (∀ e ∈ emits ++ [⟨c.commitId, filePath, mkRange hunkId c⟩],
        e.range.hunkId = hunkId) ∧
    (∀ e ∈ emits ++ [⟨c.commitId, filePath, mkRange hunkId c⟩],
        e.commitId ∈ planIds commits) ∧
    (∀ e ∈ emits ++ [⟨c.commitId, filePath, mkRange hunkId c⟩],
        1 ≤ e.range.lines.length ∧
          e.range.endLineIdx + 1 =
            e.range.startLineIdx + e.range.lines.length) ∧
    (∀ e ∈ emits ++ [⟨c.commitId, filePath, mkRange hunkId c⟩], ∀ i,
        coversB e.range i = true →
        labelOK classMap commits hunkId L i e.commitId e.range.type) ∧
    List.Chain' adjOK (emits ++ [⟨c.commitId, filePath, mkRange hunkId c⟩]) ∧
    (∀ i, countCover (emits ++ [⟨c.commitId, filePath, mkRange hunkId c⟩]) i =
        countCover emits i + curCover (some c) i) ∧
    (emits ++ [Emit.mk c.commitId filePath (mkRange hunkId c)]).getLast? =
      some (Emit.mk c.commitId filePath (mkRange hunkId c)) := by
  have hlen := inv.cur_len c rfl
  refine ⟨?_, ?_, ?_, ?_, ?_, ?_, ?_, ?_⟩
  · intro e he
    rcases List.mem_append.1 he with he | he
    · exact inv.emit_file e he
    · rw [List.mem_singleton.1 he]
  · intro e he
    rcases List.mem_append.1 he with he | he
    · exact inv.emit_hunk e he
    · rw [List.mem_singleton.1 he]
      rfl
  · intro e he
    rcases List.mem_append.1 he with he | he
    · exact inv.emit_commit e he
    · rw [List.mem_singleton.1 he]
      exact hmem
  · intro e he
    rcases List.mem_append.1 he with he | he
    · exact inv.emit_len e he
    · rw [List.mem_singleton.1 he]
      refine ⟨hlen, ?_⟩
      show c.startIdx + c.lines.length - 1 + 1 =
        c.startIdx + c.lines.length
      omega
  · intro e he i hcov
    rcases List.mem_append.1 he with he | he
    · exact inv.emit_label e he i hcov
    · rw [List.mem_singleton.1 he] at hcov ⊢
      rw [coversB_mkRange hunkId c hlen i] at hcov
      have hc := of_decide_eq_true hcov
      exact inv.cur_label c rfl i hc.1 hc.2
  · rw [List.chain'_append]
    refine ⟨inv.chain, List.chain'_singleton _, ?_⟩
    intro x hx y hy
    rw [List.head?_cons, Option.mem_some_iff] at hy
    have hlast := inv.last_cur x c (Option.mem_def.1 hx) rfl
    subst hy
    exact hlast
  · intro i
    exact flushed_cover c hunkId filePath emits hlen i
  · exact List.getLast?_concat _

theorem scan_master (commits : List CommitPlan)
    (classMap : List ((Nat × Nat) × String)) (filePath : String)
    (hunkId : Nat) (L : List String) :
    ∀ (rem pre : List String) (origNum newNum : Int) (cur : Option CurRange)
      (emits out : List Emit),
      L = pre ++ rem →
      scanLines commits classMap filePath hunkId rem pre.length origNum
        newNum cur emits = some out →
      ScanInv commits classMap filePath hunkId L pre.length cur emits →
      ScanOut commits classMap filePath hunkId L out := by
  intro rem
  induction rem with
  | nil =>
    intro pre origNum newNum cur emits out hL hscan inv
    rw [scanLines_nil] at hscan
    have hLpre : L = pre := by rw [hL, List.append_nil]
    have hcond : ∀ i n, (if i < pre.length ∧ isChangeB L i = true then
        (n : Nat) else 0) = if isChangeB L i = true then n else 0 := by
      intro i n
      by_cases h : isChangeB L i = true
      · have hlt := isChangeB_lt L i h
        rw [hLpre] at hlt
        rw [if_pos ⟨hlt, h⟩, if_pos h]
      · rw [if_neg (fun hh => h hh.2), if_neg h]
    cases cur with
    | none =>
      cases hscan
      refine ⟨inv.emit_file, inv.emit_hunk, inv.emit_commit, inv.emit_len,
        ?_, inv.emit_label, inv.chain⟩
      intro i
      have hc := inv.cover i
      unfold curCover at hc
      rw [Nat.add_zero] at hc
      rw [hc, hcond i 1]
    | some c =>
      by_cases hmem : c.commitId ∈ planIds commits
      · rw [flushCur_some commits filePath hunkId emits c hmem] at hscan
        cases hscan
        have hlen := inv.cur_len c rfl
        refine ⟨?_, ?_, ?_, ?_, ?_, ?_, ?_⟩
        · intro e he
          rcases List.mem_append.1 he with he | he
          · exact inv.emit_file e he
          · rw [List.mem_singleton.1 he]
        · intro e he
          rcases List.mem_append.1 he with he | he
          · exact inv.emit_hunk e he
          · rw [List.mem_singleton.1 he]
            rfl
        · intro e he
          rcases List.mem_append.1 he with he | he
          · exact inv.emit_commit e he
          · rw [List.mem_singleton.1 he]
            exact hmem
        · intro e he
          rcases List.mem_append.1 he with he | he
          · exact inv.emit_len e he
          · rw [List.mem_singleton.1 he]
            refine ⟨hlen, ?_⟩
            show c.startIdx + c.lines.length - 1 + 1 =
              c.startIdx + c.lines.length
            omega
        · intro i
          rw [flushed_cover c hunkId filePath emits hlen i, inv.cover i,
            hcond i 1]
        · intro e he i hcov
          rcases List.mem_append.1 he with he | he
          · exact inv.emit_label e he i hcov
          · rw [List.mem_singleton.1 he] at hcov ⊢
            rw [coversB_mkRange hunkId c hlen i] at hcov
            have := of_decide_eq_true hcov
            exact inv.cur_label c rfl i this.1 this.2
        · rw [List.chain'_append]
          refine ⟨inv.chain, List.chain'_singleton _, ?_⟩
          intro x hx y hy
          rw [List.head?_cons, Option.mem_some_iff] at hy
          have hlast := inv.last_cur x c (Option.mem_def.1 hx) rfl
          subst hy
          exact hlast
      · rw [flushCur_none_of_not_mem commits filePath hunkId emits c hmem]
          at hscan
        cases hscan
  | cons line rest ih =>
    intro pre origNum newNum cur emits out hL hscan inv
    have hLine : L[pre.length]? = some line := by
      rw [hL]
      exact getElem?_append_cons pre line rest
    have hL' : L = (pre ++ [line]) ++ rest := by
      rw [hL]
      exact append_cons_eq_append pre line rest
    have hlen' : (pre ++ [line]).length = pre.length + 1 := by simp
    by_cases h1 : line = "" ∧ rest = []
    · rw [scanLines_skip commits classMap filePath hunkId line rest
        pre.length origNum newNum cur emits h1] at hscan
      have hchg : isChangeB L pre.length = false := by
        rw [isChangeB_of_getElem L pre.length line hLine, h1.1]
        exact empty_not_change
      refine ih (pre ++ [line]) origNum newNum cur emits out hL'
        (by rw [hlen']; exact hscan) ?_
      refine ⟨inv.emit_file, inv.emit_hunk, inv.emit_commit, inv.emit_len,
        inv.cur_len, ?_, ?_, inv.emit_label, inv.cur_label, inv.chain,
        inv.last_cur, ?_⟩
      · intro c hc
        have := inv.cur_bound c hc
        rw [hlen']
        omega
      · intro i
        rw [hlen']
        exact cover_shift_false pre.length i (isChangeB L i)
          (fun h => h ▸ hchg) _ (inv.cover i)
      · intro hnone e he
        have := inv.last_none hnone e he
        rw [hlen']
        omega
    · by_cases h2 : (strStartsWith line "+" || strStartsWith line "-") = true
      · have hchg : isChangeB L pre.length = true := by
          rw [isChangeB_of_getElem L pre.length line hLine]
          exact h2
        cases hres : resolveCommit classMap commits hunkId pre.length with
        | none =>
          rw [scanLines_pm_fail commits classMap filePath hunkId line rest
            pre.length origNum newNum cur emits h1 h2 hres] at hscan
          cases hscan
        | some cid =>
          have hlabelk : labelOK classMap commits hunkId L pre.length cid
              (lineTypeOf line) := ⟨line, hLine, h2, hres, rfl⟩
          cases cur with
          | none =>
            rw [scanLines_pm_startNew commits classMap filePath hunkId line
              rest pre.length origNum newNum emits cid h1 h2 hres] at hscan
            refine ih (pre ++ [line]) _ _ _ emits out hL'
              (by rw [hlen']; exact hscan) ?_
            refine ⟨inv.emit_file, inv.emit_hunk, inv.emit_commit,
              inv.emit_len, ?_, ?_, ?_, inv.emit_label, ?_, inv.chain, ?_,
              ?_⟩
            · intro c hc
              cases hc
              exact Nat.le_refl _
            · intro c hc
              cases hc
              show pre.length + 1 ≤ (pre ++ [line]).length
              rw [hlen']
            · intro i
              rw [hlen']
              have hcur0 : curCover (some (newCur cid (lineTypeOf line)
                  pre.length (strDrop1 line) origNum newNum)) i =
                  if pre.length ≤ i ∧ i < pre.length + 1 then 1 else 0 := rfl
              rw [hcur0]
              have hold := inv.cover i
              unfold curCover at hold
              rw [Nat.add_zero] at hold
              exact cover_shift_true pre.length i (isChangeB L i)
                (fun h => h ▸ hchg) _ hold
            · intro c hc i hle hlt
              cases hc
              have hle' : pre.length ≤ i := hle
              have hlt' : i < pre.length + 1 := hlt
              have hieq : i = pre.length := by omega
              show labelOK classMap commits hunkId L i cid (lineTypeOf line)
              rw [hieq]
              exact hlabelk
            · intro e c hlast hc
              cases hc
              have hln := inv.last_none rfl e hlast
              constructor
              · show e.range.endLineIdx < pre.length
                omega
              · intro hadj
                have hadj' : e.range.endLineIdx + 1 = pre.length := hadj
                omega
            · intro h
              exact Option.noConfusion h
          | some c =>
            by_cases h3 : c.commitId = cid ∧ c.type = lineTypeOf line ∧
                c.startIdx + c.lines.length = pre.length
            · rw [scanLines_pm_extend commits classMap filePath hunkId line
                rest pre.length origNum newNum c emits cid h1 h2 hres h3]
                at hscan
              obtain ⟨hcid3, hty3, hk3⟩ := h3
              have hlen1 := inv.cur_len c rfl
              refine ih (pre ++ [line]) _ _ _ emits out hL'
                (by rw [hlen']; exact hscan) ?_
              refine ⟨inv.emit_file, inv.emit_hunk, inv.emit_commit,
                inv.emit_len, ?_, ?_, ?_, inv.emit_label, ?_, inv.chain, ?_,
                ?_⟩
              · intro c' hc'
                cases hc'
                show 1 ≤ (c.lines ++ [strDrop1 line]).length
                simp
              · intro c' hc'
                cases hc'
                show c.startIdx + (c.lines ++ [strDrop1 line]).length ≤
                  (pre ++ [line]).length
                rw [hlen', List.length_append, List.length_singleton]
                omega
              · intro i
                rw [hlen']
                have hnew : curCover (some { c with
                    lines := c.lines ++ [strDrop1 line] }) i =
                    curCover (some c) i +
                      (if pre.length ≤ i ∧ i < pre.length + 1 then 1
                        else 0) := by
                  show (if c.startIdx ≤ i ∧
                      i < c.startIdx + (c.lines ++ [strDrop1 line]).length
                      then 1 else 0) =
                    (if c.startIdx ≤ i ∧ i < c.startIdx + c.lines.length
                      then 1 else 0) +
                      (if pre.length ≤ i ∧ i < pre.length + 1 then 1 else 0)
                  rw [List.length_append, List.length_singleton]
                  split_ifs <;> omega
                rw [hnew, ← Nat.add_assoc]
                exact cover_shift_true pre.length i (isChangeB L i)
                  (fun h => h ▸ hchg) _ (inv.cover i)
              · intro c' hc' i hle hlt
                cases hc'
                have hle' : c.startIdx ≤ i := hle
                have hlt' : i < c.startIdx + (c.lines ++ [strDrop1 line]).length :=
                  hlt
                rw [List.length_append, List.length_singleton] at hlt'
                show labelOK classMap commits hunkId L i c.commitId c.type
                by_cases hik : i < c.startIdx + c.lines.length
                · exact inv.cur_label c rfl i hle' hik
                · have hieq : i = pre.length := by omega
                  rw [hieq, hcid3, hty3]
                  exact hlabelk
              · intro e c' hlast hc'
                cases hc'
                exact inv.last_cur e c hlast rfl
              · intro h
                exact Option.noConfusion h
            · by_cases hmem : c.commitId ∈ planIds commits
              · rw [scanLines_pm_flushStart commits classMap filePath hunkId
                  line rest pre.length origNum newNum c emits cid h1 h2 hres
                  h3 hmem] at hscan
                obtain ⟨hf_file, hf_hunk, hf_commit, hf_len, hf_label,
                  hf_chain, hf_cover, hf_last⟩ := flushed_inv commits
                  classMap filePath hunkId L pre.length c emits inv hmem
                have hlen1 := inv.cur_len c rfl
                have hbnd := inv.cur_bound c rfl
                refine ih (pre ++ [line]) _ _ _ _ out hL'
                  (by rw [hlen']; exact hscan) ?_
                refine ⟨hf_file, hf_hunk, hf_commit, hf_len, ?_, ?_, ?_,
                  hf_label, ?_, hf_chain, ?_, ?_⟩
                · intro c' hc'
                  cases hc'
                  exact Nat.le_refl _
                · intro c' hc'
                  cases hc'
                  show pre.length + 1 ≤ (pre ++ [line]).length
                  rw [hlen']
                · intro i
                  rw [hlen', hf_cover i]
                  have hcur0 : curCover (some (newCur cid (lineTypeOf line)
                      pre.length (strDrop1 line) origNum newNum)) i =
                      if pre.length ≤ i ∧ i < pre.length + 1 then 1 else 0 :=
                    rfl
                  rw [hcur0]
                  exact cover_shift_true pre.length i (isChangeB L i)
                    (fun h => h ▸ hchg) _ (inv.cover i)
                · intro c' hc' i hle hlt
                  cases hc'
                  have hle' : pre.length ≤ i := hle
                  have hlt' : i < pre.length + 1 := hlt
                  have hieq : i = pre.length := by omega
                  show labelOK classMap commits hunkId L i cid
                    (lineTypeOf line)
                  rw [hieq]
                  exact hlabelk
                · intro e c' hlast hc'
                  cases hc'
                  rw [hf_last] at hlast
                  have he : Emit.mk c.commitId filePath (mkRange hunkId c) =
                      e := Option.some.inj hlast
                  subst he
                  constructor
                  · show c.startIdx + c.lines.length - 1 < pre.length
                    omega
                  · intro hadj
                    have hadj' : c.startIdx + c.lines.length - 1 + 1 =
                      pre.length := hadj
                    intro hkey
                    apply h3
                    have h1k := congrArg Prod.fst hkey
                    have h2k := congrArg Prod.snd hkey
                    exact ⟨h1k, h2k, by omega⟩
                · intro h
                  exact Option.noConfusion h
              · rw [scanLines_pm_flushFail commits classMap filePath hunkId
                  line rest pre.length origNum newNum c emits cid h1 h2 hres
                  h3 hmem] at hscan
                cases hscan
      · have h2' : (strStartsWith line "+" || strStartsWith line "-") =
            false := by
          cases hb : (strStartsWith line "+" || strStartsWith line "-")
          · rfl
          · exact absurd hb h2
        have hchg : isChangeB L pre.length = false := by
          rw [isChangeB_of_getElem L pre.length line hLine]
          exact h2'
        rw [scanLines_ctx commits classMap filePath hunkId line rest
          pre.length origNum newNum cur emits h1 h2'] at hscan
        cases cur with
        | none =>
          have hscan' : scanLines commits classMap filePath hunkId rest
              (pre.length + 1) (origNum + 1) (newNum + 1) none emits =
              some out := hscan
          refine ih (pre ++ [line]) _ _ none emits out hL'
            (by rw [hlen']; exact hscan') ?_
          refine ⟨inv.emit_file, inv.emit_hunk, inv.emit_commit,
            inv.emit_len, inv.cur_len, ?_, ?_, inv.emit_label,
            inv.cur_label, inv.chain, inv.last_cur, ?_⟩
          · intro c hc
            exact Option.noConfusion hc
          · intro i
            rw [hlen']
            exact cover_shift_false pre.length i (isChangeB L i)
              (fun h => h ▸ hchg) _ (inv.cover i)
          · intro hnone e he
            have := inv.last_none rfl e he
            rw [hlen']
            omega
        | some c =>
          by_cases hmem : c.commitId ∈ planIds commits
          · rw [flushCur_some commits filePath hunkId emits c hmem] at hscan
            have hscan' : scanLines commits classMap filePath hunkId rest
                (pre.length + 1) (origNum + 1) (newNum + 1) none
                (emits ++ [Emit.mk c.commitId filePath (mkRange hunkId c)]) =
                some out := hscan
            obtain ⟨hf_file, hf_hunk, hf_commit, hf_len, hf_label, hf_chain,
              hf_cover, hf_last⟩ := flushed_inv commits classMap filePath
              hunkId L pre.length c emits inv hmem
            have hlen1 := inv.cur_len c rfl
            have hbnd := inv.cur_bound c rfl
            refine ih (pre ++ [line]) _ _ none _ out hL'
              (by rw [hlen']; exact hscan') ?_
            refine ⟨hf_file, hf_hunk, hf_commit, hf_len, ?_, ?_, ?_,
              hf_label, ?_, hf_chain, ?_, ?_⟩
            · intro c' hc'
              exact Option.noConfusion hc'
            · intro c' hc'
              exact Option.noConfusion hc'
            · intro i
              rw [hlen', hf_cover i]
              have hz : curCover (none : Option CurRange) i = 0 := rfl
              rw [hz, Nat.add_zero]
              exact cover_shift_false pre.length i (isChangeB L i)
                (fun h => h ▸ hchg) _ (inv.cover i)
            · intro c' hc'
              exact Option.noConfusion hc'
            · intro e c' _ hc'
              exact Option.noConfusion hc'
            · intro _ e hlast
              rw [hf_last] at hlast
              have he : Emit.mk c.commitId filePath (mkRange hunkId c) = e :=
                Option.some.inj hlast
              subst he
              rw [hlen']
              show c.startIdx + c.lines.length - 1 + 1 < pre.length + 1
              omega
          · rw [flushCur_none_of_not_mem commits filePath hunkId emits c
              hmem] at hscan
            cases hscan

/-! ## From the master invariant to per-hunk facts -/

theorem ScanInv_initial (commits : List CommitPlan)
    (classMap : List ((Nat × Nat) × String)) (filePath : String)
    (hunkId : Nat) (L : List String) :
    ScanInv commits classMap filePath hunkId L 0 none [] := by
  refine ⟨?_, ?_, ?_, ?_, ?_, ?_, ?_, ?_, ?_, ?_, ?_, ?_⟩
  · intro e he
    cases he
  · intro e he
    cases he
  · intro e he
    cases he
  · intro e he
    cases he
  · intro c hc
    exact Option.noConfusion hc
  · intro c hc
    exact Option.noConfusion hc
  · intro i
    show 0 + 0 = if i < 0 ∧ isChangeB L i = true then 1 else 0
    rw [if_neg (fun hh => by omega)]
  · intro e he
    cases he
  · intro c hc
    exact Option.noConfusion hc
  · exact List.chain'_nil
  · intro e c hlast
    cases hlast
  · intro _ e hlast
    cases hlast

theorem scanHunk_out (commits : List CommitPlan)
    (classMap : List ((Nat × Nat) × String)) (filePath : String)
    (hunk : ParsedHunk) (out : List Emit)
    (h : scanHunk commits classMap filePath hunk = some out) :
    ScanOut commits classMap filePath hunk.id hunk.content out := by
  unfold scanHunk at h
  exact scan_master commits classMap filePath hunk.id hunk.content
    hunk.content [] _ _ none [] out rfl h
    (ScanInv_initial commits classMap filePath hunk.id hunk.content)

/-! ## `firstOccs` and counting helpers -/

theorem firstOccs_foldl_mem (y : String) :
    ∀ (l acc : List String),
      (y ∈ l.foldl (fun acc x => if x ∈ acc then acc else acc ++ [x]) acc) ↔
        y ∈ acc ∨ y ∈ l := by
  intro l
  induction l with
  | nil => intro acc; simp
  | cons x t ih =>
    intro acc
    simp only [List.foldl_cons]
    by_cases hx : x ∈ acc
    · rw [if_pos hx, ih]
      constructor
      · rintro (h | h)
        · exact Or.inl h
        · exact Or.inr (List.mem_cons_of_mem _ h)
      · rintro (h | h)
        · exact Or.inl h
        · rcases List.mem_cons.1 h with h | h
          · exact Or.inl (h ▸ hx)
          · exact Or.inr h
    · rw [if_neg hx, ih]
      simp only [List.mem_append, List.mem_singleton, List.mem_cons]
      tauto

theorem mem_firstOccs (y : String) (l : List String) :
    y ∈ firstOccs l ↔ y ∈ l := by
  unfold firstOccs
  rw [firstOccs_foldl_mem]
  simp

theorem firstOccs_foldl_nodup :
    ∀ (l acc : List String), acc.Nodup →
      (l.foldl (fun acc x => if x ∈ acc then acc else acc ++ [x])
        acc).Nodup := by
  intro l
  induction l with
  | nil => intro acc h; exact h
  | cons x t ih =>
    intro acc h
    simp only [List.foldl_cons]
    by_cases hx : x ∈ acc
    · rw [if_pos hx]
      exact ih acc h
    · rw [if_neg hx]
      refine ih _ ?_
      rw [List.nodup_append]
      exact ⟨h, List.nodup_singleton _,
        fun a ha hb => hx ((List.mem_singleton.1 hb) ▸ ha)⟩

theorem firstOccs_nodup (l : List String) : (firstOccs l).Nodup :=
  firstOccs_foldl_nodup l [] List.nodup_nil

theorem countP_split {α : Type} (l : List α) (q p : α → Bool) :
    (l.filter p).countP q + (l.filter (fun x => !(p x))).countP q =
      l.countP q := by
  induction l with
  | nil => rfl
  | cons a t ih =>
    cases hp : p a <;> cases hq : q a <;>
      simp [List.filter_cons, List.countP_cons, hp, hq] <;> omega

theorem countP_partition_keys {α : Type} (key : α → String)
    (q : α → Bool) :
    ∀ (ks : List String) (l : List α), ks.Nodup →
      (∀ x ∈ l, key x ∈ ks) →
      (ks.map (fun k =>
        (l.filter (fun x => decide (key x = k))).countP q)).sum =
        l.countP q := by
  intro ks
  induction ks with
  | nil =>
    intro l _ hcov
    have : l = [] := by
      cases l with
      | nil => rfl
      | cons a t => exact absurd (hcov a (List.mem_cons_self _ _)) (by simp)
    rw [this]
    rfl
  | cons k ks ih =>
    intro l hnd hcov
    rw [List.nodup_cons] at hnd
    simp only [List.map_cons, List.sum_cons]
    have hstep : ∀ kx ∈ ks,
        l.filter (fun x => decide (key x = kx)) =
          (l.filter (fun x => !(decide (key x = k)))).filter
            (fun x => decide (key x = kx)) := by
      intro kx hkx
      rw [List.filter_filter]
      apply List.filter_congr
      intro x _
      by_cases hx : key x = kx
      · have hne : kx ≠ k := fun hh => hnd.1 (hh ▸ hkx)
        have hnk : ¬(key x = k) := fun hh => hne (by rw [← hx, hh])
        simp [hx, hnk, hne]
      · simp [hx]
    have hmap : (ks.map (fun kx =>
        (l.filter (fun x => decide (key x = kx))).countP q)) =
        (ks.map (fun kx =>
          ((l.filter (fun x => !(decide (key x = k)))).filter
            (fun x => decide (key x = kx))).countP q)) := by
      apply List.map_congr_left
      intro kx hkx
      rw [hstep kx hkx]
    rw [hmap, ih (l.filter (fun x => !(decide (key x = k)))) hnd.2 ?_]
    · exact countP_split l q (fun x => decide (key x = k))
    · intro x hx
      rw [List.mem_filter] at hx
      have := hcov x hx.1
      rcases List.mem_cons.1 this with h | h
      · exfalso
        have := hx.2
        rw [h] at this
        simp at this
      · exact h

theorem countP_flatMap {α β : Type} (l : List α) (f : α → List β)
    (q : β → Bool) :
    (l.flatMap f).countP q = (l.map (fun x => (f x).countP q)).sum := by
  induction l with
  | nil => rfl
  | cons a t ih =>
    simp only [List.flatMap_cons, List.map_cons, List.sum_cons,
      List.countP_append, ih]

theorem chain_adj_pairwise :
    ∀ (l : List Emit), List.Chain' adjOK l →
      (∀ e ∈ l, e.range.startLineIdx ≤ e.range.endLineIdx) →
      l.Pairwise adjOK := by
  intro l
  induction l with
  | nil => intro _ _; exact List.Pairwise.nil
  | cons a t ih =>
    intro hc hv
    rw [List.chain'_cons'] at hc
    have hpt : t.Pairwise adjOK :=
      ih hc.2 (fun e he => hv e (List.mem_cons_of_mem _ he))
    refine List.pairwise_cons.2 ⟨?_, hpt⟩
    intro b hb
    cases t with
    | nil => cases hb
    | cons hd t' =>
      have hR : adjOK a hd := hc.1 hd rfl
      rcases List.mem_cons.1 hb with hb | hb
      · exact hb ▸ hR
      · have hhd : adjOK hd b := (List.pairwise_cons.1 hpt).1 b hb
        have hvhd : hd.range.startLineIdx ≤ hd.range.endLineIdx :=
          hv hd (List.mem_cons_of_mem _ (List.mem_cons_self _ _))
        have h1 := hR.1
        have h2 := hhd.1
        constructor
        · omega
        · intro hadj
          exfalso
          omega

/-! ## Structure of the full emit sequence -/

theorem scanFile_props (commits : List CommitPlan)
    (classMap : List ((Nat × Nat) × String)) (filePath : String) :
    ∀ (hunks : List ParsedHunk) (out : List Emit),
      scanFile commits classMap filePath hunks = some out →
      (∀ e ∈ out, e.filePath = filePath ∧ e.commitId ∈ planIds commits ∧
        1 ≤ e.range.lines.length ∧
        e.range.endLineIdx + 1 =
          e.range.startLineIdx + e.range.lines.length ∧
        ∃ h ∈ hunks, e.range.hunkId = h.id) ∧
      ((hunks.map ParsedHunk.id).Nodup →
        ∀ h ∈ hunks, ∃ hout,
          scanHunk commits classMap filePath h = some hout ∧
          out.filter (fun e => decide (e.range.hunkId = h.id)) = hout) := by
  intro hunks
  induction hunks with
  | nil =>
    intro out hscan
    have hout : out = [] := by
      have : (some [] : Option (List Emit)) = some out := hscan
      exact (Option.some.inj this).symm
    subst hout
    constructor
    · intro e he
      cases he
    · intro _ h hh
      cases hh
  | cons h hs ih =>
    intro out hscan
    cases hh : scanHunk commits classMap filePath h with
    | none =>
      rw [scanFile, hh] at hscan
      cases hscan
    | some o1 =>
      cases hf : scanFile commits classMap filePath hs with
      | none =>
        rw [scanFile, hh, hf] at hscan
        cases hscan
      | some o2 =>
        rw [scanFile, hh, hf] at hscan
        have hout : out = o1 ++ o2 := (Option.some.inj hscan).symm
        subst hout
        have so1 := scanHunk_out commits classMap filePath h o1 hh
        obtain ⟨ih1, ih2⟩ := ih o2 hf
        constructor
        · intro e he
          rcases List.mem_append.1 he with he | he
          · refine ⟨so1.emit_file e he, so1.emit_commit e he,
              (so1.emit_len e he).1, (so1.emit_len e he).2,
              h, List.mem_cons_self _ _, so1.emit_hunk e he⟩
          · obtain ⟨f1, f2, f3, f4, h', hh', hid⟩ := ih1 e he
            exact ⟨f1, f2, f3, f4, h', List.mem_cons_of_mem _ hh', hid⟩
        · intro hnd htarget hmem
          rw [List.map_cons, List.nodup_cons] at hnd
          rw [List.filter_append]
          rcases List.mem_cons.1 hmem with hmem | hmem
          · subst hmem
            refine ⟨o1, hh, ?_⟩
            have hfo1 : o1.filter
                (fun e => decide (e.range.hunkId = htarget.id)) = o1 := by
              apply List.filter_eq_self.2
              intro e he
              exact decide_eq_true (so1.emit_hunk e he)
            have hfo2 : o2.filter
                (fun e => decide (e.range.hunkId = htarget.id)) = [] := by
              apply List.filter_eq_nil.2
              intro e he
              obtain ⟨_, _, _, _, h', hh', hid⟩ := ih1 e he
              intro hdec
              have : e.range.hunkId = htarget.id := of_decide_eq_true hdec
              exact hnd.1 (this ▸ hid ▸ List.mem_map_of_mem ParsedHunk.id hh')
            rw [hfo1, hfo2, List.append_nil]
          · obtain ⟨hout, hsc, hfilter⟩ := ih2 hnd.2 htarget hmem
            refine ⟨hout, hsc, ?_⟩
            have hfo1 : o1.filter
                (fun e => decide (e.range.hunkId = htarget.id)) = [] := by
              apply List.filter_eq_nil.2
              intro e he
              intro hdec
              have heq : e.range.hunkId = htarget.id := of_decide_eq_true hdec
              have : e.range.hunkId = h.id := so1.emit_hunk e he
              exact hnd.1 (this ▸ heq ▸
                List.mem_map_of_mem ParsedHunk.id hmem)
            rw [hfo1, hfilter, List.nil_append]

theorem allHunks_cons (f : ParsedFileDiff) (fs : List ParsedFileDiff) :
    allHunks (f :: fs) = f.hunks ++ allHunks fs := by
  unfold allHunks
  rw [List.flatMap_cons]

theorem scanFiles_props (commits : List CommitPlan)
    (classMap : List ((Nat × Nat) × String)) :
    ∀ (files : List ParsedFileDiff) (out : List Emit),
      scanFiles commits classMap files = some out →
      (∀ e ∈ out, e.commitId ∈ planIds commits ∧
        1 ≤ e.range.lines.length ∧
        e.range.endLineIdx + 1 =
          e.range.startLineIdx + e.range.lines.length ∧
        ∃ h ∈ allHunks files, e.range.hunkId = h.id) ∧
      (hunkIdsNodup files →
        ∀ f ∈ files, ∀ h ∈ f.hunks, ∃ hout,
          scanHunk commits classMap f.filePath h = some hout ∧
          out.filter (fun e => decide (e.range.hunkId = h.id)) = hout) := by
  intro files
  induction files with
  | nil =>
    intro out hscan
    have hout : out = [] := by
      have : (some [] : Option (List Emit)) = some out := hscan
      exact (Option.some.inj this).symm
    subst hout
    constructor
    · intro e he
      cases he
    · intro _ f hf
      cases hf
  | cons f fs ih =>
    intro out hscan
    cases hf : scanFile commits classMap f.filePath f.hunks with
    | none =>
      rw [scanFiles, hf] at hscan
      cases hscan
    | some o1 =>
      cases hfs : scanFiles commits classMap fs with
      | none =>
        rw [scanFiles, hf, hfs] at hscan
        cases hscan
      | some o2 =>
        rw [scanFiles, hf, hfs] at hscan
        have hout : out = o1 ++ o2 := (Option.some.inj hscan).symm
        subst hout
        obtain ⟨p1, p2⟩ := scanFile_props commits classMap f.filePath
          f.hunks o1 hf
        obtain ⟨ih1, ih2⟩ := ih o2 hfs
        constructor
        · intro e he
          rcases List.mem_append.1 he with he | he
          · obtain ⟨_, f2, f3, f4, h', hh', hid⟩ := p1 e he
            refine ⟨f2, f3, f4, h', ?_, hid⟩
            rw [allHunks_cons]
            exact List.mem_append.2 (Or.inl hh')
          · obtain ⟨f2, f3, f4, h', hh', hid⟩ := ih1 e he
            refine ⟨f2, f3, f4, h', ?_, hid⟩
            rw [allHunks_cons]
            exact List.mem_append.2 (Or.inr hh')
        · intro hnd ftarget hfmem htarget hhmem
          have hnd' : (f.hunks.map ParsedHunk.id ++
              (allHunks fs).map ParsedHunk.id).Nodup := by
            unfold hunkIdsNodup at hnd
            rw [allHunks_cons, List.map_append] at hnd
            exact hnd
          rw [List.nodup_append] at hnd'
          rw [List.filter_append]
          rcases List.mem_cons.1 hfmem with hfmem | hfmem
          · subst hfmem
            obtain ⟨hout, hsc, hfilter⟩ := p2 hnd'.1 htarget hhmem
            refine ⟨hout, hsc, ?_⟩
            have hfo2 : o2.filter
                (fun e => decide (e.range.hunkId = htarget.id)) = [] := by
              apply List.filter_eq_nil.2
              intro e he hdec
              obtain ⟨_, _, _, h', hh', hid⟩ := ih1 e he
              have heq : e.range.hunkId = htarget.id := of_decide_eq_true hdec
              exact hnd'.2.2 (List.mem_map_of_mem ParsedHunk.id hhmem)
                (heq ▸ hid ▸ List.mem_map_of_mem ParsedHunk.id hh')
            rw [hfilter, hfo2, List.append_nil]
          · have hndfs : hunkIdsNodup fs := by
              unfold hunkIdsNodup
              exact hnd'.2.1
            obtain ⟨hout, hsc, hfilter⟩ := ih2 hndfs ftarget hfmem htarget
              hhmem
            refine ⟨hout, hsc, ?_⟩
            have hfo1 : o1.filter
                (fun e => decide (e.range.hunkId = htarget.id)) = [] := by
              apply List.filter_eq_nil.2
              intro e he hdec
              obtain ⟨_, _, _, _, h', hh', hid⟩ := p1 e he
              have heq : e.range.hunkId = htarget.id :=
                of_decide_eq_true hdec
              have hmemtarget : htarget.id ∈
                  (allHunks fs).map ParsedHunk.id := by
                apply List.mem_map_of_mem
                unfold allHunks
                exact List.mem_flatMap.2 ⟨ftarget, hfmem, hhmem⟩
              have hh'id : h'.id ∈ f.hunks.map ParsedHunk.id :=
                List.mem_map_of_mem ParsedHunk.id hh'
              have hte : htarget.id = h'.id := by rw [← heq, hid]
              exact hnd'.2.2 (hte ▸ hh'id) hmemtarget
            rw [hfo1, hfilter, List.nil_append]

/-! ## Relating the grouped output to the flat emit sequence -/

theorem mem_of_groupEmits (commits : List CommitPlan) (emits : List Emit) :
    ∀ c ∈ groupEmits commits emits, ∀ fc ∈ c.fileChanges, ∀ r ∈ fc.ranges,
      ∃ e ∈ emits, e.commitId = c.commitId ∧ e.filePath = fc.filePath ∧
        e.range = r := by
  intro c hc fc hfc r hr
  unfold groupEmits at hc
  obtain ⟨commit, hcommit, hceq⟩ := List.mem_map.1 hc
  subst hceq
  dsimp only at hfc hr ⊢
  rw [List.mem_filter] at hfc
  obtain ⟨p, hp, hfceq⟩ := List.mem_map.1 hfc.1
  subst hfceq
  dsimp only at hr ⊢
  obtain ⟨e, hef, hereq⟩ := List.mem_map.1 hr
  rw [List.mem_filter] at hef
  have hece := hef.1
  rw [List.mem_filter] at hece
  refine ⟨e, hece.1, of_decide_eq_true hece.2, of_decide_eq_true hef.2,
    hereq⟩

theorem groupEmits_mem (commits : List CommitPlan) (emits : List Emit)
    (e : Emit) (he : e ∈ emits) (hc : e.commitId ∈ planIds commits) :
    ∃ c ∈ groupEmits commits emits, c.commitId = e.commitId ∧
      ∃ fc ∈ c.fileChanges, fc.filePath = e.filePath ∧
        e.range ∈ fc.ranges := by
  unfold planIds at hc
  obtain ⟨commit, hcommit, hid⟩ := List.mem_map.1 hc
  have hce : e ∈ emits.filter (fun x => decide (x.commitId = commit.id)) :=
    List.mem_filter.2 ⟨he, decide_eq_true hid.symm⟩
  refine ⟨_, List.mem_map_of_mem _ hcommit, hid, ?_⟩
  dsimp only
  have hp : e.filePath ∈ firstOccs
      ((emits.filter (fun x => decide (x.commitId = commit.id))).map
        Emit.filePath) := by
    rw [mem_firstOccs]
    exact List.mem_map_of_mem _ hce
  have hrange : e.range ∈
      (((emits.filter (fun x => decide (x.commitId = commit.id))).filter
        (fun x => decide (x.filePath = e.filePath))).map Emit.range) :=
    List.mem_map_of_mem _ (List.mem_filter.2 ⟨hce, decide_eq_true rfl⟩)
  refine ⟨⟨e.filePath,
    ((emits.filter (fun x => decide (x.commitId = commit.id))).filter
      (fun x => decide (x.filePath = e.filePath))).map Emit.range⟩, ?_, rfl,
    hrange⟩
  rw [List.mem_filter]
  constructor
  · exact List.mem_map.2 ⟨e.filePath, hp, rfl⟩
  · have : 0 < (((emits.filter
        (fun x => decide (x.commitId = commit.id))).filter
        (fun x => decide (x.filePath = e.filePath))).map Emit.range).length :=
      List.length_pos_of_mem hrange
    exact decide_eq_true this

theorem countP_taggedRanges (commits : List CommitPlan) (emits : List Emit)
    (hnd : (planIds commits).Nodup)
    (hall : ∀ e ∈ emits, e.commitId ∈ planIds commits)
    (q : String × LineRange → Bool) :
    (taggedRanges (groupEmits commits emits)).countP q =
      emits.countP (fun e => q (e.commitId, e.range)) := by
  unfold taggedRanges groupEmits
  rw [countP_flatMap, List.map_map]
  have hper : ∀ commit ∈ commits,
      ((fun c : CommitChanges =>
          (c.fileChanges.flatMap fun fc =>
            fc.ranges.map fun r => (c.commitId, r)).countP q) ∘
        fun commit : CommitPlan =>
          ({ commitId := commit.id, message := commit.message,
             description := commit.description,
             fileChanges := ((firstOccs
                ((emits.filter (fun e => decide (e.commitId = commit.id))).map
                  Emit.filePath)).map fun p =>
                  { filePath := p,
                    ranges := ((emits.filter
                      (fun e => decide (e.commitId = commit.id))).filter
                      (fun e => decide (e.filePath = p))).map Emit.range
                    : FileChanges }).filter
                (fun fc => fc.ranges.length > 0) } : CommitChanges)) commit =
      (emits.filter (fun e => decide (e.commitId = commit.id))).countP
        (fun e => q (e.commitId, e.range)) := by
    intro commit _
    dsimp only [Function.comp_apply]
    set ce := emits.filter (fun e => decide (e.commitId = commit.id))
      with hce
    have hfilterid : (((firstOccs (ce.map Emit.filePath)).map fun p =>
        { filePath := p,
          ranges := (ce.filter (fun e => decide (e.filePath = p))).map
            Emit.range : FileChanges }).filter
        (fun fc => fc.ranges.length > 0)) =
        ((firstOccs (ce.map Emit.filePath)).map fun p =>
          { filePath := p,
            ranges := (ce.filter (fun e => decide (e.filePath = p))).map
              Emit.range : FileChanges }) := by
      apply List.filter_eq_self.2
      intro fc hfc
      obtain ⟨p, hp, hfceq⟩ := List.mem_map.1 hfc
      subst hfceq
      rw [mem_firstOccs] at hp
      obtain ⟨e, hece, hep⟩ := List.mem_map.1 hp
      have : e.range ∈ (ce.filter
          (fun x => decide (x.filePath = p))).map Emit.range :=
        List.mem_map_of_mem _ (List.mem_filter.2 ⟨hece, decide_eq_true hep⟩)
      exact decide_eq_true (List.length_pos_of_mem this)
    rw [hfilterid, countP_flatMap, List.map_map]
    have hinner : ∀ p ∈ firstOccs (ce.map Emit.filePath),
        ((fun fc : FileChanges =>
            (fc.ranges.map fun r => (commit.id, r)).countP q) ∘
          fun p => FileChanges.mk p
            ((ce.filter (fun e => decide (e.filePath = p))).map
              Emit.range)) p =
        ((ce.filter (fun e => decide (e.filePath = p))).countP
          (fun e => q (e.commitId, e.range))) := by
      intro p _
      dsimp only [Function.comp_apply]
      rw [List.map_map, List.countP_map]
      apply List.countP_congr
      intro e hece
      rw [List.mem_filter] at hece
      have h1 := hece.1
      rw [hce, List.mem_filter] at h1
      have : e.commitId = commit.id := of_decide_eq_true h1.2
      simp only [Function.comp_apply, this]
    rw [List.map_congr_left hinner]
    rw [countP_partition_keys Emit.filePath
      (fun e => q (e.commitId, e.range)) (firstOccs (ce.map Emit.filePath))
      ce (firstOccs_nodup _) ?_]
    intro e hece
    rw [mem_firstOccs]
    exact List.mem_map_of_mem _ hece
  rw [List.map_congr_left hper]
  have hpm : commits.map (fun commit =>
      (emits.filter (fun e => decide (e.commitId = commit.id))).countP
        (fun e => q (e.commitId, e.range))) =
      (planIds commits).map (fun k =>
        (emits.filter (fun e => decide (e.commitId = k))).countP
          (fun e => q (e.commitId, e.range))) := by
    unfold planIds
    rw [List.map_map]
    rfl
  rw [hpm]
  exact countP_partition_keys Emit.commitId
    (fun e => q (e.commitId, e.range)) (planIds commits) emits hnd hall

/-! ## Claim C9 -/

/-- C9: `extractChanges` never throws when the commit plan is nonempty and
every classification entry names a plan group; outside this precondition
it can throw: it does on an empty plan with an unclassified changed line,
and on a classification entry naming a commit id absent from the plan. -/
theorem extractChanges_totality_boundary :
    (∀ (files : List ParsedFileDiff) (commits : List CommitPlan)
        (classifications : List HunkClassificationResult),
        commits ≠ [] → classValid commits classifications →
        (extractChanges files commits classifications).isSome = true) ∧
    extractChanges [exFileA] [] [] = none ∧
    extractChanges [exFileA] exPlan1 exClsBad = none := by
  refine ⟨?_, by decide, by decide⟩
  intro files commits classifications hne hvalid
  obtain ⟨emits, _, he⟩ :=
    extractChanges_total files commits classifications hne hvalid
  rw [he]
  rfl

/-- Witness for C9: the totality direction applied at scenario A. -/
theorem extractChanges_totality_boundary_witness :
    (extractChanges [exFileA] exPlan exClsA).isSome = true :=
  extractChanges_totality_boundary.1 [exFileA] exPlan exClsA (by decide)
    (by unfold classValid planIds; decide)

/-! ## The exactly-once cover of the extracted ranges -/

theorem mem_taggedRanges (commits : List CommitPlan) (emits : List Emit) :
    ∀ tr ∈ taggedRanges (groupEmits commits emits),
      ∃ e ∈ emits, e.commitId = tr.1 ∧ e.range = tr.2 := by
  intro tr htr
  unfold taggedRanges at htr
  rw [List.mem_flatMap] at htr
  obtain ⟨c, hc, htr⟩ := htr
  rw [List.mem_flatMap] at htr
  obtain ⟨fc, hfc, htr⟩ := htr
  rw [List.mem_map] at htr
  obtain ⟨r, hr, htreq⟩ := htr
  obtain ⟨e, he, h1, _, h3⟩ := mem_of_groupEmits commits emits c hc fc hfc
    r hr
  exact ⟨e, he, by rw [← htreq, h1], by rw [← htreq, h3]⟩

theorem extract_count_cover (files : List ParsedFileDiff)
    (commits : List CommitPlan)
    (classifications : List HunkClassificationResult) (emits : List Emit)
    (hscan : scanFiles commits (buildClassificationMap classifications)
      files = some emits)
    (hnd : (planIds commits).Nodup) (hids : hunkIdsNodup files)
    (f : ParsedFileDiff) (hf : f ∈ files) (h : ParsedHunk)
    (hh : h ∈ f.hunks) (i : Nat) :
    (taggedRanges (groupEmits commits emits)).countP
      (fun tr => decide (tr.2.hunkId = h.id) && coversB tr.2 i) =
      if isChangeB h.content i = true then 1 else 0 := by
  obtain ⟨props1, props2⟩ := scanFiles_props commits
    (buildClassificationMap classifications) files emits hscan
  obtain ⟨hout, hsc, hfilter⟩ := props2 hids f hf h hh
  rw [countP_taggedRanges commits emits hnd (fun e he => (props1 e he).1)]
  have hsplit : emits.countP (fun e =>
      decide (e.range.hunkId = h.id) && coversB e.range i) =
      (emits.filter (fun e => decide (e.range.hunkId = h.id))).countP
        (fun e => coversB e.range i) := by
    rw [List.countP_filter]
    apply List.countP_congr
    intro e _
    rw [Bool.and_comm]
  rw [hsplit, hfilter]
  exact (scanHunk_out commits (buildClassificationMap classifications)
    f.filePath h hout hsc).cover i

/-- C3: under a nonempty plan with distinct group ids, a classification
naming only plan groups, and a diff whose hunks have distinct ids, every
addition/removal line (hunk id, line index) of the input is covered by
exactly one `LineRange` across all `CommitChanges` of `extractChanges`
(and a non-change index by none); moreover every emitted range stays
inside its hunk's addition/removal lines: it never spans a context line
nor the hunk boundary. -/
theorem extractChanges_exactly_once (files : List ParsedFileDiff)
    (commits : List CommitPlan)
    (classifications : List HunkClassificationResult)
    (hne : commits ≠ []) (hnd : (planIds commits).Nodup)
    (hvalid : classValid commits classifications)
    (hids : hunkIdsNodup files) :
    ∃ ccs, extractChanges files commits classifications = some ccs ∧
      (∀ f ∈ files, ∀ h ∈ f.hunks, ∀ i,
        (taggedRanges ccs).countP
          (fun tr => decide (tr.2.hunkId = h.id) && coversB tr.2 i) =
          if isChangeB h.content i = true then 1 else 0) ∧
      (∀ f ∈ files, ∀ h ∈ f.hunks, ∀ tr ∈ taggedRanges ccs,
        tr.2.hunkId = h.id →
          tr.2.startLineIdx ≤ tr.2.endLineIdx ∧
          tr.2.endLineIdx < h.content.length ∧
          ∀ i, tr.2.startLineIdx ≤ i → i ≤ tr.2.endLineIdx →
            isChangeB h.content i = true) := by
  obtain ⟨emits, hscan, hex⟩ :=
    extractChanges_total files commits classifications hne hvalid
  refine ⟨groupEmits commits emits, hex, ?_, ?_⟩
  · intro f hf h hh i
    exact extract_count_cover files commits classifications emits hscan hnd
      hids f hf h hh i
  · intro f hf h hh tr htr hid
    obtain ⟨props1, props2⟩ := scanFiles_props commits
      (buildClassificationMap classifications) files emits hscan
    obtain ⟨hout, hsc, hfilter⟩ := props2 hids f hf h hh
    obtain ⟨e, he, hcid, hrange⟩ := mem_taggedRanges commits emits tr htr
    have hehout : e ∈ hout := by
      rw [← hfilter]
      exact List.mem_filter.2 ⟨he, decide_eq_true (by rw [hrange, hid])⟩
    have so := scanHunk_out commits (buildClassificationMap classifications)
      f.filePath h hout hsc
    have hlen := so.emit_len e hehout
    have hse : e.range.startLineIdx ≤ e.range.endLineIdx := by omega
    have hcover : ∀ i, e.range.startLineIdx ≤ i →
        i ≤ e.range.endLineIdx → isChangeB h.content i = true := by
      intro i h1 h2
      have hpos : 0 < countCover hout i := by
        unfold countCover
        rw [List.countP_pos]
        exact ⟨e, hehout, decide_eq_true ⟨h1, h2⟩⟩
      have := so.cover i
      by_cases hch : isChangeB h.content i = true
      · exact hch
      · rw [if_neg hch] at this
        omega
    have hend : e.range.endLineIdx < h.content.length :=
      isChangeB_lt _ _ (hcover e.range.endLineIdx hse (Nat.le_refl _))
    rw [← hrange]
    exact ⟨hse, hend, hcover⟩

/-- Witness for C3: the exactly-once property at scenario A. -/
theorem extractChanges_exactly_once_witness :
    ∃ ccs, extractChanges [exFileA] exPlan exClsA = some ccs ∧
      (∀ f ∈ [exFileA], ∀ h ∈ f.hunks, ∀ i,
        (taggedRanges ccs).countP
          (fun tr => decide (tr.2.hunkId = h.id) && coversB tr.2 i) =
          if isChangeB h.content i = true then 1 else 0) ∧
      (∀ f ∈ [exFileA], ∀ h ∈ f.hunks, ∀ tr ∈ taggedRanges ccs,
        tr.2.hunkId = h.id →
          tr.2.startLineIdx ≤ tr.2.endLineIdx ∧
          tr.2.endLineIdx < h.content.length ∧
          ∀ i, tr.2.startLineIdx ≤ i → i ≤ tr.2.endLineIdx →
            isChangeB h.content i = true) :=
  extractChanges_exactly_once [exFileA] exPlan exClsA (by decide)
    (by unfold planIds; decide) (by unfold classValid planIds; decide)
    (by unfold hunkIdsNodup allHunks; decide)

/-- C6: in the output of `extractChanges`, no two ranges of the same
group have the same hunk id and type with one starting right after the
other ends: adjacent same-typed lines of one group are always coalesced.
Stated under the hypotheses that make the output exist, plus the data
model's distinct hunk ids. -/
theorem extractChanges_ranges_maximal (files : List ParsedFileDiff)
    (commits : List CommitPlan)
    (classifications : List HunkClassificationResult)
    (hne : commits ≠ []) (hvalid : classValid commits classifications)
    (hids : hunkIdsNodup files) :
    ∃ ccs, extractChanges files commits classifications = some ccs ∧
      ∀ c ∈ ccs, ∀ fc1 ∈ c.fileChanges, ∀ fc2 ∈ c.fileChanges,
        ∀ r1 ∈ fc1.ranges, ∀ r2 ∈ fc2.ranges,
          r1.hunkId = r2.hunkId → r1.type = r2.type →
          r2.startLineIdx = r1.endLineIdx + 1 → False := by
  obtain ⟨emits, hscan, hex⟩ :=
    extractChanges_total files commits classifications hne hvalid
  refine ⟨groupEmits commits emits, hex, ?_⟩
  intro c hc fc1 hfc1 fc2 hfc2 r1 hr1 r2 hr2 hhid htype hadj
  obtain ⟨e1, he1, he1c, _, he1r⟩ := mem_of_groupEmits commits emits c hc
    fc1 hfc1 r1 hr1
  obtain ⟨e2, he2, he2c, _, he2r⟩ := mem_of_groupEmits commits emits c hc
    fc2 hfc2 r2 hr2
  obtain ⟨props1, props2⟩ := scanFiles_props commits
    (buildClassificationMap classifications) files emits hscan
  obtain ⟨_, _, _, h, hhall, hhid1⟩ := props1 e1 he1
  obtain ⟨f, hf, hhf⟩ := List.mem_flatMap.1 hhall
  obtain ⟨hout, hsc, hfilter⟩ := props2 hids f hf h hhf
  have so := scanHunk_out commits (buildClassificationMap classifications)
    f.filePath h hout hsc
  have he1h : e1 ∈ hout := by
    rw [← hfilter]
    exact List.mem_filter.2 ⟨he1, decide_eq_true hhid1⟩
  have he2h : e2 ∈ hout := by
    rw [← hfilter]
    refine List.mem_filter.2 ⟨he2, decide_eq_true ?_⟩
    rw [he2r, ← hhid, ← he1r]
    exact hhid1
  have hpw : hout.Pairwise adjOK := by
    apply chain_adj_pairwise hout so.chain
    intro e he
    have := so.emit_len e he
    omega
  obtain ⟨i1, hi1, hgi1⟩ := List.getElem_of_mem he1h
  obtain ⟨i2, hi2, hgi2⟩ := List.getElem_of_mem he2h
  have hkey : (e1.commitId, e1.range.type) = (e2.commitId, e2.range.type) := by
    rw [he1c, he2c, he1r, he2r, htype]
  have hv1 := so.emit_len e1 he1h
  have hv2 := so.emit_len e2 he2h
  rw [he1r] at hv1
  rw [he2r] at hv2
  rcases Nat.lt_trichotomy i1 i2 with hlt | heq | hgt
  · have hrel := List.pairwise_iff_getElem.1 hpw i1 i2 hi1 hi2 hlt
    rw [hgi1, hgi2] at hrel
    unfold adjOK at hrel
    rw [he1r, he2r] at hrel
    exact hrel.2 hadj.symm (by rw [← he1r, ← he2r]; exact hkey)
  · subst heq
    have he12 : e1 = e2 := by rw [← hgi1, ← hgi2]
    rw [he12, he2r] at he1r
    rw [← he1r] at hadj
    omega
  · have hrel := List.pairwise_iff_getElem.1 hpw i2 i1 hi2 hi1 hgt
    rw [hgi1, hgi2] at hrel
    unfold adjOK at hrel
    rw [he1r, he2r] at hrel
    have := hrel.1
    omega

/-- Witness for C6: the maximality property at scenario A. -/
theorem extractChanges_ranges_maximal_witness :
    ∃ ccs, extractChanges [exFileA] exPlan exClsA = some ccs ∧
      ∀ c ∈ ccs, ∀ fc1 ∈ c.fileChanges, ∀ fc2 ∈ c.fileChanges,
        ∀ r1 ∈ fc1.ranges, ∀ r2 ∈ fc2.ranges,
          r1.hunkId = r2.hunkId → r1.type = r2.type →
          r2.startLineIdx = r1.endLineIdx + 1 → False :=
  extractChanges_ranges_maximal [exFileA] exPlan exClsA (by decide)
    (by unfold classValid planIds; decide)
    (by unfold hunkIdsNodup allHunks; decide)

/-- C7: when the classification map has no entry for an addition/removal
line, `extractChanges` does not throw (under the no-throw precondition of
the other entries) and assigns that line to the first group of the plan:
the line is covered by exactly one range, and every range covering it is
tagged with the first plan entry's commit id. -/
theorem extractChanges_fallback_first_group (files : List ParsedFileDiff)
    (commits : List CommitPlan)
    (classifications : List HunkClassificationResult)
    (hne : commits ≠ []) (hnd : (planIds commits).Nodup)
    (hvalid : classValid commits classifications)
    (hids : hunkIdsNodup files) (f : ParsedFileDiff) (hf : f ∈ files)
    (h : ParsedHunk) (hh : h ∈ f.hunks) (i : Nat)
    (hchg : isChangeB h.content i = true)
    (hmiss : listGet (buildClassificationMap classifications) (h.id, i) =
      none) :
    ∃ ccs c0, extractChanges files commits classifications = some ccs ∧
      ccs.head? = some c0 ∧
      (taggedRanges ccs).countP
        (fun tr => decide (tr.2.hunkId = h.id) && coversB tr.2 i) = 1 ∧
      ∀ tr ∈ taggedRanges ccs, tr.2.hunkId = h.id → coversB tr.2 i = true →
        tr.1 = c0.commitId := by
  obtain ⟨emits, hscan, hex⟩ :=
    extractChanges_total files commits classifications hne hvalid
  obtain ⟨c0', rest, hc0⟩ := List.exists_cons_of_ne_nil hne
  have hres : resolveCommit (buildClassificationMap classifications)
      commits h.id i = some c0'.id := by
    unfold resolveCommit
    rw [hmiss, hc0]
    rfl
  have hhead : (groupEmits commits emits).head? =
      some (groupEmits commits emits).head! := by
    unfold groupEmits
    rw [hc0]
    rfl
  refine ⟨groupEmits commits emits, (groupEmits commits emits).head!, hex,
    hhead, ?_, ?_⟩
  · have := extract_count_cover files commits classifications emits hscan
      hnd hids f hf h hh i
    rw [if_pos hchg] at this
    exact this
  · intro tr htr hhid hcov
    obtain ⟨props1, props2⟩ := scanFiles_props commits
      (buildClassificationMap classifications) files emits hscan
    obtain ⟨hout, hsc, hfilter⟩ := props2 hids f hf h hh
    obtain ⟨e, he, hcid, hrange⟩ := mem_taggedRanges commits emits tr htr
    have hehout : e ∈ hout := by
      rw [← hfilter]
      exact List.mem_filter.2 ⟨he, decide_eq_true (by rw [hrange]; exact hhid)⟩
    have so := scanHunk_out commits (buildClassificationMap classifications)
      f.filePath h hout hsc
    obtain ⟨l, _, _, hres', _⟩ := so.emit_label e hehout i
      (by rw [hrange]; exact hcov)
    have : e.commitId = c0'.id :=
      (Option.some.inj (hres.symm.trans hres')).symm
    rw [← hcid, this]
    show c0'.id = (groupEmits commits emits).head!.commitId
    unfold groupEmits
    rw [hc0]
    rfl

/-- Witness for C7: scenario A's hunk with the classification entry for
its first line removed falls back to group 1. -/
theorem extractChanges_fallback_first_group_witness :
    ∃ ccs c0,
      extractChanges [exFileA] exPlan [⟨0, [⟨1, "c2"⟩, ⟨2, "c2"⟩]⟩] =
        some ccs ∧
      ccs.head? = some c0 ∧
      (taggedRanges ccs).countP
        (fun tr => decide (tr.2.hunkId = exHunkA.id) && coversB tr.2 0) =
        1 ∧
      ∀ tr ∈ taggedRanges ccs, tr.2.hunkId = exHunkA.id →
        coversB tr.2 0 = true → tr.1 = c0.commitId :=
  extractChanges_fallback_first_group [exFileA] exPlan
    [⟨0, [⟨1, "c2"⟩, ⟨2, "c2"⟩]⟩] (by decide) (by unfold planIds; decide)
    (by unfold classValid planIds; decide)
    (by unfold hunkIdsNodup allHunks; decide) exFileA (by decide) exHunkA
    (by decide) 0 (by decide) (by decide)

/-! ## Permutation bridge and line-count accounting -/

theorem flatMap_perm_congr {α β : Type} (l : List α) (f g : α → List β)
    (h : ∀ x ∈ l, (f x).Perm (g x)) :
    (l.flatMap f).Perm (l.flatMap g) := by
  induction l with
  | nil => exact List.Perm.refl _
  | cons a t ih =>
    rw [List.flatMap_cons, List.flatMap_cons]
    exact (h a (List.mem_cons_self _ _)).append
      (ih (fun x hx => h x (List.mem_cons_of_mem _ hx)))

theorem flatMap_congr_left {α β : Type} (l : List α) (f g : α → List β)
    (h : ∀ x ∈ l, f x = g x) : l.flatMap f = l.flatMap g := by
  induction l with
  | nil => rfl
  | cons a t ih =>
    rw [List.flatMap_cons, List.flatMap_cons,
      h a (List.mem_cons_self _ _),
      ih (fun x hx => h x (List.mem_cons_of_mem _ hx))]

theorem partition_keys_perm {α : Type} (key : α → String) :
    ∀ (ks : List String) (l : List α), ks.Nodup →
      (∀ x ∈ l, key x ∈ ks) →
      (ks.flatMap (fun k => l.filter (fun x => decide (key x = k)))).Perm
        l := by
  intro ks
  induction ks with
  | nil =>
    intro l _ hcov
    have : l = [] := by
      cases l with
      | nil => rfl
      | cons a t => exact absurd (hcov a (List.mem_cons_self _ _)) (by simp)
    rw [this]
    exact List.Perm.refl _
  | cons k ks ih =>
    intro l hnd hcov
    rw [List.nodup_cons] at hnd
    rw [List.flatMap_cons]
    have hstep : ∀ kx ∈ ks,
        l.filter (fun x => decide (key x = kx)) =
          (l.filter (fun x => !(decide (key x = k)))).filter
            (fun x => decide (key x = kx)) := by
      intro kx hkx
      rw [List.filter_filter]
      apply List.filter_congr
      intro x _
      by_cases hx : key x = kx
      · have hne : kx ≠ k := fun hh => hnd.1 (hh ▸ hkx)
        have hnk : ¬(key x = k) := fun hh => hne (by rw [← hx, hh])
        simp [hx, hnk, hne]
      · simp [hx]
    have htail : (ks.flatMap (fun kx =>
        l.filter (fun x => decide (key x = kx)))).Perm
        (l.filter (fun x => !(decide (key x = k)))) := by
      rw [flatMap_congr_left ks _ _ hstep]
      apply ih
      · exact hnd.2
      · intro x hx
        rw [List.mem_filter] at hx
        have hmem := hcov x hx.1
        rcases List.mem_cons.1 hmem with h | h
        · exfalso
          have := hx.2
          rw [h] at this
          simp at this
        · exact h
    exact (((List.Perm.refl _).append htail).trans
      (List.filter_append_perm _ l))

theorem fcfilter_id (ce : List Emit) :
    (((firstOccs (ce.map Emit.filePath)).map fun p =>
        FileChanges.mk p
          ((ce.filter (fun e => decide (e.filePath = p))).map
            Emit.range)).filter (fun fc => fc.ranges.length > 0)) =
      ((firstOccs (ce.map Emit.filePath)).map fun p =>
        FileChanges.mk p
          ((ce.filter (fun e => decide (e.filePath = p))).map
            Emit.range)) := by
  apply List.filter_eq_self.2
  intro fc hfc
  obtain ⟨p, hp, hfceq⟩ := List.mem_map.1 hfc
  subst hfceq
  rw [mem_firstOccs] at hp
  obtain ⟨e, hece, hep⟩ := List.mem_map.1 hp
  have : e.range ∈ (ce.filter
      (fun x => decide (x.filePath = p))).map Emit.range :=
    List.mem_map_of_mem _ (List.mem_filter.2 ⟨hece, decide_eq_true hep⟩)
  exact decide_eq_true (List.length_pos_of_mem this)

theorem taggedRanges_perm (commits : List CommitPlan) (emits : List Emit)
    (hnd : (planIds commits).Nodup)
    (hall : ∀ e ∈ emits, e.commitId ∈ planIds commits) :
    (taggedRanges (groupEmits commits emits)).Perm
      (emits.map (fun e => (e.commitId, e.range))) := by
  unfold taggedRanges groupEmits
  rw [List.flatMap_map]
  have hper : ∀ commit ∈ commits,
      (((fun c : CommitChanges => c.fileChanges.flatMap fun fc =>
          fc.ranges.map fun r => (c.commitId, r)) ∘
        fun commit : CommitPlan =>
          ({ commitId := commit.id, message := commit.message,
             description := commit.description,
             fileChanges := ((firstOccs
                ((emits.filter (fun e => decide (e.commitId = commit.id))).map
                  Emit.filePath)).map fun p =>
                  { filePath := p,
                    ranges := ((emits.filter
                      (fun e => decide (e.commitId = commit.id))).filter
                      (fun e => decide (e.filePath = p))).map Emit.range
                    : FileChanges }).filter
                (fun fc => fc.ranges.length > 0) } : CommitChanges))
        commit).Perm
      ((emits.filter (fun e => decide (e.commitId = commit.id))).map
        (fun e => (e.commitId, e.range))) := by
    intro commit _
    dsimp only [Function.comp_apply]
    set ce := emits.filter (fun e => decide (e.commitId = commit.id))
      with hce
    rw [fcfilter_id ce, List.flatMap_map]
    have hinner : ∀ p ∈ firstOccs (ce.map Emit.filePath),
        List.map (fun r => (commit.id, r))
          (FileChanges.mk p
            ((ce.filter (fun e => decide (e.filePath = p))).map
              Emit.range)).ranges =
          (ce.filter (fun e => decide (e.filePath = p))).map
            (fun e => (commit.id, e.range)) := by
      intro p _
      rw [List.map_map]
      rfl
    rw [flatMap_congr_left _ _ _ hinner]
    have hout : (firstOccs (ce.map Emit.filePath)).flatMap
        (fun p => (ce.filter (fun e => decide (e.filePath = p))).map
          (fun e => (commit.id, e.range))) =
        ((firstOccs (ce.map Emit.filePath)).flatMap
          (fun p => ce.filter (fun e => decide (e.filePath = p)))).map
          (fun e => (commit.id, e.range)) := by
      rw [List.map_flatMap]
    rw [hout]
    have hcov : ∀ e ∈ ce,
        Emit.filePath e ∈ firstOccs (ce.map Emit.filePath) := by
      intro e hece
      rw [mem_firstOccs]
      exact List.mem_map_of_mem _ hece
    have hperm := partition_keys_perm Emit.filePath
      (firstOccs (ce.map Emit.filePath)) ce (firstOccs_nodup _) hcov
    have hmapped := hperm.map (fun e : Emit => (commit.id, e.range))
    refine hmapped.trans ?_
    have hcongr : ce.map (fun e : Emit => (commit.id, e.range)) =
        ce.map (fun e : Emit => (e.commitId, e.range)) := by
      apply List.map_congr_left
      intro e hece
      rw [hce, List.mem_filter] at hece
      rw [of_decide_eq_true hece.2]
    rw [hcongr]
  have hstep := flatMap_perm_congr commits _ _ hper
  refine hstep.trans ?_
  have hout2 : commits.flatMap (fun commit =>
      (emits.filter (fun e => decide (e.commitId = commit.id))).map
        (fun e => (e.commitId, e.range))) =
      (commits.flatMap (fun commit =>
        emits.filter (fun e => decide (e.commitId = commit.id)))).map
        (fun e => (e.commitId, e.range)) := by
    rw [List.map_flatMap]
  rw [hout2]
  have hout3 : commits.flatMap (fun commit =>
      emits.filter (fun e => decide (e.commitId = commit.id))) =
      (planIds commits).flatMap (fun k =>
        emits.filter (fun e => decide (e.commitId = k))) := by
    unfold planIds
    rw [List.flatMap_map]
  rw [hout3]
  exact (partition_keys_perm Emit.commitId (planIds commits) emits hnd
    hall).map _

theorem sum_map_add {α : Type} (ns : List α) (f g : α → Nat) :
    (ns.map (fun x => f x + g x)).sum = (ns.map f).sum + (ns.map g).sum := by
  induction ns with
  | nil => rfl
  | cons a t ih =>
    simp only [List.map_cons, List.sum_cons, ih]
    omega

theorem sum_range_indicator (a b : Nat) :
    ∀ n : Nat, ((List.range n).map
        (fun i => if a ≤ i ∧ i ≤ b then 1 else 0)).sum =
      min (b + 1) n - min a n := by
  intro n
  induction n with
  | zero => simp
  | succ n ih =>
    rw [List.range_succ, List.map_append, List.sum_append]
    simp only [List.map_cons, List.map_nil, List.sum_cons, List.sum_nil]
    rw [ih]
    split_ifs with h <;> omega

theorem sum_range_countCover :
    ∀ (l : List Emit) (n : Nat),
      ((List.range n).map (fun i => countCover l i)).sum =
      (l.map (fun e => min (e.range.endLineIdx + 1) n -
        min e.range.startLineIdx n)).sum := by
  intro l
  induction l with
  | nil =>
    intro n
    simp only [List.map_nil, List.sum_nil]
    apply List.sum_eq_zero
    intro x hx
    obtain ⟨i, _, hxi⟩ := List.mem_map.1 hx
    rw [← hxi]
    rfl
  | cons e t ih =>
    intro n
    have hstep : ∀ i, countCover (e :: t) i = countCover t i +
        (if e.range.startLineIdx ≤ i ∧ i ≤ e.range.endLineIdx then 1
          else 0) := by
      intro i
      unfold countCover coversB
      rw [List.countP_cons]
      simp only [decide_eq_true_eq]
    have hmc : (List.range n).map (fun i => countCover (e :: t) i) =
        (List.range n).map (fun i => countCover t i +
          (if e.range.startLineIdx ≤ i ∧ i ≤ e.range.endLineIdx then 1
            else 0)) := by
      apply List.map_congr_left
      intro i _
      exact hstep i
    rw [hmc, sum_map_add, ih, sum_range_indicator]
    simp only [List.map_cons, List.sum_cons]
    omega

theorem sum_range_isChange :
    ∀ (L : List String),
      ((List.range L.length).map
        (fun i => if isChangeB L i = true then 1 else 0)).sum =
      (L.filter
        (fun l => strStartsWith l "+" || strStartsWith l "-")).length := by
  intro L
  induction L with
  | nil => simp
  | cons l t ih =>
    rw [List.length_cons, List.range_succ_eq_map, List.map_cons,
      List.sum_cons, List.map_map]
    have hm : ((List.range t.length).map
        ((fun i => if isChangeB (l :: t) i = true then 1 else 0) ∘
          Nat.succ)).sum =
        ((List.range t.length).map
          (fun i => if isChangeB t i = true then (1 : Nat) else 0)).sum := by
      congr 1
      apply List.map_congr_left
      intro i _
      simp only [Function.comp_apply]
      have : isChangeB (l :: t) (i + 1) = isChangeB t i := by
        unfold isChangeB
        rw [List.getElem?_cons_succ]
      rw [this]
    rw [hm, ih]
    have h0 : isChangeB (l :: t) 0 =
        (strStartsWith l "+" || strStartsWith l "-") := by
      unfold isChangeB
      rw [List.getElem?_cons_zero]
    rw [h0, List.filter_cons]
    cases hb : (strStartsWith l "+" || strStartsWith l "-") <;>
      simp [hb] <;> omega

theorem scanHunk_sum (commits : List CommitPlan)
    (classMap : List ((Nat × Nat) × String)) (filePath : String)
    (hunkId : Nat) (L : List String) (out : List Emit)
    (so : ScanOut commits classMap filePath hunkId L out) :
    (out.map (fun e => e.range.lines.length)).sum =
      (L.filter
        (fun l => strStartsWith l "+" || strStartsWith l "-")).length := by
  have hmap : out.map (fun e => e.range.lines.length) =
      out.map (fun e => min (e.range.endLineIdx + 1) L.length -
        min e.range.startLineIdx L.length) := by
    apply List.map_congr_left
    intro e he
    have hlen := so.emit_len e he
    have hse : e.range.startLineIdx ≤ e.range.endLineIdx := by omega
    have hcovend : isChangeB L e.range.endLineIdx = true := by
      have hpos : 0 < countCover out e.range.endLineIdx := by
        unfold countCover
        rw [List.countP_pos]
        exact ⟨e, he, decide_eq_true ⟨hse, Nat.le_refl _⟩⟩
      have hc := so.cover e.range.endLineIdx
      by_cases hch : isChangeB L e.range.endLineIdx = true
      · exact hch
      · rw [if_neg hch] at hc
        omega
    have hend := isChangeB_lt _ _ hcovend
    omega
  rw [hmap, ← sum_range_countCover]
  have hcmap : (List.range L.length).map (fun i => countCover out i) =
      (List.range L.length).map
        (fun i => if isChangeB L i = true then 1 else 0) := by
    apply List.map_congr_left
    intro i _
    exact so.cover i
  rw [hcmap, sum_range_isChange]

theorem scanFile_sum (commits : List CommitPlan)
    (classMap : List ((Nat × Nat) × String)) (filePath : String) :
    ∀ (hunks : List ParsedHunk) (out : List Emit),
      scanFile commits classMap filePath hunks = some out →
      (out.map (fun e => e.range.lines.length)).sum =
      (hunks.map (fun hunk => (hunk.content.filter
        (fun l => strStartsWith l "+" || strStartsWith l "-")).length)).sum := by
  intro hunks
  induction hunks with
  | nil =>
    intro out hscan
    have : out = [] := (Option.some.inj hscan).symm
    rw [this]
    rfl
  | cons h hs ih =>
    intro out hscan
    cases hh : scanHunk commits classMap filePath h with
    | none => rw [scanFile, hh] at hscan; cases hscan
    | some o1 =>
      cases hf : scanFile commits classMap filePath hs with
      | none => rw [scanFile, hh, hf] at hscan; cases hscan
      | some o2 =>
        rw [scanFile, hh, hf] at hscan
        have hout : out = o1 ++ o2 := (Option.some.inj hscan).symm
        subst hout
        rw [List.map_append, List.sum_append, List.map_cons, List.sum_cons,
          ih o2 hf,
          scanHunk_sum commits classMap filePath h.id h.content o1
            (scanHunk_out commits classMap filePath h o1 hh)]

theorem scanFiles_sum (commits : List CommitPlan)
    (classMap : List ((Nat × Nat) × String)) :
    ∀ (files : List ParsedFileDiff) (out : List Emit),
      scanFiles commits classMap files = some out →
      (out.map (fun e => e.range.lines.length)).sum =
        totalChangedLines files := by
  intro files
  induction files with
  | nil =>
    intro out hscan
    have : out = [] := (Option.some.inj hscan).symm
    rw [this]
    rfl
  | cons f fs ih =>
    intro out hscan
    cases hf : scanFile commits classMap f.filePath f.hunks with
    | none => rw [scanFiles, hf] at hscan; cases hscan
    | some o1 =>
      cases hfs : scanFiles commits classMap fs with
      | none => rw [scanFiles, hf, hfs] at hscan; cases hscan
      | some o2 =>
        rw [scanFiles, hf, hfs] at hscan
        have hout : out = o1 ++ o2 := (Option.some.inj hscan).symm
        subst hout
        unfold totalChangedLines
        rw [List.map_append, List.sum_append, List.map_cons, List.sum_cons,
          ih o2 hfs, scanFile_sum commits classMap f.filePath f.hunks o1 hf]
        rfl

theorem countP_map_count {α β : Type} [DecidableEq β] (l : List α)
    (f : α → β) (k : β) :
    (l.map f).count k = l.countP (fun x => decide (f x = k)) := by
  induction l with
  | nil => rfl
  | cons a t ih =>
    by_cases hfa : f a = k <;>
      simp [List.count_cons, List.countP_cons, ih, hfa]

theorem extract_keys_nodup (files : List ParsedFileDiff)
    (commits : List CommitPlan)
    (classifications : List HunkClassificationResult) (emits : List Emit)
    (hscan : scanFiles commits (buildClassificationMap classifications)
      files = some emits)
    (hnd : (planIds commits).Nodup) (hids : hunkIdsNodup files) :
    ((taggedRanges (groupEmits commits emits)).map
      (fun tr => rangeKey tr.2)).Nodup := by
  obtain ⟨props1, props2⟩ := scanFiles_props commits
    (buildClassificationMap classifications) files emits hscan
  have hperm := (taggedRanges_perm commits emits hnd
    (fun e he => (props1 e he).1)).map (fun tr => rangeKey tr.2)
  rw [hperm.nodup_iff, List.map_map]
  have hgoal : (emits.map
      ((fun tr : String × LineRange => rangeKey tr.2) ∘
        fun e => (e.commitId, e.range))).Nodup ↔
      (emits.map (fun e => rangeKey e.range)).Nodup := Iff.rfl
  rw [hgoal, List.nodup_iff_count_le_one]
  intro k
  rw [countP_map_count emits (fun e => rangeKey e.range) k]
  by_cases hex : ∃ e0 ∈ emits, rangeKey e0.range = k
  · obtain ⟨e0, he0, hk0⟩ := hex
    obtain ⟨_, hlen0, hval0, h, hhall, hid0⟩ := props1 e0 he0
    obtain ⟨f, hf, hhf⟩ := List.mem_flatMap.1 hhall
    have hk1 : k.1 = h.id := by rw [← hk0]; exact hid0
    have hmono : emits.countP (fun e => decide (rangeKey e.range = k)) ≤
        emits.countP
          (fun e => decide (e.range.hunkId = h.id) &&
            coversB e.range k.2.1) := by
      apply List.countP_mono_left
      intro e he hkey
      have hkeq : rangeKey e.range = k := of_decide_eq_true hkey
      obtain ⟨_, hlen, hval, _, _⟩ := props1 e he
      have h1 : e.range.hunkId = k.1 := by rw [← hkeq]; rfl
      have h2 : e.range.startLineIdx = k.2.1 := by rw [← hkeq]; rfl
      have h3 : e.range.endLineIdx = k.2.2 := by rw [← hkeq]; rfl
      rw [Bool.and_eq_true]
      constructor
      · exact decide_eq_true (by rw [h1, hk1])
      · unfold coversB
        apply decide_eq_true
        omega
    have hcc := extract_count_cover files commits classifications emits
      hscan hnd hids f hf h hhf k.2.1
    rw [countP_taggedRanges commits emits hnd
      (fun e he => (props1 e he).1)] at hcc
    have hle1 : emits.countP (fun e =>
        decide (e.range.hunkId = h.id) && coversB e.range k.2.1) ≤ 1 := by
      rw [hcc]
      split_ifs <;> omega
    omega
  · have hzero : emits.countP (fun e => decide (rangeKey e.range = k)) =
        0 := by
      rw [List.countP_eq_zero]
      intro e he hkey
      exact hex ⟨e, he, of_decide_eq_true hkey⟩
    omega

/-! ## Characterizing `validateExtraction` -/

theorem validate_count_fold :
    ∀ (l : List (String × LineRange)) (cnt : Nat)
      (seen : List (Nat × Nat × Nat)) (errs : List String),
      (l.foldl validateStep (cnt, seen, errs)).1 =
        cnt + (l.map (fun tr => tr.2.lines.length)).sum := by
  intro l
  induction l with
  | nil => intro cnt seen errs; simp
  | cons tr t ih =>
    intro cnt seen errs
    rw [List.foldl_cons]
    have hstep : validateStep (cnt, seen, errs) tr =
        (cnt + tr.2.lines.length, setAdd seen (rangeKey tr.2),
          if rangeKey tr.2 ∈ seen then
            errs ++ [dupMsg tr.2.hunkId tr.2.startLineIdx tr.2.endLineIdx
              tr.1]
          else errs) := rfl
    rw [hstep, ih, List.map_cons, List.sum_cons]
    omega

theorem validate_errors_fold :
    ∀ (l : List (String × LineRange)) (cnt : Nat)
      (seen : List (Nat × Nat × Nat)) (errs : List String),
      ((l.foldl validateStep (cnt, seen, errs)).2.2 = [] ↔
        (errs = [] ∧ (l.map (fun tr => rangeKey tr.2)).Nodup ∧
          ∀ tr ∈ l, rangeKey tr.2 ∉ seen)) := by
  intro l
  induction l with
  | nil =>
    intro cnt seen errs
    simp
  | cons tr t ih =>
    intro cnt seen errs
    rw [List.foldl_cons]
    by_cases hk : rangeKey tr.2 ∈ seen
    · have hstep : validateStep (cnt, seen, errs) tr =
          (cnt + tr.2.lines.length, setAdd seen (rangeKey tr.2),
            errs ++ [dupMsg tr.2.hunkId tr.2.startLineIdx tr.2.endLineIdx
              tr.1]) := by
        unfold validateStep
        dsimp only
        rw [if_pos (show rangeKey tr.2 ∈ seen from hk)]
      rw [hstep, ih]
      constructor
      · rintro ⟨h1, _, _⟩
        exact absurd h1 (by simp)
      · rintro ⟨h1, h2, h3⟩
        exact absurd hk (h3 tr (List.mem_cons_self _ _))
    · have hstep : validateStep (cnt, seen, errs) tr =
          (cnt + tr.2.lines.length, seen ++ [rangeKey tr.2], errs) := by
        unfold validateStep setAdd
        dsimp only
        rw [if_neg (show ¬rangeKey tr.2 ∈ seen from hk),
          if_neg (show ¬rangeKey tr.2 ∈ seen from hk)]
      rw [hstep, ih]
      constructor
      · rintro ⟨h1, h2, h3⟩
        refine ⟨h1, ?_, ?_⟩
        · rw [List.map_cons, List.nodup_cons]
          refine ⟨?_, h2⟩
          intro hmem
          obtain ⟨tr', htr', hkeq⟩ := List.mem_map.1 hmem
          have hnotin := h3 tr' htr'
          rw [List.mem_append, List.mem_singleton] at hnotin
          exact hnotin (Or.inr hkeq)
        · intro tr' htr'
          rcases List.mem_cons.1 htr' with htr' | htr'
          · rw [htr']
            exact hk
          · have hnotin := h3 tr' htr'
            rw [List.mem_append, List.mem_singleton] at hnotin
            intro hse
            exact hnotin (Or.inl hse)
      · rintro ⟨h1, h2, h3⟩
        rw [List.map_cons, List.nodup_cons] at h2
        refine ⟨h1, h2.2, ?_⟩
        intro tr' htr'
        rw [List.mem_append, List.mem_singleton]
        rintro (hse | hse)
        · exact h3 tr' (List.mem_cons_of_mem _ htr') hse
        · exact h2.1 (hse ▸ List.mem_map_of_mem _ htr')

theorem validateExtraction_eq_iff (files : List ParsedFileDiff)
    (ccs : List CommitChanges) :
    validateExtraction files ccs = ⟨true, []⟩ ↔
      (((taggedRanges ccs).map (fun tr => tr.2.lines.length)).sum =
        totalChangedLines files ∧
      ((taggedRanges ccs).map (fun tr => rangeKey tr.2)).Nodup) := by
  unfold validateExtraction
  dsimp only
  have hcount : ((taggedRanges ccs).foldl validateStep (0, [], [])).1 =
      ((taggedRanges ccs).map (fun tr => tr.2.lines.length)).sum := by
    rw [validate_count_fold]
    omega
  have herrs : ((taggedRanges ccs).foldl validateStep (0, [], [])).2.2 =
      [] ↔ ((taggedRanges ccs).map (fun tr => rangeKey tr.2)).Nodup := by
    rw [validate_errors_fold]
    simp
  by_cases hm : ((taggedRanges ccs).foldl validateStep (0, [], [])).1 ≠
      totalChangedLines files
  · rw [if_pos hm]
    constructor
    · intro heq
      have := congrArg ValidationResult.errors heq
      dsimp only at this
      exact absurd this (by simp)
    · rintro ⟨h1, _⟩
      rw [← hcount] at h1
      exact absurd h1 hm
  · rw [if_neg hm]
    rw [Ne, not_not] at hm
    constructor
    · intro heq
      have herr := congrArg ValidationResult.errors heq
      dsimp only at herr
      exact ⟨by rw [← hcount]; exact hm, herrs.1 herr⟩
    · rintro ⟨h1, h2⟩
      have he := herrs.2 h2
      rw [he]
      rfl

/-- C4: `validateExtraction` (a total function: it never throws) returns
`valid = true` with an empty error list iff the total number of lines
carried by all ranges equals the number of addition/removal lines of the
input diff and no (hunk id, start, end) span occurs in more than one
range; a count mismatch contributes its own error string (and, by the
definition, each duplicate span contributes its own `Duplicate range`
string).  When the classification assigns every changed line to a group
of the plan, `validateExtraction` on `extractChanges`' output reports
zero errors. -/
theorem validateExtraction_characterization :
    (∀ (files : List ParsedFileDiff) (ccs : List CommitChanges),
      validateExtraction files ccs = ⟨true, []⟩ ↔
        (((taggedRanges ccs).map (fun tr => tr.2.lines.length)).sum =
          totalChangedLines files ∧
        ((taggedRanges ccs).map (fun tr => rangeKey tr.2)).Nodup)) ∧
    (∀ (files : List ParsedFileDiff) (ccs : List CommitChanges),
      ((taggedRanges ccs).map (fun tr => tr.2.lines.length)).sum ≠
        totalChangedLines files →
      mismatchMsg
        ((taggedRanges ccs).map (fun tr => tr.2.lines.length)).sum
        (totalChangedLines files) ∈ (validateExtraction files ccs).errors) ∧
    (∀ (files : List ParsedFileDiff) (commits : List CommitPlan)
        (classifications : List HunkClassificationResult),
      commits ≠ [] → (planIds commits).Nodup →
      classValid commits classifications → hunkIdsNodup files →
      ∃ ccs, extractChanges files commits classifications = some ccs ∧
        validateExtraction files ccs = ⟨true, []⟩) := by
  refine ⟨validateExtraction_eq_iff, ?_, ?_⟩
  · intro files ccs hne
    unfold validateExtraction
    dsimp only
    have hc : ((taggedRanges ccs).foldl validateStep (0, [], [])).1 =
        ((taggedRanges ccs).map (fun tr => tr.2.lines.length)).sum := by
      rw [validate_count_fold]
      omega
    rw [if_pos (show ((taggedRanges ccs).foldl validateStep
        (0, [], [])).1 ≠ totalChangedLines files by rw [hc]; exact hne)]
    rw [hc]
    simp
  · intro files commits classifications hne hnd hvalid hids
    obtain ⟨emits, hscan, hex⟩ :=
      extractChanges_total files commits classifications hne hvalid
    obtain ⟨props1, _⟩ := scanFiles_props commits
      (buildClassificationMap classifications) files emits hscan
    refine ⟨groupEmits commits emits, hex, ?_⟩
    rw [validateExtraction_eq_iff]
    constructor
    · have hperm := (taggedRanges_perm commits emits hnd
        (fun e he => (props1 e he).1)).map (fun tr => tr.2.lines.length)
      rw [hperm.sum_eq, List.map_map]
      have : (emits.map ((fun tr : String × LineRange =>
          tr.2.lines.length) ∘ fun e => (e.commitId, e.range))) =
          emits.map (fun e => e.range.lines.length) := rfl
      rw [this]
      exact scanFiles_sum commits (buildClassificationMap classifications)
        files emits hscan
    · exact extract_keys_nodup files commits classifications emits hscan
        hnd hids

/-- Witness for C4: `extractChanges` output at scenario A validates with
zero errors. -/
theorem validateExtraction_characterization_witness :
    ∃ ccs, extractChanges [exFileA] exPlan exClsA = some ccs ∧
      validateExtraction [exFileA] ccs = ⟨true, []⟩ :=
  validateExtraction_characterization.2.2 [exFileA] exPlan exClsA
    (by decide) (by unfold planIds; decide)
    (by unfold classValid planIds; decide)
    (by unfold hunkIdsNodup allHunks; decide)

/-! ## The full replay equals the full diff application (C1) -/

theorem buildHunkLines_full (origLines : List String) :
    ∀ (rem : List String) (sel : Nat → Bool) (lineIdx origIdx : Nat),
      (∀ j l, rem[j]? = some l →
        sel (lineIdx + j) =
          (strStartsWith l "+" || strStartsWith l "-")) →
      (hunkLinesConsistent origLines rem origIdx).1 = true →
      buildHunkLines sel origLines rem lineIdx origIdx =
        applyHunkLines rem origIdx ∧
      (applyHunkLines rem origIdx).2 =
        (hunkLinesConsistent origLines rem origIdx).2 := by
  intro rem
  induction rem with
  | nil =>
    intro sel lineIdx origIdx _ _
    exact ⟨rfl, rfl⟩
  | cons line rest ih =>
    intro sel lineIdx origIdx hsel hcons
    have hsel0 : sel lineIdx =
        (strStartsWith line "+" || strStartsWith line "-") := by
      have := hsel 0 line (by rw [List.getElem?_cons_zero])
      rw [Nat.add_zero] at this
      exact this
    have hselrest : ∀ j l, rest[j]? = some l →
        sel (lineIdx + 1 + j) =
          (strStartsWith l "+" || strStartsWith l "-") := by
      intro j l hj
      have := hsel (j + 1) l (by rw [List.getElem?_cons_succ]; exact hj)
      have harith : lineIdx + (j + 1) = lineIdx + 1 + j := by omega
      rw [harith] at this
      exact this
    by_cases h1 : line = "" ∧ rest = []
    · obtain ⟨he1, he2⟩ := h1
      subst he1
      subst he2
      exact ⟨rfl, rfl⟩
    · by_cases h2 : strStartsWith line "+" = true
      · have hconsr : (hunkLinesConsistent origLines rest origIdx).1 =
            true ∧ (hunkLinesConsistent origLines (line :: rest)
              origIdx).2 = (hunkLinesConsistent origLines rest origIdx).2 := by
          rw [hunkLinesConsistent] at hcons ⊢
          rw [if_neg h1, if_pos h2] at hcons ⊢
          exact ⟨hcons, rfl⟩
        obtain ⟨hihe, hihidx⟩ := ih sel (lineIdx + 1) origIdx hselrest
          hconsr.1
        simp only [buildHunkLines, applyHunkLines, if_neg h1, if_pos h2]
        rw [hsel0, h2]
        simp only [Bool.true_or, eq_self_iff_true, if_true,
          List.singleton_append]
        constructor
        · rw [hihe]
        · rw [hihidx, hconsr.2]
      · by_cases h34 : (strStartsWith line "-" ||
            strStartsWith line " ") = true
        · have hmain : ∃ l0, origLines[origIdx]? = some l0 ∧
              l0 = strDrop1 line ∧
              hunkLinesConsistent origLines (line :: rest) origIdx =
                hunkLinesConsistent origLines rest (origIdx + 1) := by
            cases hl : origLines[origIdx]? with
            | none =>
              rw [hunkLinesConsistent, if_neg h1, if_neg h2,
                if_pos h34, hl] at hcons
              have hb : (false : Bool) = true := hcons
              cases hb
            | some l0 =>
              rw [hunkLinesConsistent, if_neg h1, if_neg h2,
                if_pos h34, hl] at hcons
              by_cases heq : l0 = strDrop1 line
              · refine ⟨l0, rfl, heq, ?_⟩
                rw [hunkLinesConsistent, if_neg h1, if_neg h2,
                  if_pos h34, hl]
                exact if_pos heq
              · have hcons2 : (if l0 = strDrop1 line then
                    hunkLinesConsistent origLines rest (origIdx + 1)
                  else (false, origIdx)).1 = true := hcons
                rw [if_neg heq] at hcons2
                have hb : (false : Bool) = true := hcons2
                cases hb
          obtain ⟨l0, hl0, hl0eq, hstep⟩ := hmain
          have hconsr : (hunkLinesConsistent origLines rest
              (origIdx + 1)).1 = true := by
            rw [← hstep]
            exact hcons
          obtain ⟨hihe, hihidx⟩ := ih sel (lineIdx + 1) (origIdx + 1)
            hselrest hconsr
          by_cases h3 : strStartsWith line "-" = true
          · simp only [buildHunkLines, applyHunkLines, if_neg h1,
              if_neg h2, if_pos h3]
            rw [hsel0, h3]
            simp only [Bool.or_true, eq_self_iff_true, if_true]
            refine ⟨hihe, ?_⟩
            rw [hihidx, hstep]
          · have h4 : strStartsWith line " " = true := by
              cases hmn : strStartsWith line "-" with
              | true => exact absurd hmn h3
              | false =>
                cases hsp : strStartsWith line " " with
                | true => rfl
                | false => rw [hmn, hsp] at h34; cases h34
            simp only [buildHunkLines, applyHunkLines, if_neg h1,
              if_neg h2, if_neg h3, if_pos h4]
            rw [hl0, hl0eq]
            simp only [Option.toList_some, List.singleton_append]
            constructor
            · rw [hihe]
            · rw [hihidx, hstep]
        · exfalso
          rw [hunkLinesConsistent, if_neg h1, if_neg h2,
            if_neg h34] at hcons
          have hb : (false : Bool) = true := hcons
          cases hb

theorem isSelected_bridge (files : List ParsedFileDiff)
    (commits : List CommitPlan)
    (classifications : List HunkClassificationResult) (emits : List Emit)
    (hscan : scanFiles commits (buildClassificationMap classifications)
      files = some emits)
    (hids : hunkIdsNodup files)
    (f : ParsedFileDiff) (hf : f ∈ files) (h : ParsedHunk)
    (hh : h ∈ f.hunks) (i : Nat) :
    isSelected (rangesForPath (groupEmits commits emits) f.filePath)
      h.id i = isChangeB h.content i := by
  obtain ⟨props1, props2⟩ := scanFiles_props commits
    (buildClassificationMap classifications) files emits hscan
  obtain ⟨hout, hsc, hfilter⟩ := props2 hids f hf h hh
  have hSO := scanHunk_out commits (buildClassificationMap classifications)
    f.filePath h hout hsc
  cases hchg : isChangeB h.content i with
  | true =>
    have hcov1 : countCover hout i = 1 := by
      rw [hSO.cover i, hchg]
      rfl
    have hpos : 0 < hout.countP (fun e => coversB e.range i) := by
      unfold countCover at hcov1
      rw [hcov1]
      exact Nat.one_pos
    obtain ⟨e, he, hpe⟩ := List.countP_pos.1 hpos
    have hemem : e ∈ emits ∧ decide (e.range.hunkId = h.id) = true := by
      have : e ∈ emits.filter (fun e => decide (e.range.hunkId = h.id)) :=
        hfilter ▸ he
      exact List.mem_filter.1 this
    have hpath : e.filePath = f.filePath := hSO.emit_file e he
    have hcmt : e.commitId ∈ planIds commits := hSO.emit_commit e he
    obtain ⟨c, hcmem, hcid, fc, hfcmem, hfcpath, hrmem⟩ :=
      groupEmits_mem commits emits e hemem.1 hcmt
    have hrp : e.range ∈ rangesForPath (groupEmits commits emits)
        f.filePath := by
      unfold rangesForPath
      refine List.mem_flatMap.2 ⟨c, hcmem, ?_⟩
      refine List.mem_flatMap.2 ⟨fc, ?_, hrmem⟩
      refine List.mem_filter.2 ⟨hfcmem, ?_⟩
      rw [hfcpath, hpath]
      exact decide_eq_true rfl
    unfold isSelected
    apply List.any_eq_true.2
    refine ⟨e.range, hrp, ?_⟩
    have hcb := of_decide_eq_true hpe
    exact decide_eq_true ⟨of_decide_eq_true hemem.2, hcb.1, hcb.2⟩
  | false =>
    cases hs : isSelected (rangesForPath (groupEmits commits emits)
        f.filePath) h.id i with
    | false => rfl
    | true =>
      exfalso
      obtain ⟨r, hrmem, hrp⟩ := List.any_eq_true.1 hs
      obtain ⟨hrid, hr1, hr2⟩ := of_decide_eq_true hrp
      obtain ⟨c, hcmem, hrest⟩ := List.mem_flatMap.1 hrmem
      obtain ⟨fc, hfcmem, hrmem2⟩ := List.mem_flatMap.1 hrest
      obtain ⟨e, hemem, hecid, hepath, herange⟩ :=
        mem_of_groupEmits commits emits c hcmem fc
          (List.mem_filter.1 hfcmem).1 r hrmem2
      have hein : e ∈ hout := by
        rw [← hfilter]
        refine List.mem_filter.2 ⟨hemem, ?_⟩
        rw [herange]
        exact decide_eq_true hrid
      have hcovpos : 0 < hout.countP (fun e => coversB e.range i) := by
        apply List.countP_pos.2
        refine ⟨e, hein, ?_⟩
        rw [herange]
        exact decide_eq_true ⟨hr1, hr2⟩
      have hcov0 : countCover hout i = 0 := by
        rw [hSO.cover i, hchg]
        rfl
      unfold countCover at hcov0
      rw [hcov0] at hcovpos
      exact Nat.lt_irrefl 0 hcovpos

theorem buildFC_applyFD (origLines : List String)
    (ranges : List LineRange) :
    ∀ (hunks : List ParsedHunk) (pre : List String) (origIdx : Nat),
      hunksConsistentFrom origLines hunks origIdx = true →
      (∀ h ∈ hunks, ∀ i,
        isSelected ranges h.id i = isChangeB h.content i) →
      hunks.foldl (buildFCStep ranges origLines) (pre, origIdx) =
        hunks.foldl (applyFDStep origLines) (pre, origIdx) := by
  intro hunks
  induction hunks with
  | nil =>
    intro pre origIdx _ _
    rfl
  | cons h hs ih =>
    intro pre origIdx hcons hsel
    cases hf1 : h.headerFull with
    | none =>
      exfalso
      rw [hunksConsistentFrom, hf1] at hcons
      cases hf2 : h.headerOrig with
      | none =>
        rw [hf2] at hcons
        have hb : (false : Bool) = true := hcons
        cases hb
      | some a =>
        rw [hf2] at hcons
        have hb : (false : Bool) = true := hcons
        cases hb
    | some p =>
      cases hf2 : h.headerOrig with
      | none =>
        exfalso
        rw [hunksConsistentFrom, hf1, hf2] at hcons
        have hb : (false : Bool) = true := hcons
        cases hb
      | some a =>
        have hred : hunksConsistentFrom origLines (h :: hs) origIdx =
            (if p.1 = a then
              (hunkLinesConsistent origLines h.content
                (max origIdx
                  (min (hunkStartPos h)
                    (origLines.length : Int)).toNat)).1 &&
              hunksConsistentFrom origLines hs
                (hunkLinesConsistent origLines h.content
                  (max origIdx
                    (min (hunkStartPos h)
                      (origLines.length : Int)).toNat)).2
            else false) := by
          rw [hunksConsistentFrom, hf1, hf2]
        rw [hred] at hcons
        by_cases hpa : p.1 = a
        · rw [if_pos hpa, Bool.and_eq_true] at hcons
          obtain ⟨hc1, hc2⟩ := hcons
          have hselhyp : ∀ j l, h.content[j]? = some l →
              isSelected ranges h.id (0 + j) =
                (strStartsWith l "+" || strStartsWith l "-") := by
            intro j l hj
            rw [Nat.zero_add, hsel h (List.mem_cons_self h hs) j]
            unfold isChangeB
            rw [hj]
          obtain ⟨hb1, hb2⟩ := buildHunkLines_full origLines h.content
            (fun i => isSelected ranges h.id i) 0
            (max origIdx
              (min (hunkStartPos h) (origLines.length : Int)).toNat)
            hselhyp hc1
          have hstep1 : buildFCStep ranges origLines (pre, origIdx) h =
              applyFDStep origLines (pre, origIdx) h := by
            unfold buildFCStep buildHunk applyFDStep
            dsimp only
            rw [hb1, List.append_assoc]
          have hstep2 : (applyFDStep origLines (pre, origIdx) h).2 =
              (hunkLinesConsistent origLines h.content
                (max origIdx
                  (min (hunkStartPos h)
                    (origLines.length : Int)).toNat)).2 := by
            unfold applyFDStep
            dsimp only
            exact hb2
          rw [List.foldl_cons, List.foldl_cons, hstep1]
          cases happ : applyFDStep origLines (pre, origIdx) h with
          | mk pre2 idx2 =>
            have hidx2 : idx2 =
                (hunkLinesConsistent origLines h.content
                  (max origIdx
                    (min (hunkStartPos h)
                      (origLines.length : Int)).toNat)).2 := by
              rw [← hstep2, happ]
            refine ih pre2 idx2 ?_ ?_
            · rw [hidx2]
              exact hc2
            · intro h' hh' i
              exact hsel h' (List.mem_cons_of_mem h hh') i
        · exfalso
          rw [if_neg hpa] at hcons
          cases hcons

/-- C1: for every diff whose hunk headers parse coherently and whose
context/removal lines are consistent with the original file contents,
and every classification that assigns every addition/removal line to a
group of a nonempty plan (with the data model's distinct hunk ids),
extraction succeeds and the after-state computed from the union of every
group's ranges — the state `buildPatches` targets for the last group —
equals the fully-changed post-diff content of each file, so replaying
all groups in order reproduces exactly the final file states of the
original diff. -/
theorem extract_then_replay_full (files : List ParsedFileDiff)
    (commits : List CommitPlan)
    (classifications : List HunkClassificationResult)
    (hne : commits ≠ []) (hvalid : classValid commits classifications)
    (hids : hunkIdsNodup files) :
    ∃ ccs, extractChanges files commits classifications = some ccs ∧
      ∀ f ∈ files, ∀ orig : String,
        fileConsistent orig f.hunks = true →
        buildFileContent orig f.hunks (rangesForPath ccs f.filePath) =
          applyFullDiff orig f.hunks := by
  obtain ⟨emits, hscan, hex⟩ :=
    extractChanges_total files commits classifications hne hvalid
  refine ⟨groupEmits commits emits, hex, ?_⟩
  intro f hf orig hcons
  by_cases hlen : f.hunks.length = 0
  · unfold buildFileContent applyFullDiff
    rw [if_pos hlen, if_pos hlen]
  · have hcons' : hunksConsistentFrom
        (if orig = "" then [] else toLines orig) f.hunks 0 = true := hcons
    have hselAll : ∀ h ∈ f.hunks, ∀ i,
        isSelected (rangesForPath (groupEmits commits emits) f.filePath)
          h.id i = isChangeB h.content i :=
      fun h hh i => isSelected_bridge files commits classifications emits
        hscan hids f hf h hh i
    unfold buildFileContent applyFullDiff
    rw [if_neg hlen, if_neg hlen]
    dsimp only
    rw [buildFC_applyFD (if orig = "" then [] else toLines orig)
      (rangesForPath (groupEmits commits emits) f.filePath) f.hunks [] 0
      hcons' hselAll]

theorem extract_then_replay_full_witness :
    ∃ ccs, extractChanges [exFileA] exPlan exClsA = some ccs ∧
      ∀ f ∈ [exFileA], ∀ orig : String,
        fileConsistent orig f.hunks = true →
        buildFileContent orig f.hunks (rangesForPath ccs f.filePath) =
          applyFullDiff orig f.hunks :=
  extract_then_replay_full [exFileA] exPlan exClsA (by decide)
    (by unfold classValid planIds; decide)
    (by unfold hunkIdsNodup allHunks; decide)

/-! ## `buildPatches`: the new-file marking discipline (C5) -/

theorem find?_map_set {α β : Type} [DecidableEq α] :
    ∀ (m : List (α × β)) (k : α) (v : β),
      m.any (fun p => decide (p.1 = k)) = true →
      (m.map (fun p => if p.1 = k then (k, v) else p)).find?
        (fun p => decide (p.1 = k)) = some (k, v) := by
  intro m k v
  induction m with
  | nil =>
    intro h
    cases h
  | cons q rest ih =>
    intro hany
    by_cases hq : q.1 = k
    · rw [List.map_cons, if_pos hq, List.find?_cons_of_pos]
      exact decide_eq_true rfl
    · rw [List.map_cons, if_neg hq, List.find?_cons_of_neg]
      · apply ih
        rw [List.any_cons, Bool.or_eq_true] at hany
        rcases hany with h | h
        · exact absurd (of_decide_eq_true h) hq
        · exact h
      · simp only [decide_eq_true_eq]
        exact hq

theorem find?_none_of_any_false {α : Type} (p : α → Bool) :
    ∀ (m : List α), m.any p = false → m.find? p = none := by
  intro m
  induction m with
  | nil =>
    intro _
    rfl
  | cons q rest ih =>
    intro hany
    rw [List.any_cons, Bool.or_eq_false_iff] at hany
    rw [List.find?_cons_of_neg]
    · exact ih hany.2
    · rw [hany.1]
      exact Bool.false_ne_true

theorem listGet_listSet_self {α β : Type} [DecidableEq α]
    (m : List (α × β)) (k : α) (v : β) :
    listGet (listSet m k v) k = some v := by
  unfold listGet listSet
  by_cases hany : m.any (fun p => decide (p.1 = k)) = true
  · rw [if_pos hany, find?_map_set m k v hany]
    rfl
  · rw [if_neg hany, List.find?_append,
      find?_none_of_any_false _ m (Bool.eq_false_iff.2 hany),
      Option.none_or, List.find?_cons_of_pos]
    · rfl
    · exact decide_eq_true rfl

theorem find?_map_set_ne {α β : Type} [DecidableEq α] (k k' : α) (v : β)
    (hk : k' ≠ k) :
    ∀ (m : List (α × β)),
      (m.map (fun p => if p.1 = k then (k, v) else p)).find?
        (fun p => decide (p.1 = k')) =
        m.find? (fun p => decide (p.1 = k')) := by
  intro m
  induction m with
  | nil => rfl
  | cons q rest ih =>
    rw [List.map_cons]
    by_cases hq : q.1 = k
    · rw [if_pos hq, List.find?_cons_of_neg, List.find?_cons_of_neg]
      · exact ih
      · simp only [decide_eq_true_eq]
        rw [hq]
        exact fun h => hk h.symm
      · simp only [decide_eq_true_eq]
        exact fun h => hk h.symm
    · rw [if_neg hq]
      by_cases hq' : q.1 = k'
      · rw [List.find?_cons_of_pos, List.find?_cons_of_pos]
        · exact decide_eq_true hq'
        · exact decide_eq_true hq'
      · rw [List.find?_cons_of_neg, List.find?_cons_of_neg]
        · exact ih
        · simp only [decide_eq_true_eq]
          exact hq'
        · simp only [decide_eq_true_eq]
          exact hq'

theorem listGet_listSet_ne {α β : Type} [DecidableEq α]
    (m : List (α × β)) (k k' : α) (v : β) (hk : k' ≠ k) :
    listGet (listSet m k v) k' = listGet m k' := by
  unfold listGet listSet
  by_cases hany : m.any (fun p => decide (p.1 = k)) = true
  · rw [if_pos hany, find?_map_set_ne k k' v hk m]
  · rw [if_neg hany, List.find?_append]
    rw [List.find?_cons_of_neg]
    · cases hm : m.find? (fun p => decide (p.1 = k')) with
      | none => rfl
      | some q => rfl
    · simp only [decide_eq_true_eq]
      exact fun h => hk h.symm

theorem mem_setAdd {α : Type} [DecidableEq α] (s : List α) (x y : α) :
    y ∈ setAdd s x ↔ y = x ∨ y ∈ s := by
  unfold setAdd
  by_cases hx : x ∈ s
  · rw [if_pos hx]
    constructor
    · exact Or.inr
    · intro h
      rcases h with h | h
      · rw [h]
        exact hx
      · exact h
  · rw [if_neg hx, List.mem_append, List.mem_singleton]
    constructor
    · intro h
      rcases h with h | h
      · exact Or.inr h
      · exact Or.inl h
    · intro h
      rcases h with h | h
      · exact Or.inr h
      · exact Or.inl h

theorem buildFileStep_none (gen : String → String → String → Bool → String)
    (files : List ParsedFileDiff) (ctx : PatchBuildContext)
    (cr : List String) (cum : List (String × List LineRange))
    (parts : List String) (calls : List DiffCall) (fc : FileChanges)
    (hfind : files.find? (fun f => decide (f.filePath = fc.filePath)) =
      none) :
    buildFileStep gen files ctx (cr, cum, parts, calls) fc =
      (cr, cum, parts, calls) := by
  unfold buildFileStep
  rw [hfind]

theorem buildFileStep_some (gen : String → String → String → Bool → String)
    (files : List ParsedFileDiff) (ctx : PatchBuildContext)
    (cr : List String) (cum : List (String × List LineRange))
    (parts : List String) (calls : List DiffCall) (fc : FileChanges)
    (file : ParsedFileDiff)
    (hfind : files.find? (fun f => decide (f.filePath = fc.filePath)) =
      some file) :
    buildFileStep gen files ctx (cr, cum, parts, calls) fc =
      (if (callFor gen ctx file cr cum fc).diff ≠ "" then
        ((if (callFor gen ctx file cr cum fc).isNewFile then
            setAdd cr fc.filePath
          else cr),
          listSet cum fc.filePath
            ((listGet cum fc.filePath).getD [] ++ fc.ranges),
          parts ++ [(callFor gen ctx file cr cum fc).diff],
          calls ++ [callFor gen ctx file cr cum fc])
      else (cr,
        listSet cum fc.filePath
          ((listGet cum fc.filePath).getD [] ++ fc.ranges),
        parts, calls ++ [callFor gen ctx file cr cum fc])) := by
  unfold buildFileStep callFor
  rw [hfind]

theorem buildCommitStep_eq (gen : String → String → String → Bool → String)
    (files : List ParsedFileDiff) (ctx : PatchBuildContext)
    (cr : List String) (cum : List (String × List LineRange))
    (results : List AssembledPatch) (logs : List (List DiffCall))
    (c : CommitChanges) :
    buildCommitStep gen files ctx (cr, cum, results, logs) c =
      ((c.fileChanges.foldl (buildFileStep gen files ctx)
          (cr, cum, [], [])).1,
        (c.fileChanges.foldl (buildFileStep gen files ctx)
          (cr, cum, [], [])).2.1,
        results ++ [⟨c.commitId, c.message, c.description,
          String.join (c.fileChanges.foldl (buildFileStep gen files ctx)
            (cr, cum, [], [])).2.2.1⟩],
        logs ++ [(c.fileChanges.foldl (buildFileStep gen files ctx)
          (cr, cum, [], [])).2.2.2]) := rfl

theorem buildFileStep_foldl_append
    (gen : String → String → String → Bool → String)
    (files : List ParsedFileDiff) (ctx : PatchBuildContext) :
    ∀ (fcs : List FileChanges) (cr : List String)
      (cum : List (String × List LineRange)) (parts : List String)
      (calls : List DiffCall),
      fcs.foldl (buildFileStep gen files ctx) (cr, cum, parts, calls) =
        ((fcs.foldl (buildFileStep gen files ctx) (cr, cum, [], [])).1,
          (fcs.foldl (buildFileStep gen files ctx) (cr, cum, [], [])).2.1,
          parts ++ (fcs.foldl (buildFileStep gen files ctx)
            (cr, cum, [], [])).2.2.1,
          calls ++ (fcs.foldl (buildFileStep gen files ctx)
            (cr, cum, [], [])).2.2.2) := by
  intro fcs
  induction fcs with
  | nil =>
    intro cr cum parts calls
    simp
  | cons fc rest ih =>
    intro cr cum parts calls
    simp only [List.foldl_cons]
    cases hfind : files.find? (fun f => decide (f.filePath = fc.filePath))
      with
    | none =>
      rw [buildFileStep_none gen files ctx cr cum parts calls fc hfind,
        buildFileStep_none gen files ctx cr cum [] [] fc hfind]
      exact ih cr cum parts calls
    | some file =>
      rw [buildFileStep_some gen files ctx cr cum parts calls fc file hfind,
        buildFileStep_some gen files ctx cr cum [] [] fc file hfind]
      by_cases hdiff : (callFor gen ctx file cr cum fc).diff ≠ ""
      · rw [if_pos hdiff, if_pos hdiff]
        rw [ih ((if (callFor gen ctx file cr cum fc).isNewFile then
            setAdd cr fc.filePath else cr))
          (listSet cum fc.filePath
            ((listGet cum fc.filePath).getD [] ++ fc.ranges))
          (parts ++ [(callFor gen ctx file cr cum fc).diff])
          (calls ++ [callFor gen ctx file cr cum fc]),
          ih ((if (callFor gen ctx file cr cum fc).isNewFile then
            setAdd cr fc.filePath else cr))
          (listSet cum fc.filePath
            ((listGet cum fc.filePath).getD [] ++ fc.ranges))
          ([] ++ [(callFor gen ctx file cr cum fc).diff])
          ([] ++ [callFor gen ctx file cr cum fc])]
        simp
      · rw [if_neg hdiff, if_neg hdiff]
        rw [ih cr
          (listSet cum fc.filePath
            ((listGet cum fc.filePath).getD [] ++ fc.ranges))
          parts (calls ++ [callFor gen ctx file cr cum fc]),
          ih cr
          (listSet cum fc.filePath
            ((listGet cum fc.filePath).getD [] ++ fc.ranges))
          [] ([] ++ [callFor gen ctx file cr cum fc])]
        simp

theorem fcCalls_cons_none (gen : String → String → String → Bool → String)
    (files : List ParsedFileDiff) (ctx : PatchBuildContext)
    (fc : FileChanges) (rest : List FileChanges) (cr : List String)
    (cum : List (String × List LineRange))
    (hfind : files.find? (fun f => decide (f.filePath = fc.filePath)) =
      none) :
    fcCalls gen files ctx (fc :: rest) cr cum =
      fcCalls gen files ctx rest cr cum := by
  unfold fcCalls
  simp only [List.foldl_cons]
  rw [buildFileStep_none gen files ctx cr cum [] [] fc hfind]

theorem fcCalls_cons_some (gen : String → String → String → Bool → String)
    (files : List ParsedFileDiff) (ctx : PatchBuildContext)
    (fc : FileChanges) (rest : List FileChanges) (cr : List String)
    (cum : List (String × List LineRange)) (file : ParsedFileDiff)
    (hfind : files.find? (fun f => decide (f.filePath = fc.filePath)) =
      some file) :
    fcCalls gen files ctx (fc :: rest) cr cum =
      callFor gen ctx file cr cum fc ::
        fcCalls gen files ctx rest
          (if (callFor gen ctx file cr cum fc).diff ≠ "" then
            (if (callFor gen ctx file cr cum fc).isNewFile then
              setAdd cr fc.filePath
            else cr)
          else cr)
          (listSet cum fc.filePath
            ((listGet cum fc.filePath).getD [] ++ fc.ranges)) := by
  unfold fcCalls
  simp only [List.foldl_cons]
  rw [buildFileStep_some gen files ctx cr cum [] [] fc file hfind]
  by_cases hdiff : (callFor gen ctx file cr cum fc).diff ≠ ""
  · rw [if_pos hdiff, if_pos hdiff]
    rw [buildFileStep_foldl_append gen files ctx rest
      (if (callFor gen ctx file cr cum fc).isNewFile then
        setAdd cr fc.filePath else cr)
      (listSet cum fc.filePath
        ((listGet cum fc.filePath).getD [] ++ fc.ranges))
      ([] ++ [(callFor gen ctx file cr cum fc).diff])
      ([] ++ [callFor gen ctx file cr cum fc])]
    simp
  · rw [if_neg hdiff, if_neg hdiff]
    rw [buildFileStep_foldl_append gen files ctx rest cr
      (listSet cum fc.filePath
        ((listGet cum fc.filePath).getD [] ++ fc.ranges))
      [] ([] ++ [callFor gen ctx file cr cum fc])]
    simp

theorem outer_flatten (gen : String → String → String → Bool → String)
    (files : List ParsedFileDiff) (ctx : PatchBuildContext) :
    ∀ (ccs : List CommitChanges) (cr : List String)
      (cum : List (String × List LineRange))
      (results : List AssembledPatch) (logs : List (List DiffCall)),
      (ccs.foldl (buildCommitStep gen files ctx)
          (cr, cum, results, logs)).1 =
        ((ccs.flatMap CommitChanges.fileChanges).foldl
          (buildFileStep gen files ctx) (cr, cum, [], [])).1 ∧
      (ccs.foldl (buildCommitStep gen files ctx)
          (cr, cum, results, logs)).2.1 =
        ((ccs.flatMap CommitChanges.fileChanges).foldl
          (buildFileStep gen files ctx) (cr, cum, [], [])).2.1 ∧
      (ccs.foldl (buildCommitStep gen files ctx)
          (cr, cum, results, logs)).2.2.2.flatMap (fun l => l) =
        logs.flatMap (fun l => l) ++
          fcCalls gen files ctx (ccs.flatMap CommitChanges.fileChanges)
            cr cum := by
  intro ccs
  induction ccs with
  | nil =>
    intro cr cum results logs
    refine ⟨rfl, rfl, ?_⟩
    simp [fcCalls]
  | cons c rest ih =>
    intro cr cum results logs
    simp only [List.foldl_cons, List.flatMap_cons]
    rw [buildCommitStep_eq gen files ctx cr cum results logs c]
    obtain ⟨ih1, ih2, ih3⟩ := ih
      (c.fileChanges.foldl (buildFileStep gen files ctx)
        (cr, cum, [], [])).1
      (c.fileChanges.foldl (buildFileStep gen files ctx)
        (cr, cum, [], [])).2.1
      (results ++ [⟨c.commitId, c.message, c.description,
        String.join (c.fileChanges.foldl (buildFileStep gen files ctx)
          (cr, cum, [], [])).2.2.1⟩])
      (logs ++ [(c.fileChanges.foldl (buildFileStep gen files ctx)
        (cr, cum, [], [])).2.2.2])
    have hsplit : (c.fileChanges ++
        rest.flatMap CommitChanges.fileChanges).foldl
          (buildFileStep gen files ctx) (cr, cum, [], []) =
        ((rest.flatMap CommitChanges.fileChanges).foldl
            (buildFileStep gen files ctx)
            ((c.fileChanges.foldl (buildFileStep gen files ctx)
              (cr, cum, [], [])).1,
             (c.fileChanges.foldl (buildFileStep gen files ctx)
              (cr, cum, [], [])).2.1, [], []) |>.1,
          ((rest.flatMap CommitChanges.fileChanges).foldl
            (buildFileStep gen files ctx)
            ((c.fileChanges.foldl (buildFileStep gen files ctx)
              (cr, cum, [], [])).1,
             (c.fileChanges.foldl (buildFileStep gen files ctx)
              (cr, cum, [], [])).2.1, [], [])).2.1,
          (c.fileChanges.foldl (buildFileStep gen files ctx)
            (cr, cum, [], [])).2.2.1 ++
           ((rest.flatMap CommitChanges.fileChanges).foldl
            (buildFileStep gen files ctx)
            ((c.fileChanges.foldl (buildFileStep gen files ctx)
              (cr, cum, [], [])).1,
             (c.fileChanges.foldl (buildFileStep gen files ctx)
              (cr, cum, [], [])).2.1, [], [])).2.2.1,
          (c.fileChanges.foldl (buildFileStep gen files ctx)
            (cr, cum, [], [])).2.2.2 ++
           ((rest.flatMap CommitChanges.fileChanges).foldl
            (buildFileStep gen files ctx)
            ((c.fileChanges.foldl (buildFileStep gen files ctx)
              (cr, cum, [], [])).1,
             (c.fileChanges.foldl (buildFileStep gen files ctx)
              (cr, cum, [], [])).2.1, [], [])).2.2.2) := by
      rw [List.foldl_append]
      have hmid : c.fileChanges.foldl (buildFileStep gen files ctx)
          (cr, cum, [], []) =
          ((c.fileChanges.foldl (buildFileStep gen files ctx)
            (cr, cum, [], [])).1,
           (c.fileChanges.foldl (buildFileStep gen files ctx)
            (cr, cum, [], [])).2.1,
           (c.fileChanges.foldl (buildFileStep gen files ctx)
            (cr, cum, [], [])).2.2.1,
           (c.fileChanges.foldl (buildFileStep gen files ctx)
            (cr, cum, [], [])).2.2.2) := rfl
      rw [hmid, buildFileStep_foldl_append gen files ctx
        (rest.flatMap CommitChanges.fileChanges)
        (c.fileChanges.foldl (buildFileStep gen files ctx)
          (cr, cum, [], [])).1
        (c.fileChanges.foldl (buildFileStep gen files ctx)
          (cr, cum, [], [])).2.1
        (c.fileChanges.foldl (buildFileStep gen files ctx)
          (cr, cum, [], [])).2.2.1
        (c.fileChanges.foldl (buildFileStep gen files ctx)
          (cr, cum, [], [])).2.2.2]
    refine ⟨?_, ?_, ?_⟩
    · rw [ih1, hsplit]
    · rw [ih2, hsplit]
    · rw [ih3]
      unfold fcCalls
      rw [hsplit]
      simp [List.append_assoc]

theorem callFor_filePath (gen : String → String → String → Bool → String)
    (ctx : PatchBuildContext) (file : ParsedFileDiff) (cr : List String)
    (cum : List (String × List LineRange)) (fc : FileChanges) :
    (callFor gen ctx file cr cum fc).filePath = fc.filePath := rfl

theorem callFor_isNewFile (gen : String → String → String → Bool → String)
    (ctx : PatchBuildContext) (file : ParsedFileDiff) (cr : List String)
    (cum : List (String × List LineRange)) (fc : FileChanges) :
    (callFor gen ctx file cr cum fc).isNewFile =
      (decide (fc.filePath ∈ ctx.newFiles) &&
        decide (fc.filePath ∉ cr)) := rfl

theorem callFor_before (gen : String → String → String → Bool → String)
    (ctx : PatchBuildContext) (file : ParsedFileDiff) (cr : List String)
    (cum : List (String × List LineRange)) (fc : FileChanges) :
    (callFor gen ctx file cr cum fc).before =
      (if ((listGet cum fc.filePath).getD []).length > 0 then
        buildFileContent ((listGet ctx.fileStates fc.filePath).getD "")
          file.hunks ((listGet cum fc.filePath).getD [])
      else (listGet ctx.fileStates fc.filePath).getD "") := rfl

theorem callFor_after (gen : String → String → String → Bool → String)
    (ctx : PatchBuildContext) (file : ParsedFileDiff) (cr : List String)
    (cum : List (String × List LineRange)) (fc : FileChanges) :
    (callFor gen ctx file cr cum fc).after =
      buildFileContent ((listGet ctx.fileStates fc.filePath).getD "")
        file.hunks (((listGet cum fc.filePath).getD []) ++ fc.ranges) := rfl

theorem callFor_diff (gen : String → String → String → Bool → String)
    (ctx : PatchBuildContext) (file : ParsedFileDiff) (cr : List String)
    (cum : List (String × List LineRange)) (fc : FileChanges) :
    (callFor gen ctx file cr cum fc).diff =
      gen fc.filePath (callFor gen ctx file cr cum fc).before
        (callFor gen ctx file cr cum fc).after
        (callFor gen ctx file cr cum fc).isNewFile := rfl

theorem initFileStep_created
    (getFileAtRef : String → String → Option String) (hash : String)
    (ctx : PatchBuildContext) (file : ParsedFileDiff) :
    (initFileStep getFileAtRef hash ctx file).createdInPatch =
      ctx.createdInPatch := by
  unfold initFileStep
  by_cases h : (strContains file.fileHeader "new file mode" ||
      strContains file.fileHeader "--- /dev/null") = true
  · rw [if_pos h]
  · rw [if_neg h]

theorem initializeContext_created_aux
    (getFileAtRef : String → String → Option String) (hash : String) :
    ∀ (files : List ParsedFileDiff) (ctx0 : PatchBuildContext),
      (files.foldl (initFileStep getFileAtRef hash) ctx0).createdInPatch =
        ctx0.createdInPatch := by
  intro files
  induction files with
  | nil =>
    intro ctx0
    rfl
  | cons f rest ih =>
    intro ctx0
    rw [List.foldl_cons, ih (initFileStep getFileAtRef hash ctx0 f),
      initFileStep_created]

theorem initializeContext_created
    (getFileAtRef : String → String → Option String)
    (files : List ParsedFileDiff) (hash : String) :
    (initializeContext getFileAtRef files hash).createdInPatch = [] := by
  unfold initializeContext
  rw [initializeContext_created_aux]

theorem initCtx_newfile_aux
    (getFileAtRef : String → String → Option String) (hash : String)
    (path : String) :
    ∀ (rem : List ParsedFileDiff) (ctx0 : PatchBuildContext),
      (rem.map ParsedFileDiff.filePath).Nodup →
      (path ∈ ctx0.newFiles → listGet ctx0.fileStates path = some "") →
      (path ∈ ctx0.newFiles → path ∉ rem.map ParsedFileDiff.filePath) →
      (path ∈ (rem.foldl (initFileStep getFileAtRef hash) ctx0).newFiles →
        listGet (rem.foldl (initFileStep getFileAtRef hash)
          ctx0).fileStates path = some "") := by
  intro rem
  induction rem with
  | nil =>
    intro ctx0 _ h2 _ hmem
    exact h2 hmem
  | cons f rest ih =>
    intro ctx0 hnodup h2 h3 hmem
    rw [List.map_cons, List.nodup_cons] at hnodup
    rw [List.foldl_cons] at hmem ⊢
    refine ih (initFileStep getFileAtRef hash ctx0 f) hnodup.2 ?_ ?_ hmem
    · intro hmem1
      unfold initFileStep at hmem1 ⊢
      by_cases hnew : (strContains f.fileHeader "new file mode" ||
          strContains f.fileHeader "--- /dev/null") = true
      · rw [if_pos hnew] at hmem1 ⊢
        dsimp only at hmem1 ⊢
        by_cases hfp : path = f.filePath
        · rw [hfp, listGet_listSet_self]
        · rw [listGet_listSet_ne _ _ _ _ hfp]
          rcases (mem_setAdd _ _ _).1 hmem1 with h | h
          · exact absurd h hfp
          · exact h2 h
      · rw [if_neg hnew] at hmem1 ⊢
        dsimp only at hmem1 ⊢
        have hnf : path ∈ ctx0.newFiles := hmem1
        have hne : path ≠ f.filePath := by
          intro he
          exact h3 hnf (by rw [List.map_cons, he]; exact
            List.mem_cons_self _ _)
        rw [listGet_listSet_ne _ _ _ _ hne]
        exact h2 hnf
    · intro hmem1
      unfold initFileStep at hmem1
      by_cases hnew : (strContains f.fileHeader "new file mode" ||
          strContains f.fileHeader "--- /dev/null") = true
      · rw [if_pos hnew] at hmem1
        dsimp only at hmem1
        rcases (mem_setAdd _ _ _).1 hmem1 with h | h
        · rw [h]
          exact hnodup.1
        · intro hmem2
          exact h3 h (by rw [List.map_cons]; exact
            List.mem_cons_of_mem _ hmem2)
      · rw [if_neg hnew] at hmem1
        dsimp only at hmem1
        intro hmem2
        exact h3 hmem1 (by rw [List.map_cons]; exact
          List.mem_cons_of_mem _ hmem2)

theorem initializeContext_newfile
    (getFileAtRef : String → String → Option String)
    (files : List ParsedFileDiff) (hash : String) (path : String)
    (hnodup : (files.map ParsedFileDiff.filePath).Nodup)
    (hmem : path ∈ (initializeContext getFileAtRef files hash).newFiles) :
    listGet (initializeContext getFileAtRef files hash).fileStates path =
      some "" := by
  unfold initializeContext at hmem ⊢
  exact initCtx_newfile_aux getFileAtRef hash path files _ hnodup
    (fun h => absurd h (List.not_mem_nil path))
    (fun h => absurd h (List.not_mem_nil path)) hmem

theorem pathCalls_marking (gen : String → String → String → Bool → String)
    (files : List ParsedFileDiff) (ctx : PatchBuildContext)
    (path : String) :
    ∀ (fcs : List FileChanges) (cr : List String)
      (cum : List (String × List LineRange)),
      (path ∈ cr →
        ∀ c ∈ pathCalls gen files ctx path fcs cr cum,
          c.isNewFile = false) ∧
      (path ∉ cr →
        ∀ k c, (pathCalls gen files ctx path fcs cr cum)[k]? = some c →
          c.isNewFile = (decide (path ∈ ctx.newFiles) &&
            ((pathCalls gen files ctx path fcs cr cum).take k).all
              (fun cj => decide (cj.diff = "")))) := by
  intro fcs
  induction fcs with
  | nil =>
    intro cr cum
    have h0 : pathCalls gen files ctx path [] cr cum = [] := rfl
    constructor
    · intro _ c hc
      rw [h0] at hc
      cases hc
    · intro _ k c hk
      rw [h0] at hk
      simp at hk
  | cons fc rest ih =>
    intro cr cum
    cases hfind : files.find? (fun f => decide (f.filePath = fc.filePath))
      with
    | none =>
      have hpc : pathCalls gen files ctx path (fc :: rest) cr cum =
          pathCalls gen files ctx path rest cr cum := by
        unfold pathCalls
        rw [fcCalls_cons_none gen files ctx fc rest cr cum hfind]
      rw [hpc]
      exact ih cr cum
    | some file =>
      by_cases hfp : fc.filePath = path
      · have hpc : pathCalls gen files ctx path (fc :: rest) cr cum =
            callFor gen ctx file cr cum fc ::
              pathCalls gen files ctx path rest
                (if (callFor gen ctx file cr cum fc).diff ≠ "" then
                  (if (callFor gen ctx file cr cum fc).isNewFile then
                    setAdd cr fc.filePath
                  else cr)
                else cr)
                (listSet cum fc.filePath
                  ((listGet cum fc.filePath).getD [] ++ fc.ranges)) := by
          unfold pathCalls
          rw [fcCalls_cons_some gen files ctx fc rest cr cum file hfind,
            List.filter_cons_of_pos]
          exact decide_eq_true (by rw [callFor_filePath]; exact hfp)
        constructor
        · intro hcr c hc
          rw [hpc] at hc
          rcases List.mem_cons.1 hc with hc | hc
          · rw [hc, callFor_isNewFile]
            have hd : decide (fc.filePath ∉ cr) = false :=
              decide_eq_false (not_not_intro (by rw [hfp]; exact hcr))
            rw [hd, Bool.and_false]
          · have hcr' : path ∈
                (if (callFor gen ctx file cr cum fc).diff ≠ "" then
                  (if (callFor gen ctx file cr cum fc).isNewFile then
                    setAdd cr fc.filePath
                  else cr)
                else cr) := by
              by_cases h1 : (callFor gen ctx file cr cum fc).diff ≠ ""
              · rw [if_pos h1]
                by_cases h2 : (callFor gen ctx file cr cum fc).isNewFile =
                    true
                · rw [if_pos h2]
                  exact (mem_setAdd _ _ _).2 (Or.inr hcr)
                · rw [if_neg h2]
                  exact hcr
              · rw [if_neg h1]
                exact hcr
            exact (ih _ _).1 hcr' c hc
        · intro hcr k c hk
          rw [hpc] at hk ⊢
          cases k with
          | zero =>
            have hc : c = callFor gen ctx file cr cum fc := by
              rw [List.getElem?_cons_zero] at hk
              exact (Option.some.inj hk).symm
            rw [hc, List.take_zero, List.all_nil, Bool.and_true,
              callFor_isNewFile, hfp, decide_eq_true hcr, Bool.and_true]
          | succ n =>
            rw [List.getElem?_cons_succ] at hk
            rw [List.take_succ_cons, List.all_cons]
            cases hd : decide ((callFor gen ctx file cr cum fc).diff = "")
              with
            | true =>
              have hdiff : ¬((callFor gen ctx file cr cum fc).diff ≠ "") :=
                not_not_intro (of_decide_eq_true hd)
              rw [if_neg hdiff] at hk ⊢
              rw [Bool.true_and]
              exact (ih cr (listSet cum fc.filePath
                ((listGet cum fc.filePath).getD [] ++ fc.ranges))).2 hcr n
                c hk
            | false =>
              have hdiff : (callFor gen ctx file cr cum fc).diff ≠ "" :=
                of_decide_eq_false hd
              rw [if_pos hdiff] at hk ⊢
              rw [Bool.false_and, Bool.and_false]
              cases hnm : (callFor gen ctx file cr cum fc).isNewFile with
              | true =>
                rw [if_pos hnm] at hk
                have hcr' : path ∈ setAdd cr fc.filePath :=
                  (mem_setAdd _ _ _).2 (Or.inl hfp.symm)
                exact (ih (setAdd cr fc.filePath) _).1 hcr' c
                  (List.getElem?_mem hk)
              | false =>
                rw [if_neg (by rw [hnm]; exact Bool.false_ne_true)] at hk
                have hnmem : decide (fc.filePath ∈ ctx.newFiles) = false :=
                  by
                  rw [callFor_isNewFile,
                    decide_eq_true (show fc.filePath ∉ cr by
                      rw [hfp]; exact hcr), Bool.and_true] at hnm
                  exact hnm
                rw [(ih cr _).2 hcr n c hk, ← hfp, hnmem, Bool.false_and]
      · have hpc : pathCalls gen files ctx path (fc :: rest) cr cum =
            pathCalls gen files ctx path rest
              (if (callFor gen ctx file cr cum fc).diff ≠ "" then
                (if (callFor gen ctx file cr cum fc).isNewFile then
                  setAdd cr fc.filePath
                else cr)
              else cr)
              (listSet cum fc.filePath
                ((listGet cum fc.filePath).getD [] ++ fc.ranges)) := by
          unfold pathCalls
          rw [fcCalls_cons_some gen files ctx fc rest cr cum file hfind,
            List.filter_cons_of_neg]
          simp only [callFor_filePath, decide_eq_true_eq]
          exact fun h => hfp h
        have hmemeq : path ∈
            (if (callFor gen ctx file cr cum fc).diff ≠ "" then
              (if (callFor gen ctx file cr cum fc).isNewFile then
                setAdd cr fc.filePath
              else cr)
            else cr) ↔ path ∈ cr := by
          by_cases h1 : (callFor gen ctx file cr cum fc).diff ≠ ""
          · rw [if_pos h1]
            by_cases h2 : (callFor gen ctx file cr cum fc).isNewFile = true
            · rw [if_pos h2, mem_setAdd]
              constructor
              · intro h
                rcases h with h | h
                · exact absurd h.symm hfp
                · exact h
              · exact Or.inr
            · rw [if_neg h2]
          · rw [if_neg h1]
        rw [hpc]
        constructor
        · intro hcr c hc
          exact (ih _ _).1 (hmemeq.2 hcr) c hc
        · intro hcr k c hk
          exact (ih _ _).2 (fun h => hcr (hmemeq.1 h)) k c hk

theorem newfile_countP_le_one :
    ∀ (l : List DiffCall) (b : Bool),
      (∀ k c, l[k]? = some c →
        c.isNewFile = (b && (l.take k).all
          (fun cj => decide (cj.diff = "")))) →
      l.countP (fun c => c.isNewFile && decide (c.diff ≠ "")) ≤ 1 := by
  intro l
  induction l with
  | nil =>
    intro b _
    rw [List.countP_nil]
    exact Nat.zero_le 1
  | cons c0 rest ih =>
    intro b hmark
    have hmark0 : c0.isNewFile = b := by
      have := hmark 0 c0 (by rw [List.getElem?_cons_zero])
      rw [List.take_zero, List.all_nil, Bool.and_true] at this
      exact this
    have hmarkrest : ∀ k c, rest[k]? = some c →
        c.isNewFile = ((b && decide (c0.diff = "")) &&
          (rest.take k).all (fun cj => decide (cj.diff = ""))) := by
      intro k c hk
      have := hmark (k + 1) c (by rw [List.getElem?_cons_succ]; exact hk)
      rw [List.take_succ_cons, List.all_cons, ← Bool.and_assoc] at this
      exact this
    simp only [List.countP_cons]
    by_cases hc0 : (c0.isNewFile && decide (c0.diff ≠ "")) = true
    · rw [if_pos hc0]
      have hc0' := hc0
      rw [Bool.and_eq_true] at hc0'
      obtain ⟨hb, hdne⟩ := hc0'
      have hflag : (b && decide (c0.diff = "")) = false := by
        rw [decide_eq_false (of_decide_eq_true hdne), Bool.and_false]
      have hrest0 : rest.countP
          (fun c => c.isNewFile && decide (c.diff ≠ "")) = 0 := by
        rw [List.countP_eq_zero]
        intro c hcmem
        obtain ⟨k, hk⟩ := List.getElem?_of_mem hcmem
        have hfalse := hmarkrest k c hk
        rw [hflag, Bool.false_and] at hfalse
        rw [hfalse, Bool.false_and]
        exact Bool.false_ne_true
      rw [hrest0]
    · rw [if_neg hc0]
      have := ih (b && decide (c0.diff = "")) hmarkrest
      omega

theorem newfile_false_after_nonempty (l : List DiffCall) (b : Bool)
    (hmark : ∀ k c, l[k]? = some c →
      c.isNewFile = (b && (l.take k).all
        (fun cj => decide (cj.diff = "")))) :
    ∀ (j k : Nat) (cj c : DiffCall), j < k → l[j]? = some cj →
      cj.diff ≠ "" → l[k]? = some c → c.isNewFile = false := by
  intro j k cj c hjk hj hne hk
  rw [hmark k c hk]
  have hmem : cj ∈ l.take k := by
    have h1 : (l.take k)[j]? = some cj := by
      rw [List.getElem?_take_of_lt hjk]
      exact hj
    exact List.getElem?_mem h1
  have hall : (l.take k).all (fun cj => decide (cj.diff = "")) = false := by
    cases hallc : (l.take k).all (fun cj => decide (cj.diff = "")) with
    | false => rfl
    | true =>
      exfalso
      have := List.all_eq_true.1 hallc cj hmem
      exact hne (of_decide_eq_true this)
  rw [hall, Bool.and_false]

theorem fcCalls_diff_gen (gen : String → String → String → Bool → String)
    (files : List ParsedFileDiff) (ctx : PatchBuildContext) :
    ∀ (fcs : List FileChanges) (cr : List String)
      (cum : List (String × List LineRange)),
      ∀ c ∈ fcCalls gen files ctx fcs cr cum,
        c.diff = gen c.filePath c.before c.after c.isNewFile := by
  intro fcs
  induction fcs with
  | nil =>
    intro cr cum c hc
    cases hc
  | cons fc rest ih =>
    intro cr cum c hc
    cases hfind : files.find? (fun f => decide (f.filePath = fc.filePath))
      with
    | none =>
      rw [fcCalls_cons_none gen files ctx fc rest cr cum hfind] at hc
      exact ih cr cum c hc
    | some file =>
      rw [fcCalls_cons_some gen files ctx fc rest cr cum file hfind] at hc
      rcases List.mem_cons.1 hc with hc | hc
      · rw [hc, callFor_diff, callFor_filePath]
      · exact ih _ _ c hc

theorem fcCalls_not_new (gen : String → String → String → Bool → String)
    (files : List ParsedFileDiff) (ctx : PatchBuildContext) (path : String)
    (hnm : path ∉ ctx.newFiles) :
    ∀ (fcs : List FileChanges) (cr : List String)
      (cum : List (String × List LineRange)),
      ∀ c ∈ fcCalls gen files ctx fcs cr cum,
        c.filePath = path → c.isNewFile = false := by
  intro fcs
  induction fcs with
  | nil =>
    intro cr cum c hc
    cases hc
  | cons fc rest ih =>
    intro cr cum c hc hcp
    cases hfind : files.find? (fun f => decide (f.filePath = fc.filePath))
      with
    | none =>
      rw [fcCalls_cons_none gen files ctx fc rest cr cum hfind] at hc
      exact ih cr cum c hc hcp
    | some file =>
      rw [fcCalls_cons_some gen files ctx fc rest cr cum file hfind] at hc
      rcases List.mem_cons.1 hc with hc | hc
      · rw [hc, callFor_isNewFile]
        have hfp : fc.filePath = path := by
          rw [hc, callFor_filePath] at hcp
          exact hcp
        rw [hfp, decide_eq_false hnm, Bool.false_and]
      · exact ih _ _ c hc hcp

theorem pathCalls_find_none
    (gen : String → String → String → Bool → String)
    (files : List ParsedFileDiff) (ctx : PatchBuildContext) (path : String)
    (hfind : files.find? (fun f => decide (f.filePath = path)) = none) :
    ∀ (fcs : List FileChanges) (cr : List String)
      (cum : List (String × List LineRange)),
      pathCalls gen files ctx path fcs cr cum = [] := by
  intro fcs
  induction fcs with
  | nil =>
    intro cr cum
    rfl
  | cons fc rest ih =>
    intro cr cum
    cases hf2 : files.find? (fun f => decide (f.filePath = fc.filePath))
      with
    | none =>
      unfold pathCalls
      rw [fcCalls_cons_none gen files ctx fc rest cr cum hf2]
      exact ih cr cum
    | some file =>
      by_cases hfp : fc.filePath = path
      · exfalso
        rw [hfp] at hf2
        rw [hf2] at hfind
        cases hfind
      · unfold pathCalls
        rw [fcCalls_cons_some gen files ctx fc rest cr cum file hf2,
          List.filter_cons_of_neg]
        · exact ih _ _
        · simp only [callFor_filePath, decide_eq_true_eq]
          exact hfp

theorem pathCalls_before_empty
    (gen : String → String → String → Bool → String)
    (files : List ParsedFileDiff) (ctx : PatchBuildContext) (path : String)
    (file : ParsedFileDiff) (hhonest : honestGen gen)
    (hfind : files.find? (fun f => decide (f.filePath = path)) = some file)
    (horig : (listGet ctx.fileStates path).getD "" = "") :
    ∀ (fcs : List FileChanges) (cr : List String)
      (cum : List (String × List LineRange)),
      path ∉ cr →
      (if ((listGet cum path).getD []).length > 0 then
        buildFileContent ((listGet ctx.fileStates path).getD "")
          file.hunks ((listGet cum path).getD [])
      else (listGet ctx.fileStates path).getD "") = "" →
      ∀ c ∈ pathCalls gen files ctx path fcs cr cum,
        c.isNewFile = true → c.before = "" := by
  intro fcs
  induction fcs with
  | nil =>
    intro cr cum _ _ c hc
    cases hc
  | cons fc rest ih =>
    intro cr cum hcr hicur c hc htrue
    cases hf2 : files.find? (fun f => decide (f.filePath = fc.filePath))
      with
    | none =>
      unfold pathCalls at hc
      rw [fcCalls_cons_none gen files ctx fc rest cr cum hf2] at hc
      exact ih cr cum hcr hicur c hc htrue
    | some file2 =>
      unfold pathCalls at hc
      rw [fcCalls_cons_some gen files ctx fc rest cr cum file2 hf2] at hc
      obtain ⟨hcmem, hcpred⟩ := List.mem_filter.1 hc
      by_cases hfp : fc.filePath = path
      · have hfile2 : file2 = file := by
          rw [hfp] at hf2
          rw [hf2] at hfind
          exact Option.some.inj hfind
        subst hfile2
        rcases List.mem_cons.1 hcmem with hh | hh
        · rw [hh, callFor_before, hfp]
          exact hicur
        · have hbefore : (callFor gen ctx file2 cr cum fc).before = "" := by
            rw [callFor_before, hfp]
            exact hicur
          by_cases hdiff : (callFor gen ctx file2 cr cum fc).diff ≠ ""
          · cases hnm : (callFor gen ctx file2 cr cum fc).isNewFile with
            | true =>
              rw [if_pos hdiff, if_pos hnm] at hh
              have hc' : c ∈ pathCalls gen files ctx path rest
                  (setAdd cr fc.filePath)
                  (listSet cum fc.filePath
                    ((listGet cum fc.filePath).getD [] ++ fc.ranges)) :=
                List.mem_filter.2 ⟨hh, hcpred⟩
              have hcr' : path ∈ setAdd cr fc.filePath :=
                (mem_setAdd _ _ _).2 (Or.inl hfp.symm)
              have hfalse := (pathCalls_marking gen files ctx path rest
                (setAdd cr fc.filePath) _).1 hcr' c hc'
              rw [htrue] at hfalse
              cases hfalse
            | false =>
              rw [if_pos hdiff,
                if_neg (by rw [hnm]; exact Bool.false_ne_true)] at hh
              have hnmem : path ∉ ctx.newFiles := by
                rw [callFor_isNewFile,
                  decide_eq_true (show fc.filePath ∉ cr by
                    rw [hfp]; exact hcr), Bool.and_true] at hnm
                intro hmm
                rw [decide_eq_true (by rw [hfp]; exact hmm)] at hnm
                cases hnm
              have hfalse := fcCalls_not_new gen files ctx path hnmem
                rest cr _ c hh (of_decide_eq_true hcpred)
              rw [htrue] at hfalse
              cases hfalse
          · rw [if_neg hdiff] at hh
            have hc' : c ∈ pathCalls gen files ctx path rest cr
                (listSet cum fc.filePath
                  ((listGet cum fc.filePath).getD [] ++ fc.ranges)) :=
              List.mem_filter.2 ⟨hh, hcpred⟩
            have hdeq : (callFor gen ctx file2 cr cum fc).diff = "" :=
              not_not.mp hdiff
            have hba : (callFor gen ctx file2 cr cum fc).before =
                (callFor gen ctx file2 cr cum fc).after := by
              have hd2 := callFor_diff gen ctx file2 cr cum fc
              rw [hdeq] at hd2
              exact (hhonest _ _ _ _).1 hd2.symm
            have hicur' : (if ((listGet (listSet cum fc.filePath
                  ((listGet cum fc.filePath).getD [] ++ fc.ranges))
                  path).getD []).length > 0 then
                buildFileContent ((listGet ctx.fileStates path).getD "")
                  file2.hunks
                  ((listGet (listSet cum fc.filePath
                    ((listGet cum fc.filePath).getD [] ++ fc.ranges))
                    path).getD [])
              else (listGet ctx.fileStates path).getD "") = "" := by
              rw [hfp, listGet_listSet_self, Option.getD_some]
              by_cases hlen :
                  ((listGet cum path).getD [] ++ fc.ranges).length > 0
              · rw [if_pos hlen]
                have hafter := callFor_after gen ctx file2 cr cum fc
                rw [← hba, hbefore] at hafter
                rw [hfp] at hafter
                exact hafter.symm
              · rw [if_neg hlen]
                exact horig
            exact ih cr _ hcr hicur' c hc' htrue
      · rcases List.mem_cons.1 hcmem with hh | hh
        · exfalso
          rw [hh, callFor_filePath] at hcpred
          exact hfp (of_decide_eq_true hcpred)
        · have hc' : c ∈ pathCalls gen files ctx path rest
              (if (callFor gen ctx file2 cr cum fc).diff ≠ "" then
                (if (callFor gen ctx file2 cr cum fc).isNewFile then
                  setAdd cr fc.filePath
                else cr)
              else cr)
              (listSet cum fc.filePath
                ((listGet cum fc.filePath).getD [] ++ fc.ranges)) :=
            List.mem_filter.2 ⟨hh, hcpred⟩
          have hcr' : path ∉
              (if (callFor gen ctx file2 cr cum fc).diff ≠ "" then
                (if (callFor gen ctx file2 cr cum fc).isNewFile then
                  setAdd cr fc.filePath
                else cr)
              else cr) := by
            by_cases h1 : (callFor gen ctx file2 cr cum fc).diff ≠ ""
            · rw [if_pos h1]
              by_cases h2 : (callFor gen ctx file2 cr cum fc).isNewFile =
                  true
              · rw [if_pos h2]
                intro hmm
                rcases (mem_setAdd _ _ _).1 hmm with h | h
                · exact hfp h.symm
                · exact hcr h
              · rw [if_neg h2]
                exact hcr
            · rw [if_neg h1]
              exact hcr
          have hicur' : (if ((listGet (listSet cum fc.filePath
                ((listGet cum fc.filePath).getD [] ++ fc.ranges))
                path).getD []).length > 0 then
              buildFileContent ((listGet ctx.fileStates path).getD "")
                file.hunks
                ((listGet (listSet cum fc.filePath
                  ((listGet cum fc.filePath).getD [] ++ fc.ranges))
                  path).getD [])
            else (listGet ctx.fileStates path).getD "") = "" := by
            rw [listGet_listSet_ne _ _ _ _ (fun h => hfp h.symm)]
            exact hicur
          exact ih _ _ hcr' hicur' c hc' htrue

theorem exGen_honest : honestGen exGen := by
  intro p b a n
  unfold exGen
  by_cases h : b = a
  · rw [if_pos h]
    exact iff_of_true rfl h
  · rw [if_neg h]
    refine iff_of_false ?_ h
    intro he
    have hlen := congrArg String.length he
    have h5 : ("diff:" : String).length = 5 := rfl
    have h0 : ("" : String).length = 0 := rfl
    rw [String.length_append, h5, h0] at hlen
    omega

/-- C5 (corrected): in the chronological diff-generator call log of
`buildPatches` restricted to one file path, a call carries
`isNewFile = true` exactly when the file is flagged new overall and
every earlier call for it returned the empty fragment — so `true` is
passed in every touching group up to and including the earliest group
that produces a nonempty fragment, not at most once.  What holds is: at
most one call carries `isNewFile = true` together with a nonempty
fragment (the introduction); every call after a nonempty fragment is an
ordinary modification (`isNewFile = false`); and under an honest
generator (empty fragment iff equal states, with distinct file paths in
the diff) every `isNewFile = true` call sees an empty before-state, the
introducing one also a nonempty after-state. -/
theorem buildPatches_newfile_introduction
    (getFileAtRef : String → String → Option String)
    (gen : String → String → String → Bool → String)
    (files : List ParsedFileDiff) (commitChanges : List CommitChanges)
    (commitHash : String) (path : String)
    (hhonest : honestGen gen)
    (hnodup : (files.map ParsedFileDiff.filePath).Nodup) :
    ∀ calls,
      calls = ((buildPatchesWithLog getFileAtRef gen files commitChanges
        commitHash).2.flatMap (fun l => l)).filter
          (fun c => decide (c.filePath = path)) →
      (∀ (k : Nat) (c : DiffCall), calls[k]? = some c →
        c.isNewFile =
          (decide (path ∈ (initializeContext getFileAtRef files
            commitHash).newFiles) &&
          (calls.take k).all (fun cj => decide (cj.diff = "")))) ∧
      calls.countP (fun c => c.isNewFile && decide (c.diff ≠ "")) ≤ 1 ∧
      (∀ (j k : Nat) (cj c : DiffCall), j < k → calls[j]? = some cj →
        cj.diff ≠ "" → calls[k]? = some c → c.isNewFile = false) ∧
      (∀ (k : Nat) (c : DiffCall), calls[k]? = some c →
        c.isNewFile = true →
        c.before = "" ∧ (c.diff ≠ "" → c.after ≠ "")) := by
  intro calls hcalls
  have hflat : calls = pathCalls gen files
      (initializeContext getFileAtRef files commitHash) path
      (commitChanges.flatMap CommitChanges.fileChanges) [] [] := by
    rw [hcalls]
    unfold pathCalls
    congr 1
    unfold buildPatchesWithLog
    dsimp only
    rw [initializeContext_created]
    rw [(outer_flatten gen files
      (initializeContext getFileAtRef files commitHash) commitChanges
      [] [] [] []).2.2]
    rfl
  have hmark := (pathCalls_marking gen files
    (initializeContext getFileAtRef files commitHash) path
    (commitChanges.flatMap CommitChanges.fileChanges) [] []).2
    (List.not_mem_nil path)
  rw [← hflat] at hmark
  refine ⟨hmark, ?_, ?_, ?_⟩
  · exact newfile_countP_le_one calls
      (decide (path ∈ (initializeContext getFileAtRef files
        commitHash).newFiles)) hmark
  · exact newfile_false_after_nonempty calls _ hmark
  · intro k c hk htrue
    have hmm : path ∈ (initializeContext getFileAtRef files
        commitHash).newFiles := by
      have h1 := hmark k c hk
      rw [htrue] at h1
      have h2 := h1.symm
      rw [Bool.and_eq_true] at h2
      exact of_decide_eq_true h2.1
    cases hfind : files.find? (fun f => decide (f.filePath = path)) with
    | none =>
      exfalso
      rw [hflat, pathCalls_find_none gen files _ path hfind] at hk
      simp at hk
    | some file =>
      have horig : (listGet (initializeContext getFileAtRef files
          commitHash).fileStates path).getD "" = "" := by
        rw [initializeContext_newfile getFileAtRef files commitHash path
          hnodup hmm]
        rfl
      have hinv : (if ((listGet ([] : List (String × List LineRange))
            path).getD []).length > 0 then
          buildFileContent ((listGet (initializeContext getFileAtRef files
            commitHash).fileStates path).getD "") file.hunks
            ((listGet ([] : List (String × List LineRange)) path).getD [])
        else (listGet (initializeContext getFileAtRef files
          commitHash).fileStates path).getD "") = "" := by
        rw [if_neg]
        · exact horig
        · exact Nat.lt_irrefl 0
      have hcmem : c ∈ pathCalls gen files (initializeContext getFileAtRef
          files commitHash) path (commitChanges.flatMap
          CommitChanges.fileChanges) [] [] := by
        rw [← hflat]
        exact List.getElem?_mem hk
      have hbe := pathCalls_before_empty gen files _ path file hhonest
        hfind horig (commitChanges.flatMap CommitChanges.fileChanges) [] []
        (List.not_mem_nil path) hinv c hcmem htrue
      refine ⟨hbe, ?_⟩
      intro hdne hae
      have hcf : c ∈ fcCalls gen files (initializeContext getFileAtRef
          files commitHash) (commitChanges.flatMap
          CommitChanges.fileChanges) [] [] := (List.mem_filter.1 hcmem).1
      have hdg := fcCalls_diff_gen gen files _ _ [] [] c hcf
      apply hdne
      rw [hdg]
      exact (hhonest _ _ _ _).2 (hbe.trans hae.symm)

/-- C5 counterexample to the literal claim: for scenario C (a new file
whose first group receives only an empty added line), `buildPatches`
passes `isNewFile = true` to the diff generator twice — and the first of
those calls has an empty after-state. -/
theorem buildPatches_newfile_counterexample :
    ((((buildPatchesWithLog (fun _ _ => none) exGen [exFileC] exCCsC
        "H").2.flatMap (fun l => l)).filter
        (fun c => decide (c.filePath = "N"))).countP
      (fun c => c.isNewFile),
     (((buildPatchesWithLog (fun _ _ => none) exGen [exFileC] exCCsC
        "H").2.flatMap (fun l => l)).filter
        (fun c => decide (c.filePath = "N"))).map
       (fun c => (c.isNewFile, c.after))) =
    (2, [(true, ""), (true, "\nx")]) := by decide

theorem buildPatches_newfile_introduction_witness :
    honestGen exGen ∧ ([exFileC].map ParsedFileDiff.filePath).Nodup ∧
    (∀ calls,
      calls = ((buildPatchesWithLog (fun _ _ => none) exGen [exFileC]
        exCCsC "H").2.flatMap (fun l => l)).filter
          (fun c => decide (c.filePath = "N")) →
      (∀ (k : Nat) (c : DiffCall), calls[k]? = some c →
        c.isNewFile =
          (decide ("N" ∈ (initializeContext (fun _ _ => none) [exFileC]
            "H").newFiles) &&
          (calls.take k).all (fun cj => decide (cj.diff = "")))) ∧
      calls.countP (fun c => c.isNewFile && decide (c.diff ≠ "")) ≤ 1 ∧
      (∀ (j k : Nat) (cj c : DiffCall), j < k → calls[j]? = some cj →
        cj.diff ≠ "" → calls[k]? = some c → c.isNewFile = false) ∧
      (∀ (k : Nat) (c : DiffCall), calls[k]? = some c →
        c.isNewFile = true →
        c.before = "" ∧ (c.diff ≠ "" → c.after ≠ ""))) :=
  ⟨exGen_honest, by decide,
    buildPatches_newfile_introduction (fun _ _ => none) exGen [exFileC]
      exCCsC "H" "N" exGen_honest (by decide)⟩

/-! ## `buildPatches`: determinism and output ordering (C8) -/

theorem inner_parts_calls (gen : String → String → String → Bool → String)
    (files : List ParsedFileDiff) (ctx : PatchBuildContext) :
    ∀ (fcs : List FileChanges) (cr : List String)
      (cum : List (String × List LineRange)),
      (fcs.foldl (buildFileStep gen files ctx) (cr, cum, [], [])).2.2.1 =
        ((fcs.foldl (buildFileStep gen files ctx)
          (cr, cum, [], [])).2.2.2.filter
            (fun c => decide (c.diff ≠ ""))).map DiffCall.diff := by
  intro fcs
  induction fcs with
  | nil =>
    intro cr cum
    rfl
  | cons fc rest ih =>
    intro cr cum
    simp only [List.foldl_cons]
    cases hfind : files.find? (fun f => decide (f.filePath = fc.filePath))
      with
    | none =>
      rw [buildFileStep_none gen files ctx cr cum [] [] fc hfind]
      exact ih cr cum
    | some file =>
      rw [buildFileStep_some gen files ctx cr cum [] [] fc file hfind]
      by_cases hdiff : (callFor gen ctx file cr cum fc).diff ≠ ""
      · rw [if_pos hdiff]
        rw [buildFileStep_foldl_append gen files ctx rest
          (if (callFor gen ctx file cr cum fc).isNewFile then
            setAdd cr fc.filePath else cr)
          (listSet cum fc.filePath
            ((listGet cum fc.filePath).getD [] ++ fc.ranges))
          ([] ++ [(callFor gen ctx file cr cum fc).diff])
          ([] ++ [callFor gen ctx file cr cum fc])]
        dsimp only
        rw [List.nil_append, List.nil_append, List.filter_append]
        rw [List.filter_cons_of_pos]
        · rw [List.filter_nil, List.map_append, List.map_cons,
            List.map_nil, ih _ _]
        · exact decide_eq_true hdiff
      · rw [if_neg hdiff]
        rw [buildFileStep_foldl_append gen files ctx rest cr
          (listSet cum fc.filePath
            ((listGet cum fc.filePath).getD [] ++ fc.ranges))
          [] ([] ++ [callFor gen ctx file cr cum fc])]
        dsimp only
        rw [List.nil_append, List.nil_append, List.filter_append]
        rw [List.filter_cons_of_neg]
        · rw [List.filter_nil, List.nil_append]
          exact ih _ _
        · simp only [decide_eq_true_eq]
          exact hdiff

theorem groupEmits_map_commitId (commits : List CommitPlan)
    (emits : List Emit) :
    (groupEmits commits emits).map CommitChanges.commitId =
      planIds commits := by
  unfold groupEmits planIds
  rw [List.map_map]
  rfl

theorem buildCommitStep_foldl_append
    (gen : String → String → String → Bool → String)
    (files : List ParsedFileDiff) (ctx : PatchBuildContext) :
    ∀ (ccs : List CommitChanges) (cr : List String)
      (cum : List (String × List LineRange))
      (results : List AssembledPatch) (logs : List (List DiffCall)),
      ccs.foldl (buildCommitStep gen files ctx) (cr, cum, results, logs) =
        ((ccs.foldl (buildCommitStep gen files ctx)
          (cr, cum, [], [])).1,
          (ccs.foldl (buildCommitStep gen files ctx)
            (cr, cum, [], [])).2.1,
          results ++ (ccs.foldl (buildCommitStep gen files ctx)
            (cr, cum, [], [])).2.2.1,
          logs ++ (ccs.foldl (buildCommitStep gen files ctx)
            (cr, cum, [], [])).2.2.2) := by
  intro ccs
  induction ccs with
  | nil =>
    intro cr cum results logs
    simp
  | cons c rest ih =>
    intro cr cum results logs
    simp only [List.foldl_cons]
    rw [buildCommitStep_eq gen files ctx cr cum results logs c,
      buildCommitStep_eq gen files ctx cr cum [] [] c]
    have h1 := ih (c.fileChanges.foldl (buildFileStep gen files ctx)
        (cr, cum, [], [])).1
      (c.fileChanges.foldl (buildFileStep gen files ctx)
        (cr, cum, [], [])).2.1
      (results ++ [⟨c.commitId, c.message, c.description,
        String.join (c.fileChanges.foldl (buildFileStep gen files ctx)
          (cr, cum, [], [])).2.2.1⟩])
      (logs ++ [(c.fileChanges.foldl (buildFileStep gen files ctx)
        (cr, cum, [], [])).2.2.2])
    have h2 := ih (c.fileChanges.foldl (buildFileStep gen files ctx)
        (cr, cum, [], [])).1
      (c.fileChanges.foldl (buildFileStep gen files ctx)
        (cr, cum, [], [])).2.1
      ([] ++ [⟨c.commitId, c.message, c.description,
        String.join (c.fileChanges.foldl (buildFileStep gen files ctx)
          (cr, cum, [], [])).2.2.1⟩])
      ([] ++ [(c.fileChanges.foldl (buildFileStep gen files ctx)
        (cr, cum, [], [])).2.2.2])
    rw [h1, h2]
    simp

theorem buildPatchesWithLog_pairs
    (gen : String → String → String → Bool → String)
    (files : List ParsedFileDiff) (ctx : PatchBuildContext) :
    ∀ (ccs : List CommitChanges) (cr : List String)
      (cum : List (String × List LineRange)),
      ∃ pairs : List (AssembledPatch × List DiffCall),
        (ccs.foldl (buildCommitStep gen files ctx)
          (cr, cum, [], [])).2.2.1 = pairs.map Prod.fst ∧
        (ccs.foldl (buildCommitStep gen files ctx)
          (cr, cum, [], [])).2.2.2 = pairs.map Prod.snd ∧
        pairs.length = ccs.length ∧
        ∀ (k : Nat) (p : AssembledPatch) (l : List DiffCall),
          pairs[k]? = some (p, l) →
          ∃ cc, ccs[k]? = some cc ∧ p.commitId = cc.commitId ∧
            p.message = cc.message ∧ p.description = cc.description ∧
            p.patch = String.join ((l.filter
              (fun c => decide (c.diff ≠ ""))).map DiffCall.diff) := by
  intro ccs
  induction ccs with
  | nil =>
    intro cr cum
    refine ⟨[], rfl, rfl, rfl, ?_⟩
    intro k p l hk
    simp at hk
  | cons c rest ih =>
    intro cr cum
    obtain ⟨pairs, hp1, hp2, hp3, hp4⟩ :=
      ih (c.fileChanges.foldl (buildFileStep gen files ctx)
          (cr, cum, [], [])).1
        (c.fileChanges.foldl (buildFileStep gen files ctx)
          (cr, cum, [], [])).2.1
    refine ⟨(⟨c.commitId, c.message, c.description,
        String.join (c.fileChanges.foldl (buildFileStep gen files ctx)
          (cr, cum, [], [])).2.2.1⟩,
      (c.fileChanges.foldl (buildFileStep gen files ctx)
        (cr, cum, [], [])).2.2.2) :: pairs, ?_, ?_, ?_, ?_⟩
    · simp only [List.foldl_cons]
      rw [buildCommitStep_eq gen files ctx cr cum [] [] c]
      have hap := buildCommitStep_foldl_append gen files ctx rest
        (c.fileChanges.foldl (buildFileStep gen files ctx)
          (cr, cum, [], [])).1
        (c.fileChanges.foldl (buildFileStep gen files ctx)
          (cr, cum, [], [])).2.1
        ([] ++ [⟨c.commitId, c.message, c.description,
          String.join (c.fileChanges.foldl (buildFileStep gen files ctx)
            (cr, cum, [], [])).2.2.1⟩])
        ([] ++ [(c.fileChanges.foldl (buildFileStep gen files ctx)
          (cr, cum, [], [])).2.2.2])
      rw [hap]
      dsimp only
      rw [hp1]
      simp
    · simp only [List.foldl_cons]
      rw [buildCommitStep_eq gen files ctx cr cum [] [] c]
      have hap := buildCommitStep_foldl_append gen files ctx rest
        (c.fileChanges.foldl (buildFileStep gen files ctx)
          (cr, cum, [], [])).1
        (c.fileChanges.foldl (buildFileStep gen files ctx)
          (cr, cum, [], [])).2.1
        ([] ++ [⟨c.commitId, c.message, c.description,
          String.join (c.fileChanges.foldl (buildFileStep gen files ctx)
            (cr, cum, [], [])).2.2.1⟩])
        ([] ++ [(c.fileChanges.foldl (buildFileStep gen files ctx)
          (cr, cum, [], [])).2.2.2])
      rw [hap]
      dsimp only
      rw [hp2]
      simp
    · simp [hp3]
    · intro k p l hk
      cases k with
      | zero =>
        rw [List.getElem?_cons_zero] at hk
        have hpl := Option.some.inj hk
        have hp : p = ⟨c.commitId, c.message, c.description,
            String.join (c.fileChanges.foldl (buildFileStep gen files ctx)
              (cr, cum, [], [])).2.2.1⟩ :=
          (congrArg Prod.fst hpl).symm
        have hl : l = (c.fileChanges.foldl (buildFileStep gen files ctx)
            (cr, cum, [], [])).2.2.2 :=
          (congrArg Prod.snd hpl).symm
        refine ⟨c, by rw [List.getElem?_cons_zero], ?_, ?_, ?_, ?_⟩
        · rw [hp]
        · rw [hp]
        · rw [hp]
        · rw [hp, hl]
          have := inner_parts_calls gen files ctx c.fileChanges cr cum
          dsimp only
          rw [this]
      | succ n =>
        rw [List.getElem?_cons_succ] at hk
        obtain ⟨cc, hcc, h1, h2, h3, h4⟩ := hp4 n p l hk
        exact ⟨cc, by rw [List.getElem?_cons_succ]; exact hcc, h1, h2, h3,
          h4⟩

/-- C8: with the same diff, plan, and classification, and externally
equal responses from the content provider and the diff-generation
primitive, two runs of `extractChanges` followed by `buildPatches`
produce byte-identical `AssembledPatch` sequences; the groups are
emitted in the given plan order (one patch per plan group, carrying that
group's id, message and description), and each patch's text is the
concatenation of its group's nonempty diff fragments in the
file-processing order of the run. -/
theorem buildPatches_deterministic_ordered
    (getFileAtRef1 getFileAtRef2 : String → String → Option String)
    (gen1 gen2 : String → String → String → Bool → String)
    (files : List ParsedFileDiff) (commits : List CommitPlan)
    (classifications : List HunkClassificationResult) (commitHash : String)
    (hne : commits ≠ []) (hvalid : classValid commits classifications)
    (hget : ∀ r p, getFileAtRef1 r p = getFileAtRef2 r p)
    (hgen : ∀ p b a n, gen1 p b a n = gen2 p b a n) :
    ∃ ccs, extractChanges files commits classifications = some ccs ∧
      buildPatches getFileAtRef1 gen1 files ccs commitHash =
        buildPatches getFileAtRef2 gen2 files ccs commitHash ∧
      ccs.map CommitChanges.commitId = planIds commits ∧
      (buildPatches getFileAtRef1 gen1 files ccs commitHash).map
        AssembledPatch.commitId = planIds commits ∧
      ∀ (k : Nat) (p : AssembledPatch),
        (buildPatchesWithLog getFileAtRef1 gen1 files ccs
          commitHash).1[k]? = some p →
        ∃ (log : List DiffCall) (cc : CommitChanges),
          (buildPatchesWithLog getFileAtRef1 gen1 files ccs
            commitHash).2[k]? = some log ∧ ccs[k]? = some cc ∧
          p.commitId = cc.commitId ∧ p.message = cc.message ∧
          p.description = cc.description ∧
          p.patch = String.join ((log.filter
            (fun c => decide (c.diff ≠ ""))).map DiffCall.diff) := by
  obtain ⟨emits, hscan, hex⟩ :=
    extractChanges_total files commits classifications hne hvalid
  obtain ⟨pairs, hp1, hp2, hp3, hp4⟩ := buildPatchesWithLog_pairs gen1
    files (initializeContext getFileAtRef1 files commitHash)
    (groupEmits commits emits)
    (initializeContext getFileAtRef1 files commitHash).createdInPatch []
  have hres : (buildPatchesWithLog getFileAtRef1 gen1 files
      (groupEmits commits emits) commitHash).1 = pairs.map Prod.fst := by
    unfold buildPatchesWithLog
    dsimp only
    exact hp1
  have hlog : (buildPatchesWithLog getFileAtRef1 gen1 files
      (groupEmits commits emits) commitHash).2 = pairs.map Prod.snd := by
    unfold buildPatchesWithLog
    dsimp only
    exact hp2
  refine ⟨groupEmits commits emits, hex, ?_, ?_, ?_, ?_⟩
  · have h1 : getFileAtRef1 = getFileAtRef2 :=
      funext fun r => funext fun p => hget r p
    have h2 : gen1 = gen2 :=
      funext fun p => funext fun b => funext fun a => funext fun n =>
        hgen p b a n
    rw [h1, h2]
  · exact groupEmits_map_commitId commits emits
  · have hbp : buildPatches getFileAtRef1 gen1 files
        (groupEmits commits emits) commitHash = pairs.map Prod.fst := by
      unfold buildPatches
      exact hres
    rw [hbp, ← groupEmits_map_commitId commits emits]
    apply List.ext_getElem?
    intro n
    rw [List.getElem?_map, List.getElem?_map, List.getElem?_map]
    cases hn : pairs[n]? with
    | none =>
      have hlen : pairs.length ≤ n := List.getElem?_eq_none_iff.1 hn
      have hccs : (groupEmits commits emits)[n]? = none := by
        rw [List.getElem?_eq_none_iff]
        omega
      rw [hccs]
      rfl
    | some pl =>
      obtain ⟨p, l⟩ := pl
      obtain ⟨cc, hcc, hid, _, _, _⟩ := hp4 n p l hn
      rw [hcc]
      show some p.commitId = some cc.commitId
      rw [hid]
  · intro k p hk
    rw [hres, List.getElem?_map] at hk
    cases hpk : pairs[k]? with
    | none =>
      rw [hpk] at hk
      cases hk
    | some pl =>
      obtain ⟨p', l⟩ := pl
      rw [hpk] at hk
      have hp' : p' = p := Option.some.inj hk
      subst hp'
      obtain ⟨cc, hcc, h1, h2, h3, h4⟩ := hp4 k p' l hpk
      refine ⟨l, cc, ?_, hcc, h1, h2, h3, h4⟩
      rw [hlog, List.getElem?_map, hpk]
      rfl

theorem buildPatches_deterministic_ordered_witness :
    ∃ ccs, extractChanges [exFileA] exPlan exClsA = some ccs ∧
      buildPatches (fun _ _ => none) exGen [exFileA] ccs "H" =
        buildPatches (fun _ _ => none) exGen [exFileA] ccs "H" ∧
      ccs.map CommitChanges.commitId = planIds exPlan ∧
      (buildPatches (fun _ _ => none) exGen [exFileA] ccs "H").map
        AssembledPatch.commitId = planIds exPlan ∧
      ∀ (k : Nat) (p : AssembledPatch),
        (buildPatchesWithLog (fun _ _ => none) exGen [exFileA] ccs
          "H").1[k]? = some p →
        ∃ (log : List DiffCall) (cc : CommitChanges),
          (buildPatchesWithLog (fun _ _ => none) exGen [exFileA] ccs
            "H").2[k]? = some log ∧ ccs[k]? = some cc ∧
          p.commitId = cc.commitId ∧ p.message = cc.message ∧
          p.description = cc.description ∧
          p.patch = String.join ((log.filter
            (fun c => decide (c.diff ≠ ""))).map DiffCall.diff) :=
  buildPatches_deterministic_ordered (fun _ _ => none) (fun _ _ => none)
    exGen exGen [exFileA] exPlan exClsA "H" (by decide)
    (by unfold classValid planIds; decide) (fun _ _ => rfl)
    (fun _ _ _ _ => rfl)
